import Mathlib

/-!
# DirTree: an in-memory directory tree (src/DirTree.cpp)

A shallow embedding of `CFSPathIterator`, `CFSNode` and `CDirectoryList`.

* `std::wstring` is `List Char`; the delimiter is the backslash.
* The heap of `CFSNode` objects hanging off `g_pRoot` is the value of the root
  node: a node owns its children, a child slot holds a node or `NULL`
  (`RemoveChild` writes `NULL` into the slot and never erases it).
* A `CFSNode*` is the address of the node in that heap: the list of slot
  indices leading to it, innermost index first, so that `m_pParent` of
  `i :: p` is `p` and the root (whose `m_pParent` is `NULL`) is `[]`.  The
  constructor is only ever called with the owner as `pParent` (lines 147 and
  181), and slots are only appended or nulled, so an address names the same
  object for as long as the object lives.
* Methods that mutate take the root and return the new root.
* Loops driven by `CFSPathIterator::GetNext` carry a step budget; the entry
  points pass `size() + 1`, which is never exhausted (`FindLoop_eq`,
  `BuildPathLoop_eq`).
* Directory enumeration is an oracle from the search pattern to a failure or a
  list of entries. `Expand` carries a bound on the depth of its recursion and
  gives `none` when the bound is reached; it returns whenever the directory
  tree below the node is finite (`Expand_returns`).
-/

namespace DirTree

/-- A `std::wstring`. -/
abbrev WString := List Char

/-- A `CFSNode*` that is not `NULL`: slot indices from the node up to the root. -/
abbrev Addr := List Nat

/-- The call `s.find(ch, pos)`: the first index at or after `pos` holding `ch`;
`none` is `npos`. -/
def wfind (s : WString) (ch : Char) (pos : Nat) : Option Nat :=
  let i := (s.drop pos).indexOf ch
  if pos + i < s.length then some (pos + i) else none

/-- The call `s.substr(pos, n)`, for `pos ≤ s.size()`. -/
def substr (s : WString) (pos n : Nat) : WString := (s.drop pos).take n

/-- The call `wcsrchr(s, ch)`: the index of the last `ch` in `s`, `none` for a
null result. -/
def wcsrchr (s : WString) (ch : Char) : Option Nat :=
  match s with
  | [] => none
  | c :: cs =>
    match wcsrchr cs ch with
    | some i => some (i + 1)
    | none => if c = ch then some 0 else none

/-- File-system path iterator. -/
structure CFSPathIterator where
  m_strFullName : WString
  m_ich : Nat

/-- The constructor `CFSPathIterator(strFullName)`. -/
def CFSPathIterator.new (strFullName : WString) : CFSPathIterator :=
  ⟨strFullName, 0⟩

/-- The method `GetPath`. -/
def CFSPathIterator.GetPath (it : CFSPathIterator) : WString :=
  if it.m_ich = 0 ∨ it.m_ich ≥ it.m_strFullName.length then it.m_strFullName
  else substr it.m_strFullName 0 (it.m_ich - 1)

/-- The method `GetNext`: `none` is the result `false`; otherwise the string
written to `strNext` and the iterator after the call. -/
def CFSPathIterator.GetNext (it : CFSPathIterator) : Option (WString × CFSPathIterator) :=
  if it.m_ich ≥ it.m_strFullName.length then none
  else
    match wfind it.m_strFullName '\\' it.m_ich with
    | none =>
      let ich := it.m_strFullName.length
      some (substr it.m_strFullName it.m_ich (ich - it.m_ich), ⟨it.m_strFullName, ich⟩)
    | some ich =>
      some (substr it.m_strFullName it.m_ich (ich - it.m_ich), ⟨it.m_strFullName, ich + 1⟩)

/-- File-system node: name, expanded flag and child slots (`none` is a `NULL`
slot). The parent pointer is the owner, see the header. -/
inductive CFSNode where
  | mk (m_strName : WString) (m_bExpand : Bool) (m_children : List (Option CFSNode))

/-- The field `m_strName`. -/
def CFSNode.m_strName : CFSNode → WString
  | .mk s _ _ => s

/-- The field `m_bExpand`. -/
def CFSNode.m_bExpand : CFSNode → Bool
  | .mk _ e _ => e

/-- The field `m_children`. -/
def CFSNode.m_children : CFSNode → List (Option CFSNode)
  | .mk _ _ cs => cs

/-- The constructor `CFSNode(strName, pParent)`: collapsed, no children. -/
def CFSNode.new (strName : WString) : CFSNode := .mk strName false []

/-- Slot `i` of a node, `none` when the slot is `NULL` or out of range. -/
def CFSNode.child (n : CFSNode) (i : Nat) : Option CFSNode :=
  n.m_children[i]?.join

/-- Dereference a pointer in the heap under `root`; `none` when no live node
is at that address. -/
def deref (root : CFSNode) : Addr → Option CFSNode
  | [] => some root
  | i :: p =>
    match deref root p with
    | some n => n.child i
    | none => none

/-- Apply `f` to the node in slot `i`, if the slot is live. -/
def CFSNode.modifyChild (i : Nat) (f : CFSNode → CFSNode) : CFSNode → CFSNode
  | .mk s e cs => .mk s e (cs.modify (Option.map f) i)

/-- Write through a pointer: replace the node at the address by `f` of it. -/
def update (root : CFSNode) : Addr → (CFSNode → CFSNode) → CFSNode
  | [], f => f root
  | i :: p, f => update root p (CFSNode.modifyChild i f)

/-- The assignment `m_bExpand = b` on a node. -/
def CFSNode.setExpand (b : Bool) : CFSNode → CFSNode
  | .mk s _ cs => .mk s b cs

/-- The assignment `m_strName = s` on a node. -/
def CFSNode.setName (s : WString) : CFSNode → CFSNode
  | .mk _ e cs => .mk s e cs

/-- The call `m_children.push_back(pChild)` on a node. -/
def CFSNode.push_back (c : CFSNode) : CFSNode → CFSNode
  | .mk s e cs => .mk s e (cs ++ [some c])

/-- The assignment `pChild = NULL` on slot `i`, with `delete` of the old node. -/
def CFSNode.clearSlot (i : Nat) : CFSNode → CFSNode
  | .mk s e cs => .mk s e (cs.set i none)

/-- The scan of `FindChild` over the slots: the index of the first live slot
whose node has the name. -/
def findSlot (strName : WString) : List (Option CFSNode) → Option Nat
  | [] => none
  | some c :: rest =>
    if c.m_strName = strName then some 0 else (findSlot strName rest).map (· + 1)
  | none :: rest => (findSlot strName rest).map (· + 1)

/-- The method `FindChild` of the node `this`; `none` is `NULL`. -/
def FindChild (root : CFSNode) (this : Addr) (strName : WString) : Option Addr :=
  match deref root this with
  | some n => (findSlot strName n.m_children).map (· :: this)
  | none => none

/-- The method `GetFullName` of the node `this`. -/
def GetFullName (root : CFSNode) : Addr → WString
  | [] =>
    let ret : WString := []
    let ret := if ret.length ≠ 0 then ret ++ ['\\'] else ret
    ret ++ ((deref root []).map CFSNode.m_strName).getD []
  | i :: p =>
    let ret := GetFullName root p
    let ret := if ret.length ≠ 0 then ret ++ ['\\'] else ret
    ret ++ ((deref root (i :: p)).map CFSNode.m_strName).getD []

/-- The loop of `RemoveChild`: the index of the first slot whose pointer is
`pNode`. The pointer in live slot `j` of `this` is `j :: this`. -/
def RemoveChildLoop (this pNode : Addr) : List (Option CFSNode) → Nat → Option Nat
  | [], _ => none
  | s :: rest, j =>
    if s.isSome ∧ j :: this = pNode then some j else RemoveChildLoop this pNode rest (j + 1)

/-- The method `RemoveChild` of the node `this`: result and new root. -/
def RemoveChild (root : CFSNode) (this pNode : Addr) : Bool × CFSNode :=
  match deref root this with
  | some n =>
    match RemoveChildLoop this pNode n.m_children 0 with
    | some j => (true, update root this (CFSNode.clearSlot j))
    | none => (false, root)
  | none => (false, root)

/-- The method `Remove` of the node `this`: result and new root. -/
def Remove (root : CFSNode) (this : Addr) : Bool × CFSNode :=
  match this with
  | _ :: pParent => RemoveChild root pParent this
  | [] => (false, root)

/-- The loop of `Find`, with a step budget. -/
def FindLoop (root : CFSNode) : Nat → Addr → CFSPathIterator → Option Addr
  | 0, pNode, _ => some pNode
  | fuel + 1, pNode, it =>
    match it.GetNext with
    | none => some pNode
    | some (strName, it') =>
      match FindChild root pNode strName with
      | none => none
      | some pChild => FindLoop root fuel pChild it'

/-- The method `Find` of the node `this`; `none` is `NULL`. -/
def Find (root : CFSNode) (this : Addr) (strFullName : WString) : Option Addr :=
  FindLoop root (strFullName.length + 1) this (CFSPathIterator.new strFullName)

/-- The method `MarkNotExpanded` of the node `this`: the loop clears the flag
of `pNode` and moves to `pNode->m_pParent`, which is `NULL` at the root. -/
def MarkNotExpanded (root : CFSNode) : Addr → CFSNode
  | [] => update root [] (CFSNode.setExpand false)
  | i :: p => MarkNotExpanded (update root (i :: p) (CFSNode.setExpand false)) p

/-- The number of slots of the node at an address. -/
def numSlots (root : CFSNode) (a : Addr) : Nat :=
  ((deref root a).map (fun n => n.m_children.length)).getD 0

/-- The loop of `BuildPath`, with a step budget: new root and `pNode`. -/
def BuildPathLoop (bMarkNotExpanded : Bool) :
    Nat → CFSNode → Addr → CFSPathIterator → CFSNode × Addr
  | 0, root, pNode, _ => (root, pNode)
  | fuel + 1, root, pNode, it =>
    match it.GetNext with
    | none => (root, pNode)
    | some (strName, it') =>
      match FindChild root pNode strName with
      | some pChild => BuildPathLoop bMarkNotExpanded fuel root pChild it'
      | none =>
        let pChild := numSlots root pNode :: pNode
        let root := update root pNode (CFSNode.push_back (CFSNode.new strName))
        let root := if bMarkNotExpanded then MarkNotExpanded root pNode else root
        BuildPathLoop bMarkNotExpanded fuel root pChild it'

/-- The method `BuildPath` of the node `this`: new root and returned node. -/
def BuildPath (root : CFSNode) (this : Addr) (strFullName : WString)
    (bMarkNotExpanded : Bool) : CFSNode × Addr :=
  BuildPathLoop bMarkNotExpanded (strFullName.length + 1) root this
    (CFSPathIterator.new strFullName)

/-- The fields of `WIN32_FIND_DATAW` that `Expand` reads. -/
structure WIN32_FIND_DATAW where
  cFileName : WString
  dwFileAttributes : Nat

/-- The Win32 constant `FILE_ATTRIBUTE_DIRECTORY`. -/
def FILE_ATTRIBUTE_DIRECTORY : Nat := 0x10

/-- The Win32 constant `FILE_ATTRIBUTE_REPARSE_POINT`. -/
def FILE_ATTRIBUTE_REPARSE_POINT : Nat := 0x400

/-- Directory enumeration: from the search pattern to `none` when
`FindFirstFileW` gives `INVALID_HANDLE_VALUE`, else to the entries that
`FindFirstFileW` and `FindNextFileW` deliver. -/
abbrev Oracle := WString → Option (List WIN32_FIND_DATAW)

/-- The test at the head of the loop of `Expand` that skips an entry. -/
def skipEntry (find : WIN32_FIND_DATAW) : Bool :=
  find.cFileName = ['.'] || find.cFileName = ['.', '.'] ||
  (find.dwFileAttributes &&& FILE_ATTRIBUTE_DIRECTORY) = 0 ||
  (find.dwFileAttributes &&& FILE_ATTRIBUTE_REPARSE_POINT) ≠ 0

/-- The loop of `Expand` over the entries; `expandChild` is the recursive call
`pNode->Expand()`. `none` when a recursive call does not return. -/
def ExpandLoop (expandChild : CFSNode → Addr → Option CFSNode) (this : Addr) :
    List WIN32_FIND_DATAW → CFSNode → Option CFSNode
  | [], root => some root
  | find :: rest, root =>
    if skipEntry find then ExpandLoop expandChild this rest root
    else
      let (root, pNode) :=
        match FindChild root this find.cFileName with
        | some pNode => (root, pNode)
        | none =>
          (update root this (CFSNode.push_back (CFSNode.new find.cFileName)),
            numSlots root this :: this)
      match expandChild root pNode with
      | none => none
      | some root => ExpandLoop expandChild this rest root

/-- The method `Expand` of the node `this`, with a bound on the depth of the
recursion: `none` when the bound is reached, else the new root. -/
def Expand (oracle : Oracle) : Nat → CFSNode → Addr → Option CFSNode
  | 0, _, _ => none
  | depth + 1, root, this =>
    if ((deref root this).map CFSNode.m_bExpand).getD false then some root
    else
      let strSpec := GetFullName root this
      let strSpec := strSpec ++ ['\\', '*']
      match oracle strSpec with
      | none => some root
      | some entries =>
        match ExpandLoop (Expand oracle depth) this entries root with
        | none => none
        | some root => some (update root this (CFSNode.setExpand true))

/-- The method `CDirectoryList::ContainsPath`. -/
def ContainsPath (g_pRoot : CFSNode) (pszPath : WString) : Bool :=
  (Find g_pRoot [] pszPath).isSome

/-- The method `CDirectoryList::AddPath`: result and new root. -/
def AddPath (g_pRoot : CFSNode) (pszPath : WString) : Bool × CFSNode :=
  let r := BuildPath g_pRoot [] pszPath true
  (true, r.1)

/-- The method `CDirectoryList::AddPathsFromDirectory`, with the depth bound
of `Expand`: result and new root. -/
def AddPathsFromDirectory (oracle : Oracle) (depth : Nat) (g_pRoot : CFSNode)
    (pszDirectoryPath : WString) : Option (Bool × CFSNode) :=
  let r := BuildPath g_pRoot [] pszDirectoryPath true
  match Expand oracle depth r.1 r.2 with
  | none => none
  | some root => some (true, root)

/-- The method `CDirectoryList::RenamePath`: result and new root. -/
def RenamePath (g_pRoot : CFSNode) (pszPath1 pszPath2 : WString) : Bool × CFSNode :=
  match Find g_pRoot [] pszPath1 with
  | some pNode =>
    match wcsrchr pszPath2 '\\' with
    | some pch => (true, update g_pRoot pNode (CFSNode.setName (pszPath2.drop (pch + 1))))
    | none => (false, g_pRoot)
  | none => (false, g_pRoot)

/-- The method `CDirectoryList::DeletePath`: result and new root. -/
def DeletePath (g_pRoot : CFSNode) (pszPath : WString) : Bool × CFSNode :=
  match Find g_pRoot [] pszPath with
  | some pNode => (true, (Remove g_pRoot pNode).2)
  | none => (false, g_pRoot)

/-- The root that `WinMain` creates: `new CFSNode(L"")`. -/
def freshRoot : CFSNode := CFSNode.new []

/-- The pieces of a path between backslashes, a final empty piece dropped:
`acc` is the piece being read. -/
def splitAux : WString → WString → List WString
  | acc, [] => if acc = [] then [] else [acc]
  | acc, c :: cs => if c = '\\' then acc :: splitAux [] cs else splitAux (acc ++ [c]) cs

/-- The components of a path, as a list. -/
def components (strFullName : WString) : List WString := splitAux [] strFullName

/-- The loop of `Find` over a list of components. -/
def findFrom (root : CFSNode) : Addr → List WString → Option Addr
  | pNode, [] => some pNode
  | pNode, strName :: rest =>
    match FindChild root pNode strName with
    | none => none
    | some pChild => findFrom root pChild rest

/-- The loop of `BuildPath` over a list of components. -/
def buildFrom (bMarkNotExpanded : Bool) : CFSNode → Addr → List WString → CFSNode × Addr
  | root, pNode, [] => (root, pNode)
  | root, pNode, strName :: rest =>
    match FindChild root pNode strName with
    | some pChild => buildFrom bMarkNotExpanded root pChild rest
    | none =>
      let pChild := numSlots root pNode :: pNode
      let root := update root pNode (CFSNode.push_back (CFSNode.new strName))
      let root := if bMarkNotExpanded then MarkNotExpanded root pNode else root
      buildFrom bMarkNotExpanded root pChild rest

/-- The fields of the node itself: name, flag and number of slots. -/
def CFSNode.own (n : CFSNode) : WString × Bool × Nat :=
  (n.m_strName, n.m_bExpand, n.m_children.length)

/-- The name of the node at an address, `none` when no live node is there. -/
def nameAt (root : CFSNode) (a : Addr) : Option WString :=
  (deref root a).map CFSNode.m_strName

/-- The expanded flag of the node at an address. -/
def flagAt (root : CFSNode) (a : Addr) : Option Bool :=
  (deref root a).map CFSNode.m_bExpand

/-- The number of slots of the node at an address, `none` when no live node
is there. -/
def slotsAt (root : CFSNode) (a : Addr) : Option Nat :=
  (deref root a).map (fun n => n.m_children.length)

/-- The body of the loop of `BuildPath` after `FindChild` gave `NULL`: the
root after `new`, `push_back` and the optional `MarkNotExpanded`. -/
def createChild (bMarkNotExpanded : Bool) (root : CFSNode) (pNode : Addr)
    (strName : WString) : CFSNode :=
  let root := update root pNode (CFSNode.push_back (CFSNode.new strName))
  if bMarkNotExpanded then MarkNotExpanded root pNode else root

/-- The string `GetFullName` builds when it climbs down from a node whose full
name is `ret` through nodes named `comps`. -/
def joinFrom (ret : WString) : List WString → WString
  | [] => ret
  | c :: rest => joinFrom ((if ret.length ≠ 0 then ret ++ ['\\'] else ret) ++ c) rest

/-- The strings that successive calls of `GetNext` yield until it returns
`false`, with a step budget. -/
def tokensLoop : Nat → CFSPathIterator → List WString
  | 0, _ => []
  | fuel + 1, it =>
    match it.GetNext with
    | none => []
    | some (strNext, it') => strNext :: tokensLoop fuel it'

/-- The components of a path as a new `CFSPathIterator` yields them. -/
def tokens (strFullName : WString) : List WString :=
  tokensLoop (strFullName.length + 1) (CFSPathIterator.new strFullName)

/-- No two live children of a node share a name. -/
def NoDupNames (root : CFSNode) : Prop :=
  ∀ (p : Addr) (i j : Nat) (x : WString),
    nameAt root (i :: p) = some x → nameAt root (j :: p) = some x → i = j

/-- The tree of the invalidation example: `A` and `A\\B` exist and are
expanded. -/
def expandedAB : CFSNode :=
  .mk [] false [some (.mk ['A'] true [some (.mk ['B'] true [])])]

/-- A tree the index operations reach in which the node `A` has two live
children named `C`: `AddPath` of `A\\B` and of `A\\C`, then `RenamePath` of
`A\\B` to `A\\C`. -/
def twoChildrenNamedC : CFSNode :=
  (RenamePath (AddPath (AddPath freshRoot "A\\B".toList).2 "A\\C".toList).2
    "A\\B".toList "A\\C".toList).2

/-- The renames after which no two live siblings share a name: the new name,
the part of `pszPath2` behind its last backslash, is not the name of another
live child of the parent of the renamed node. -/
def RenameKeepsUnique (g_pRoot : CFSNode) (pszPath1 pszPath2 : WString) : Prop :=
  ∀ (i : Nat) (p : Addr) (pch : Nat), Find g_pRoot [] pszPath1 = some (i :: p) →
    wcsrchr pszPath2 '\\' = some pch →
    ∀ j, j ≠ i → nameAt g_pRoot (j :: p) ≠ some (pszPath2.drop (pch + 1))

/-- The trees that some finite sequence of `AddPath`, `AddPathsFromDirectory`
(with any enumeration oracle, when `Expand` returns), `RenamePath` and
`DeletePath` reaches from the fresh root; `renameAllowed` says which
`RenamePath` calls the sequence may contain. -/
inductive Reachable (renameAllowed : CFSNode → WString → WString → Prop) : CFSNode → Prop
  | fresh : Reachable renameAllowed freshRoot
  | addPath (r : CFSNode) (P : WString) :
      Reachable renameAllowed r → Reachable renameAllowed (AddPath r P).2
  | addPathsFromDirectory (r : CFSNode) (oracle : Oracle) (depth : Nat) (P : WString)
      (res : Bool × CFSNode) :
      Reachable renameAllowed r → AddPathsFromDirectory oracle depth r P = some res →
      Reachable renameAllowed res.2
  | renamePath (r : CFSNode) (P1 P2 : WString) :
      Reachable renameAllowed r → renameAllowed r P1 P2 →
      Reachable renameAllowed (RenamePath r P1 P2).2
  | deletePath (r : CFSNode) (P : WString) :
      Reachable renameAllowed r → Reachable renameAllowed (DeletePath r P).2

/-- The passage from one root to a later one keeps names unique and keeps
every live node live. -/
def Keeps (r r' : CFSNode) : Prop :=
  (NoDupNames r → NoDupNames r') ∧ ∀ b, (deref r b).isSome → (deref r' b).isSome

/-- An enumeration for the examples: `A` holds the pseudo-entry `.`, the plain
directory `sub`, the file `file` and the reparse-point directory `link`;
`A\\sub` is empty; nothing else can be enumerated. -/
def exampleOracle : Oracle := fun strSpec =>
  if strSpec = "A\\*".toList then
    some [⟨".".toList, 0x10⟩, ⟨"sub".toList, 0x10⟩, ⟨"file".toList, 0x20⟩,
      ⟨"link".toList, 0x410⟩]
  else if strSpec = "A\\sub\\*".toList then some []
  else none

/-- The tree after `AddPath` of `A\\B` on the fresh root and
`AddPathsFromDirectory` of `A` under `exampleOracle`. -/
def exampleScanned : Bool × CFSNode :=
  (AddPathsFromDirectory exampleOracle 3 (AddPath freshRoot "A\\B".toList).2
    "A".toList).getD (false, freshRoot)

/-- The walk of the specification: from a node, for each component in order,
to the first live child whose name is the component. -/
inductive IsWalk (root : CFSNode) : Addr → List WString → Addr → Prop
  | done (a : Addr) : IsWalk root a [] a
  | step (a : Addr) (i : Nat) (c : WString) (rest : List WString) (b : Addr) :
      nameAt root (i :: a) = some c → (∀ j, j < i → nameAt root (j :: a) ≠ some c) →
      IsWalk root (i :: a) rest b → IsWalk root a (c :: rest) b

/-- The walk of the specification reaches a step at which the node has no live
child named by the component. -/
inductive IsStuck (root : CFSNode) : Addr → List WString → Prop
  | here (a : Addr) (c : WString) (rest : List WString) :
      (∀ i, nameAt root (i :: a) ≠ some c) → IsStuck root a (c :: rest)
  | later (a : Addr) (i : Nat) (c : WString) (rest : List WString) :
      nameAt root (i :: a) = some c → (∀ j, j < i → nameAt root (j :: a) ≠ some c) →
      IsStuck root (i :: a) rest → IsStuck root a (c :: rest)

/-- The iterator after `k` calls of `GetNext`, with the components those
calls yielded; a call that returns `false` leaves the iterator as it is. -/
def callGetNext : Nat → CFSPathIterator → CFSPathIterator × List WString
  | 0, it => (it, [])
  | k + 1, it =>
    match it.GetNext with
    | none => callGetNext k it
    | some (strNext, it') => ((callGetNext k it').1, strNext :: (callGetNext k it').2)

/-- The pieces of a split with the last piece dropped when it is empty. -/
def dropLastIfEmpty (pieces : List WString) : List WString :=
  if pieces.getLast? = some [] then pieces.dropLast else pieces

/-- The address lies at or below a slot index that the tree does not have: no
node of the tree is there, and a node created later by `push_back` is. -/
def Beyond (root : CFSNode) (b : Addr) : Prop :=
  ∃ (c : Addr) (j : Nat) (p : Addr), b = c ++ j :: p ∧ numSlots root p ≤ j

/-- The trees that some finite sequence of `AddPath`, `RenamePath` and
`DeletePath` reaches from the fresh root; `renameAllowed` says which
`RenamePath` calls the sequence may contain. -/
inductive ReachableByPaths (renameAllowed : CFSNode → WString → WString → Prop) :
    CFSNode → Prop
  | fresh : ReachableByPaths renameAllowed freshRoot
  | addPath (r : CFSNode) (P : WString) :
      ReachableByPaths renameAllowed r → ReachableByPaths renameAllowed (AddPath r P).2
  | renamePath (r : CFSNode) (P1 P2 : WString) :
      ReachableByPaths renameAllowed r → renameAllowed r P1 P2 →
      ReachableByPaths renameAllowed (RenamePath r P1 P2).2
  | deletePath (r : CFSNode) (P : WString) :
      ReachableByPaths renameAllowed r → ReachableByPaths renameAllowed (DeletePath r P).2

/-- What a call of `Expand` on the node at `a` leaves alone: the own fields of
every node outside the subtree at `a`, and the name of the node at `a`. -/
def ExpandFrame (r : CFSNode) (a : Addr) (r' : CFSNode) : Prop :=
  (∀ b, ¬ a <:+ b → (deref r' b).map CFSNode.own = (deref r b).map CFSNode.own) ∧
    nameAt r' a = nameAt r a

/-- The full name `GetFullName` gives a node named `name` whose parent has the
full name `s`. -/
def childPath (s name : WString) : WString :=
  (if s.length ≠ 0 then s ++ ['\\'] else s) ++ name

/-- The directory tree that the oracle shows below the path `s` has no chain of
subdirectories of `d` or more levels: the enumeration of `s` fails, or it
succeeds and every entry that `Expand` does not skip is such a tree one level
lower. -/
inductive FiniteBelow (oracle : Oracle) : Nat → WString → Prop
  | fail (d : Nat) (s : WString) :
      oracle (s ++ ['\\', '*']) = none → FiniteBelow oracle (d + 1) s
  | ok (d : Nat) (s : WString) (L : List WIN32_FIND_DATAW) :
      oracle (s ++ ['\\', '*']) = some L →
      (∀ e, e ∈ L → skipEntry e = false → FiniteBelow oracle d (childPath s e.cFileName)) →
      FiniteBelow oracle (d + 1) s

/-- The child list of the node at an address: per slot, the name of the child,
or `none` for a `NULL` slot. -/
def slotNames (root : CFSNode) (a : Addr) : List (Option WString) :=
  ((deref root a).map
    (fun n => n.m_children.map (Option.map CFSNode.m_strName))).getD []

/-- The names of the live children of the node at an address, in slot order. -/
def liveNames (root : CFSNode) (a : Addr) : List WString :=
  (slotNames root a).reduceOption

/-- In the words of the specification: the entry is a directory, is not a
reparse point and is neither `.` nor `..`. -/
def isPlainSubdirectory (e : WIN32_FIND_DATAW) : Bool :=
  decide ((e.dwFileAttributes &&& FILE_ATTRIBUTE_DIRECTORY) ≠ 0) &&
    decide ((e.dwFileAttributes &&& FILE_ATTRIBUTE_REPARSE_POINT) = 0) &&
    decide (e.cFileName ≠ ['.']) && decide (e.cFileName ≠ ['.', '.'])

/-- A list without its repetitions: each name stays at its first occurrence. -/
def firstOccurrences : List WString → List WString
  | [] => []
  | x :: xs => x :: (firstOccurrences xs).filter (fun y => decide (y ≠ x))

/-- In the words of the specification: the names of the entries of the listing
that are plain subdirectories and did not already name a child, in listing
order and without repetition. -/
def specNewChildren (existing : List WString) (L : List WIN32_FIND_DATAW) : List WString :=
  firstOccurrences
    (((L.filter isPlainSubdirectory).map WIN32_FIND_DATAW.cFileName).filter
      (fun c => decide (c ∉ existing)))

/-- The names of the children that the loop of `Expand` creates, when `cur`
are the names of the live children before the loop. -/
def loopNames (cur : List WString) : List WIN32_FIND_DATAW → List WString
  | [] => []
  | e :: es =>
    if skipEntry e then loopNames cur es
    else if e.cFileName ∈ cur then loopNames cur es
    else e.cFileName :: loopNames (cur ++ [e.cFileName]) es

/-- A listing with a regular file, a reparse-point directory and two plain
subdirectories. -/
def exampleEntries : List WIN32_FIND_DATAW :=
  [⟨"file".toList, 0x20⟩, ⟨"link".toList, 0x410⟩, ⟨"one".toList, 0x10⟩,
    ⟨"two".toList, 0x10⟩]

/-- An enumeration that gives `exampleEntries` for `A` and an empty listing for
its two subdirectories; nothing else can be enumerated. -/
def exampleListing : Oracle := fun strSpec =>
  if strSpec = "A\\*".toList then some exampleEntries
  else if strSpec = "A\\one\\*".toList then some []
  else if strSpec = "A\\two\\*".toList then some []
  else none

/-- The directory tree that the oracle shows below the path `s` is finite, with
fewer than `d` levels, and every enumeration in it succeeds. -/
inductive FiniteOk (oracle : Oracle) : Nat → WString → Prop
  | mk (d : Nat) (s : WString) (L : List WIN32_FIND_DATAW) :
      oracle (s ++ ['\\', '*']) = some L →
      (∀ e, e ∈ L → skipEntry e = false → FiniteOk oracle d (childPath s e.cFileName)) →
      FiniteOk oracle (d + 1) s

/-- The chain of names leads down from the directory `s` through plain
subdirectories that the oracle lists. -/
def OracleChain (oracle : Oracle) : WString → List WString → Prop
  | _, [] => True
  | s, c :: rest =>
    (∃ L e, oracle (s ++ ['\\', '*']) = some L ∧ e ∈ L ∧ skipEntry e = false ∧
      e.cFileName = c) ∧ OracleChain oracle (childPath s c) rest

/-- The chain of names leads down from the node at `a` through live nodes of
the tree. -/
def HasChain (root : CFSNode) : Addr → List WString → Prop
  | a, [] => (deref root a).isSome
  | a, c :: rest => ∃ i, nameAt root (i :: a) = some c ∧ HasChain root (i :: a) rest

/-- The subtree at `a` is the deep expansion of the directory `s`: every node
of it is expanded, and its name chains are the chains of plain subdirectories
below `s`. -/
def DeepExpanded (oracle : Oracle) (root : CFSNode) (a : Addr) (s : WString) : Prop :=
  (∀ x, (deref root (x ++ a)).isSome → flagAt root (x ++ a) = some true) ∧
    ∀ chain, HasChain root a chain ↔ OracleChain oracle s chain

/-! ## The tokenizer -/

theorem splitAux_spec (u acc : WString) :
    splitAux acc u =
      if u.indexOf '\\' < u.length then
        (acc ++ u.take (u.indexOf '\\')) :: splitAux [] (u.drop (u.indexOf '\\' + 1))
      else if acc ++ u = [] then [] else [acc ++ u] := by
  induction u generalizing acc with
  | nil => simp [splitAux]
  | cons c cs ih =>
    by_cases hc : c = '\\'
    · subst hc
      simp [splitAux]
    · rw [splitAux, if_neg hc, ih, List.indexOf_cons_ne _ hc]
      simp

theorem GetNext_none (s : WString) (ich : Nat) (h : s.length ≤ ich) :
    (CFSPathIterator.mk s ich).GetNext = none ∧ components (s.drop ich) = [] := by
  constructor
  · simp [CFSPathIterator.GetNext, h]
  · rw [List.drop_of_length_le h]; rfl

theorem GetNext_some (s : WString) (ich : Nat) (h : ich < s.length) :
    ∃ tok ich', (CFSPathIterator.mk s ich).GetNext = some (tok, ⟨s, ich'⟩) ∧
      ich < ich' ∧ ich' ≤ s.length ∧
      components (s.drop ich) = tok :: components (s.drop ich') := by
  have hlen : (s.drop ich).length = s.length - ich := List.length_drop ich s
  have hle : (s.drop ich).indexOf '\\' ≤ s.length - ich := hlen ▸ List.indexOf_le_length
  by_cases hf : (s.drop ich).indexOf '\\' < (s.drop ich).length
  · refine ⟨(s.drop ich).take ((s.drop ich).indexOf '\\'), ich + (s.drop ich).indexOf '\\' + 1, ?_, ?_, ?_, ?_⟩
    · have : ich + (s.drop ich).indexOf '\\' < s.length := by omega
      simp [CFSPathIterator.GetNext, wfind, substr, this, Nat.not_le.mpr h]
    · omega
    · omega
    · rw [components, splitAux_spec, if_pos hf]
      simp [components, List.drop_drop, Nat.add_assoc]
  · refine ⟨s.drop ich, s.length, ?_, h, le_refl _, ?_⟩
    · have : ¬ ich + (s.drop ich).indexOf '\\' < s.length := by omega
      simp [CFSPathIterator.GetNext, wfind, substr, this, Nat.not_le.mpr h]
    · have hne : s.drop ich ≠ [] := by
        intro h0; rw [h0] at hlen; simp at hlen; omega
      rw [components, splitAux_spec, if_neg hf]
      simp [hne, components, splitAux]

theorem tokensLoop_eq (s : WString) :
    ∀ (fuel ich : Nat), s.length - ich < fuel →
      tokensLoop fuel ⟨s, ich⟩ = components (s.drop ich) := by
  intro fuel
  induction fuel with
  | zero => intro ich h; omega
  | succ n ih =>
    intro ich h
    by_cases hi : ich < s.length
    · obtain ⟨tok, ich', hg, h1, h2, hc⟩ := GetNext_some s ich hi
      rw [tokensLoop, hg, hc]
      dsimp only
      rw [ih ich' (by omega)]
    · obtain ⟨hg, hc⟩ := GetNext_none s ich (Nat.le_of_not_lt hi)
      rw [tokensLoop, hg, hc]

theorem tokens_eq (P : WString) : tokens P = components P := by
  have := tokensLoop_eq P (P.length + 1) 0 (by omega)
  simpa [tokens, CFSPathIterator.new] using this

theorem splitAux_prefix (u Q : WString) :
    ∀ acc : WString, splitAux acc u <+: splitAux acc (u ++ '\\' :: Q) := by
  induction u with
  | nil =>
    intro acc
    by_cases h : acc = []
    · simp [splitAux, h]
    · simp [splitAux, h]
  | cons c cs ih =>
    intro acc
    by_cases hc : c = '\\'
    · subst hc
      simp only [splitAux, List.cons_append, if_true]
      exact (List.prefix_cons_inj acc).2 (ih [])
    · simp only [splitAux, List.cons_append, if_neg hc]
      exact ih _

theorem components_prefix (P Q : WString) :
    components P <+: components (P ++ '\\' :: Q) := splitAux_prefix P Q []

theorem components_ne_nil {P : WString} (h : P ≠ []) : components P ≠ [] := by
  cases P with
  | nil => exact absurd rfl h
  | cons c cs =>
    have := GetNext_some (c :: cs) 0 (by simp)
    obtain ⟨tok, ich', _, _, _, hc⟩ := this
    simp only [List.drop_zero] at hc
    rw [hc]; simp

theorem FindLoop_eq (root : CFSNode) (s : WString) :
    ∀ (fuel ich : Nat) (pNode : Addr), s.length - ich < fuel →
      FindLoop root fuel pNode ⟨s, ich⟩ = findFrom root pNode (components (s.drop ich)) := by
  intro fuel
  induction fuel with
  | zero => intro ich pNode h; omega
  | succ n ih =>
    intro ich pNode h
    by_cases hi : ich < s.length
    · obtain ⟨tok, ich', hg, h1, h2, hc⟩ := GetNext_some s ich hi
      rw [FindLoop, hg, hc, findFrom]
      dsimp only
      cases FindChild root pNode tok with
      | none => rfl
      | some q => exact ih ich' q (by omega)
    · obtain ⟨hg, hc⟩ := GetNext_none s ich (Nat.le_of_not_lt hi)
      rw [FindLoop, hg, hc, findFrom]

theorem Find_eq (root : CFSNode) (this : Addr) (P : WString) :
    Find root this P = findFrom root this (components P) := by
  have := FindLoop_eq root P (P.length + 1) 0 this (by omega)
  simpa [Find, CFSPathIterator.new] using this

theorem BuildPathLoop_eq (b : Bool) (s : WString) :
    ∀ (fuel ich : Nat) (root : CFSNode) (pNode : Addr), s.length - ich < fuel →
      BuildPathLoop b fuel root pNode ⟨s, ich⟩ =
        buildFrom b root pNode (components (s.drop ich)) := by
  intro fuel
  induction fuel with
  | zero => intro ich root pNode h; omega
  | succ n ih =>
    intro ich root pNode h
    by_cases hi : ich < s.length
    · obtain ⟨tok, ich', hg, h1, h2, hc⟩ := GetNext_some s ich hi
      rw [BuildPathLoop, hg, hc, buildFrom]
      dsimp only
      cases FindChild root pNode tok with
      | none => exact ih ich' _ _ (by omega)
      | some q => exact ih ich' _ q (by omega)
    · obtain ⟨hg, hc⟩ := GetNext_none s ich (Nat.le_of_not_lt hi)
      rw [BuildPathLoop, hg, hc, buildFrom]

theorem BuildPath_eq (root : CFSNode) (this : Addr) (P : WString) (b : Bool) :
    BuildPath root this P b = buildFrom b root this (components P) := by
  have := BuildPathLoop_eq b P (P.length + 1) 0 root this (by omega)
  simpa [BuildPath, CFSPathIterator.new] using this

/-! ## Reading the heap after a write -/

theorem deref_cons (r : CFSNode) (i : Nat) (p : Addr) :
    deref r (i :: p) = (deref r p).bind (fun n => n.child i) := by
  rw [deref]; cases deref r p <;> rfl

theorem deref_append (r : CFSNode) (c a : Addr) :
    deref r (c ++ a) = (deref r a).bind (fun n => deref n c) := by
  induction c with
  | nil => cases h : deref r a <;> simp [deref, h]
  | cons i c ih =>
    rw [List.cons_append, deref_cons, ih]
    cases h : deref r a <;> simp [deref_cons]

theorem deref_snoc (n : CFSNode) (c : Addr) (j : Nat) :
    deref n (c ++ [j]) = (n.child j).bind (fun m => deref m c) := by
  rw [deref_append]; simp [deref_cons, deref]

theorem child_modifyChild (i j : Nat) (f : CFSNode → CFSNode) (n : CFSNode) :
    (CFSNode.modifyChild i f n).child j = if j = i then (n.child i).map f else n.child j := by
  cases n with
  | mk s e cs =>
    simp only [CFSNode.modifyChild, CFSNode.child, CFSNode.m_children, List.getElem?_modify]
    by_cases h : j = i
    · subst h; simp; cases cs[j]? with
      | none => rfl
      | some o => cases o <;> rfl
    · simp [h, Ne.symm h]

theorem own_modifyChild (i : Nat) (f : CFSNode → CFSNode) (n : CFSNode) :
    (CFSNode.modifyChild i f n).own = n.own := by
  cases n; simp [CFSNode.modifyChild, CFSNode.own, CFSNode.m_strName, CFSNode.m_bExpand,
    CFSNode.m_children]

theorem deref_update_sub (r : CFSNode) (a : Addr) :
    ∀ (f : CFSNode → CFSNode) (c : Addr),
      deref (update r a f) (c ++ a) = (deref r a).bind (fun n => deref (f n) c) := by
  induction a with
  | nil => intro f c; simp [update, deref]
  | cons i p ih =>
    intro f c
    have h := ih (CFSNode.modifyChild i f) (c ++ [i])
    rw [List.append_assoc, List.singleton_append] at h
    rw [update, h, deref_cons]
    cases hp : deref r p with
    | none => rfl
    | some n =>
      simp only [Option.some_bind]
      rw [deref_snoc, child_modifyChild, if_pos rfl]
      cases n.child i <;> rfl

theorem deref_update_self (r : CFSNode) (a : Addr) (f : CFSNode → CFSNode) :
    deref (update r a f) a = (deref r a).map f := by
  have := deref_update_sub r a f []
  simp only [List.nil_append] at this
  rw [this]; cases deref r a <;> rfl

theorem deref_modifyChild_off (i : Nat) (f : CFSNode → CFSNode) (n : CFSNode) (c : Addr)
    (h : ¬ [i] <:+ c) :
    (deref (CFSNode.modifyChild i f n) c).map CFSNode.own = (deref n c).map CFSNode.own := by
  rcases List.eq_nil_or_concat c with rfl | ⟨c', j, rfl⟩
  · simp [deref, own_modifyChild]
  · rw [List.concat_eq_append] at h ⊢
    have hj : j ≠ i := by
      rintro rfl; exact h ⟨c', rfl⟩
    rw [deref_snoc, deref_snoc, child_modifyChild, if_neg hj]

theorem deref_update_off (r : CFSNode) (a : Addr) :
    ∀ (f : CFSNode → CFSNode) (b : Addr), ¬ a <:+ b →
      (deref (update r a f) b).map CFSNode.own = (deref r b).map CFSNode.own := by
  induction a with
  | nil => intro f b h; exact absurd List.nil_suffix h
  | cons i p ih =>
    intro f b h
    rw [update]
    by_cases hp : p <:+ b
    · obtain ⟨c, rfl⟩ := hp
      rw [deref_update_sub, deref_append]
      cases deref r p with
      | none => rfl
      | some n =>
        simp only [Option.some_bind]
        apply deref_modifyChild_off
        rintro ⟨c', rfl⟩
        exact h ⟨c', by simp⟩
    · exact ih _ b hp

/-! ## `FindChild` in terms of the names in the heap -/

theorem nameAt_cons (r : CFSNode) (i : Nat) (p : Addr) :
    nameAt r (i :: p) =
      (deref r p).bind (fun n => (n.child i).map CFSNode.m_strName) := by
  rw [nameAt, deref_cons]; cases deref r p <;> rfl

theorem findSlot_eq_some_iff (c : WString) (cs : List (Option CFSNode)) :
    ∀ i, findSlot c cs = some i ↔
      (cs[i]?.join.map CFSNode.m_strName = some c ∧
        ∀ j, j < i → cs[j]?.join.map CFSNode.m_strName ≠ some c) := by
  induction cs with
  | nil => intro i; simp [findSlot]
  | cons o rest ih =>
    intro i
    have hstep : (Option.map (· + 1) (findSlot c rest) = some i) ↔
        (∃ k, i = k + 1 ∧ findSlot c rest = some k) := by
      cases findSlot c rest with
      | none => simp
      | some k => simp [eq_comm]
    have key : (∀ j, j < i → (o :: rest)[j]?.join.map CFSNode.m_strName ≠ some c) ↔
        ((i = 0 ∨ (o.map CFSNode.m_strName ≠ some c)) ∧
          ∀ j, j + 1 < i → rest[j]?.join.map CFSNode.m_strName ≠ some c) := by
      constructor
      · intro h
        refine ⟨?_, fun j hj => by simpa using h (j + 1) hj⟩
        rcases Nat.eq_zero_or_pos i with h0 | h0
        · exact Or.inl h0
        · right; simpa using h 0 h0
      · rintro ⟨h1, h2⟩ j hj
        cases j with
        | zero =>
          rcases h1 with h1 | h1
          · omega
          · simpa using h1
        | succ j => simpa using h2 j hj
    cases o with
    | none =>
      rw [findSlot, hstep, key]
      cases i with
      | zero => simp
      | succ k => simp [ih k]
    | some n =>
      rw [findSlot, key]
      by_cases hn : n.m_strName = c
      · rw [if_pos hn]
        cases i with
        | zero => simp [hn]
        | succ k => simp [hn]
      · rw [if_neg hn, hstep]
        cases i with
        | zero => simp [hn]
        | succ k => simp [hn, ih k]

theorem FindChild_eq_some_iff (r : CFSNode) (p q : Addr) (c : WString) :
    FindChild r p c = some q ↔
      ∃ i, q = i :: p ∧ nameAt r (i :: p) = some c ∧
        ∀ j, j < i → nameAt r (j :: p) ≠ some c := by
  simp only [nameAt_cons, FindChild]
  cases deref r p with
  | none => simp
  | some n =>
    simp only [Option.some_bind, CFSNode.child]
    constructor
    · intro h
      cases hs : findSlot c n.m_children with
      | none => simp [hs] at h
      | some i =>
        rw [hs] at h
        simp only [Option.map_some', Option.some.injEq] at h
        exact ⟨i, h.symm, (findSlot_eq_some_iff c n.m_children i).1 hs⟩
    · rintro ⟨i, rfl, h⟩
      rw [(findSlot_eq_some_iff c n.m_children i).2 h]; rfl

theorem FindChild_congr (r r' : CFSNode) (p : Addr) (c : WString)
    (h : ∀ j, nameAt r' (j :: p) = nameAt r (j :: p)) :
    FindChild r' p c = FindChild r p c := by
  apply Option.ext
  intro q
  simp only [Option.mem_def, FindChild_eq_some_iff, h]

theorem FindChild_eq_none_iff (r : CFSNode) (p : Addr) (c : WString) :
    FindChild r p c = none ↔ ∀ j, nameAt r (j :: p) ≠ some c := by
  constructor
  · intro h j hj
    have hex : ∃ i, nameAt r (i :: p) = some c := ⟨j, hj⟩
    have hmin := Nat.find_spec hex
    have hlt : ∀ k, k < Nat.find hex → nameAt r (k :: p) ≠ some c :=
      fun k hk => Nat.find_min hex hk
    have := (FindChild_eq_some_iff r p (Nat.find hex :: p) c).2 ⟨_, rfl, hmin, hlt⟩
    rw [h] at this; cases this
  · intro h
    cases hq : FindChild r p c with
    | none => rfl
    | some q =>
      obtain ⟨i, _, hi, _⟩ := (FindChild_eq_some_iff r p q c).1 hq
      exact absurd hi (h i)

/-! ## The primitive writes -/

theorem own_eq_iff (x y : Option CFSNode) :
    x.map CFSNode.own = y.map CFSNode.own ↔
      (x.map CFSNode.m_strName = y.map CFSNode.m_strName ∧
        x.map CFSNode.m_bExpand = y.map CFSNode.m_bExpand ∧
        x.map (fun n => n.m_children.length) = y.map (fun n => n.m_children.length)) := by
  cases x <;> cases y <;> simp [CFSNode.own, Prod.ext_iff]

theorem child_of_children_eq {n m : CFSNode} (h : m.m_children = n.m_children) (j : Nat) :
    m.child j = n.child j := by
  simp [CFSNode.child, h]

theorem deref_of_children_eq {n m : CFSNode} (h : m.m_children = n.m_children) (c : Addr)
    (hc : c ≠ []) : deref m c = deref n c := by
  rcases List.eq_nil_or_concat c with rfl | ⟨c', j, rfl⟩
  · exact absurd rfl hc
  · rw [List.concat_eq_append, deref_snoc, deref_snoc, child_of_children_eq h]

theorem children_setExpand (v : Bool) (n : CFSNode) :
    (CFSNode.setExpand v n).m_children = n.m_children := by cases n; rfl

theorem children_setName (s : WString) (n : CFSNode) :
    (CFSNode.setName s n).m_children = n.m_children := by cases n; rfl

theorem child_push_back (c n : CFSNode) (j : Nat) :
    (CFSNode.push_back c n).child j =
      if j = n.m_children.length then some c else n.child j := by
  cases n with
  | mk s e cs =>
    simp only [CFSNode.push_back, CFSNode.child, CFSNode.m_children]
    by_cases h : j = cs.length
    · subst h; simp
    · rw [if_neg h]
      rcases Nat.lt_or_gt_of_ne h with h1 | h1
      · rw [List.getElem?_append_left h1]
      · rw [List.getElem?_eq_none (by simp; omega), List.getElem?_eq_none (by omega)]

theorem child_clearSlot (i j : Nat) (n : CFSNode) :
    (CFSNode.clearSlot i n).child j = if j = i then none else n.child j := by
  cases n with
  | mk s e cs =>
    simp only [CFSNode.clearSlot, CFSNode.child, CFSNode.m_children, List.getElem?_set]
    by_cases h : j = i
    · subst h; simp
    · simp [h, Ne.symm h]

/-- Either `b` lies in the subtree at `a` or it does not. -/
theorem addr_cases (a b : Addr) : (∃ c, b = c ++ a) ∨ ¬ a <:+ b := by
  by_cases h : a <:+ b
  · obtain ⟨c, rfl⟩ := h; exact Or.inl ⟨c, rfl⟩
  · exact Or.inr h

/-- A write that keeps the child slots of the node changes the own fields of
no other node. -/
theorem own_update_keep (r : CFSNode) (a b : Addr) (f : CFSNode → CFSNode)
    (hf : ∀ n, (f n).m_children = n.m_children) (hb : b ≠ a) :
    (deref (update r a f) b).map CFSNode.own = (deref r b).map CFSNode.own := by
  rcases addr_cases a b with ⟨c, rfl⟩ | h
  · have hc : c ≠ [] := by rintro rfl; exact hb rfl
    rw [deref_update_sub, deref_append]
    cases deref r a with
    | none => rfl
    | some n => simp only [Option.some_bind]; rw [deref_of_children_eq (hf n) c hc]
  · exact deref_update_off r a f b h

theorem deref_update_keep_sub (r : CFSNode) (a c : Addr) (f : CFSNode → CFSNode)
    (hf : ∀ n, (f n).m_children = n.m_children) (hc : c ≠ []) :
    deref (update r a f) (c ++ a) = deref r (c ++ a) := by
  rw [deref_update_sub, deref_append]
  cases deref r a with
  | none => rfl
  | some n => simp only [Option.some_bind]; rw [deref_of_children_eq (hf n) c hc]

/-- After `push_back` on the node at `a`, the new node sits in the slot
behind the old ones. -/
theorem deref_update_push_new (r : CFSNode) (a c : Addr) (new : CFSNode)
    (ha : (deref r a).isSome) :
    deref (update r a (CFSNode.push_back new)) (c ++ numSlots r a :: a) = deref new c := by
  have : c ++ numSlots r a :: a = (c ++ [numSlots r a]) ++ a := by simp
  rw [this, deref_update_sub]
  cases h : deref r a with
  | none => simp [h] at ha
  | some n =>
    simp only [Option.some_bind, numSlots, h, Option.map_some', Option.getD_some]
    rw [deref_snoc, child_push_back, if_pos rfl]; rfl

/-- After `push_back` on the node at `a`, every address outside the new slot
reads as before, up to the slot count of `a` itself. -/
theorem deref_update_push_off (r : CFSNode) (a b : Addr) (new : CFSNode)
    (hb : ¬ (numSlots r a :: a) <:+ b) :
    (deref (update r a (CFSNode.push_back new)) b).map CFSNode.m_strName =
        (deref r b).map CFSNode.m_strName ∧
      (deref (update r a (CFSNode.push_back new)) b).map CFSNode.m_bExpand =
        (deref r b).map CFSNode.m_bExpand := by
  rcases addr_cases a b with ⟨c, rfl⟩ | h
  · rw [deref_update_sub, deref_append]
    cases hd : deref r a with
    | none => exact ⟨rfl, rfl⟩
    | some n =>
      simp only [Option.some_bind]
      rcases List.eq_nil_or_concat c with rfl | ⟨c', j, rfl⟩
      · cases n; exact ⟨rfl, rfl⟩
      · rw [List.concat_eq_append] at hb ⊢
        have hj : j ≠ n.m_children.length := by
          rintro rfl
          apply hb
          refine ⟨c', ?_⟩
          simp [numSlots, hd]
        rw [deref_snoc, deref_snoc, child_push_back, if_neg hj]
        exact ⟨rfl, rfl⟩
  · have := (own_eq_iff _ _).1 (deref_update_off r a (CFSNode.push_back new) b h)
    exact ⟨this.1, this.2.1⟩

/-- After slot `j` of the node at `p` is nulled, nothing lives below it. -/
theorem deref_update_clear_sub (r : CFSNode) (p c : Addr) (j : Nat) :
    deref (update r p (CFSNode.clearSlot j)) (c ++ j :: p) = none := by
  have : c ++ j :: p = (c ++ [j]) ++ p := by simp
  rw [this, deref_update_sub]
  cases deref r p with
  | none => rfl
  | some n =>
    simp only [Option.some_bind]
    rw [deref_snoc, child_clearSlot, if_pos rfl]; rfl

/-- After slot `j` of the node at `p` is nulled, every address outside that
slot reads as before. -/
theorem deref_update_clear_off (r : CFSNode) (p b : Addr) (j : Nat)
    (hb : ¬ (j :: p) <:+ b) :
    (deref (update r p (CFSNode.clearSlot j)) b).map CFSNode.own =
      (deref r b).map CFSNode.own := by
  rcases addr_cases p b with ⟨c, rfl⟩ | h
  · rw [deref_update_sub, deref_append]
    cases hd : deref r p with
    | none => rfl
    | some n =>
      simp only [Option.some_bind]
      rcases List.eq_nil_or_concat c with rfl | ⟨c', i, rfl⟩
      · cases n; simp [deref, CFSNode.clearSlot, CFSNode.own, CFSNode.m_strName,
          CFSNode.m_bExpand, CFSNode.m_children]
      · rw [List.concat_eq_append] at hb ⊢
        have hi : i ≠ j := by
          rintro rfl
          exact hb ⟨c', by simp⟩
        rw [deref_snoc, deref_snoc, child_clearSlot, if_neg hi]
  · exact deref_update_off r p _ b h

/-! ## `MarkNotExpanded` and the creation of a child -/

theorem own_iff_obs (r r' : CFSNode) (b : Addr) :
    (deref r' b).map CFSNode.own = (deref r b).map CFSNode.own ↔
      (nameAt r' b = nameAt r b ∧ flagAt r' b = flagAt r b ∧ slotsAt r' b = slotsAt r b) :=
  own_eq_iff _ _

theorem obs_setExpand (r : CFSNode) (a b : Addr) (v : Bool) :
    nameAt (update r a (CFSNode.setExpand v)) b = nameAt r b ∧
      slotsAt (update r a (CFSNode.setExpand v)) b = slotsAt r b ∧
      flagAt (update r a (CFSNode.setExpand v)) b =
        if b = a then (flagAt r b).map (fun _ => v) else flagAt r b := by
  by_cases hb : b = a
  · subst hb
    simp only [nameAt, slotsAt, flagAt, deref_update_self, if_pos rfl]
    cases deref r b with
    | none => simp
    | some n => cases n; simp [CFSNode.setExpand, CFSNode.m_strName, CFSNode.m_children,
        CFSNode.m_bExpand]
  · have := (own_iff_obs _ _ _).1
      (own_update_keep r a b (CFSNode.setExpand v) (children_setExpand v) hb)
    rw [if_neg hb]
    exact ⟨this.1, this.2.2, this.2.1⟩

theorem obs_MarkNotExpanded (a : Addr) : ∀ (r : CFSNode) (b : Addr),
    nameAt (MarkNotExpanded r a) b = nameAt r b ∧
      slotsAt (MarkNotExpanded r a) b = slotsAt r b ∧
      flagAt (MarkNotExpanded r a) b =
        if b <:+ a then (flagAt r b).map (fun _ => false) else flagAt r b := by
  induction a with
  | nil =>
    intro r b
    rw [MarkNotExpanded]
    have := obs_setExpand r [] b false
    simpa [List.suffix_nil] using this
  | cons i p ih =>
    intro r b
    rw [MarkNotExpanded]
    obtain ⟨h1, h2, h3⟩ := ih (update r (i :: p) (CFSNode.setExpand false)) b
    obtain ⟨g1, g2, g3⟩ := obs_setExpand r (i :: p) b false
    refine ⟨h1.trans g1, h2.trans g2, ?_⟩
    rw [h3, g3]
    by_cases hb : b = i :: p
    · subst hb
      have : ¬ (i :: p) <:+ p := fun h => by
        have := h.length_le; simp at this
      simp [this, List.suffix_refl]
    · have : b <:+ i :: p ↔ b <:+ p := by rw [List.suffix_cons_iff]; simp [hb]
      simp [hb, this]

theorem deref_new (c : WString) (a : Addr) (ha : a ≠ []) :
    deref (CFSNode.new c) a = none := by
  rcases List.eq_nil_or_concat a with rfl | ⟨a', j, rfl⟩
  · exact absurd rfl ha
  · rw [List.concat_eq_append, deref_snoc]; rfl

theorem deref_numSlots (r : CFSNode) (p c : Addr) :
    deref r (c ++ numSlots r p :: p) = none := by
  rw [deref_append, deref_cons]
  cases h : deref r p with
  | none => rfl
  | some n => simp [numSlots, h, CFSNode.child]

/-- What the heap holds after a child named `c` was created under `p`. -/
theorem obs_createChild (mark : Bool) (r : CFSNode) (p b : Addr) (c : WString)
    (hp : (deref r p).isSome) :
    nameAt (createChild mark r p c) b =
        (if b = numSlots r p :: p then some c else nameAt r b) ∧
      flagAt (createChild mark r p c) b =
        (if b = numSlots r p :: p then some false
          else if mark = true ∧ b <:+ p then (flagAt r b).map (fun _ => false)
          else flagAt r b) := by
  have hpush : nameAt (update r p (CFSNode.push_back (CFSNode.new c))) b =
        (if b = numSlots r p :: p then some c else nameAt r b) ∧
      flagAt (update r p (CFSNode.push_back (CFSNode.new c))) b =
        (if b = numSlots r p :: p then some false else flagAt r b) := by
    by_cases hb : (numSlots r p :: p) <:+ b
    · obtain ⟨c', rfl⟩ := hb
      simp only [nameAt, flagAt, deref_update_push_new r p c' _ hp, deref_numSlots]
      cases c' with
      | nil => simp [deref, CFSNode.new, CFSNode.m_strName, CFSNode.m_bExpand]
      | cons j c' =>
        have hne : (j :: c') ++ numSlots r p :: p ≠ numSlots r p :: p := by
          intro h; have := congrArg List.length h; simp at this; omega
        rw [if_neg hne, if_neg hne, deref_new c _ (List.cons_ne_nil j c')]
        exact ⟨rfl, rfl⟩
    · have hne : b ≠ numSlots r p :: p := by
        rintro rfl; exact hb (List.suffix_refl _)
      have := deref_update_push_off r p b (CFSNode.new c) hb
      simp only [nameAt, flagAt, if_neg hne]
      exact this
  have hnew : ¬ (numSlots r p :: p) <:+ p := fun h => by
    have := h.length_le; simp at this
  unfold createChild
  cases mark with
  | false => simpa using hpush
  | true =>
    simp only [if_true, true_and]
    obtain ⟨h1, _, h3⟩ := obs_MarkNotExpanded p
      (update r p (CFSNode.push_back (CFSNode.new c))) b
    rw [h1, h3, hpush.1, hpush.2]
    refine ⟨rfl, ?_⟩
    by_cases hb : b = numSlots r p :: p
    · subst hb; simp [hnew]
    · simp [hb]

theorem buildFrom_cons_some (mark : Bool) (r : CFSNode) (p q : Addr) (c : WString)
    (rest : List WString) (h : FindChild r p c = some q) :
    buildFrom mark r p (c :: rest) = buildFrom mark r q rest := by
  rw [buildFrom, h]

theorem buildFrom_cons_none (mark : Bool) (r : CFSNode) (p : Addr) (c : WString)
    (rest : List WString) (h : FindChild r p c = none) :
    buildFrom mark r p (c :: rest) =
      buildFrom mark (createChild mark r p c) (numSlots r p :: p) rest := by
  rw [buildFrom, h]; rfl

/-! ## `BuildPath` -/

theorem isSome_of_nameAt {r : CFSNode} {b : Addr} {x : WString} (h : nameAt r b = some x) :
    (deref r b).isSome := by
  unfold nameAt at h
  cases hd : deref r b with
  | none => simp [hd] at h
  | some n => rfl

theorem nameAt_of_FindChild {r : CFSNode} {p q : Addr} {c : WString}
    (h : FindChild r p c = some q) : nameAt r q = some c := by
  obtain ⟨i, rfl, hi, _⟩ := (FindChild_eq_some_iff r p q c).1 h
  exact hi

theorem suffix_of_FindChild {r : CFSNode} {p q : Addr} {c : WString}
    (h : FindChild r p c = some q) : ∃ i, q = i :: p := by
  obtain ⟨i, rfl, _, _⟩ := (FindChild_eq_some_iff r p q c).1 h
  exact ⟨i, rfl⟩

theorem not_cons_suffix (i : Nat) (p : Addr) : ¬ (i :: p) <:+ p := fun h => by
  have := h.length_le; simp at this

/-- The names `BuildPath` leaves behind: every address reads as before, except
new nodes, which lie strictly below the starting node. -/
theorem buildFrom_names (mark : Bool) (comps : List WString) :
    ∀ (r : CFSNode) (q : Addr), (deref r q).isSome → ∀ b,
      nameAt (buildFrom mark r q comps).1 b = nameAt r b ∨
        (nameAt r b = none ∧ q <:+ b ∧ b ≠ q) := by
  induction comps with
  | nil => intro r q _ b; exact Or.inl rfl
  | cons c rest ih =>
    intro r q hq b
    cases hf : FindChild r q c with
    | some pChild =>
      rw [buildFrom_cons_some mark r q pChild c rest hf]
      obtain ⟨i, rfl⟩ := suffix_of_FindChild hf
      rcases ih r (i :: q) (isSome_of_nameAt (nameAt_of_FindChild hf)) b with h | ⟨h1, h2, h3⟩
      · exact Or.inl h
      · refine Or.inr ⟨h1, (List.suffix_cons i q).trans h2, ?_⟩
        rintro rfl; exact not_cons_suffix i b h2
    | none =>
      rw [buildFrom_cons_none mark r q c rest hf]
      have hc := (obs_createChild mark r q b c hq).1
      have hnew : nameAt (createChild mark r q c) (numSlots r q :: q) = some c := by
        rw [(obs_createChild mark r q _ c hq).1, if_pos rfl]
      rcases ih (createChild mark r q c) (numSlots r q :: q) (isSome_of_nameAt hnew) b
        with h | ⟨h1, h2, h3⟩
      · by_cases hb : b = numSlots r q :: q
        · subst hb
          refine Or.inr ⟨?_, List.suffix_cons _ q, ?_⟩
          · have := deref_numSlots r q []
            simp only [List.nil_append] at this
            simp [nameAt, this]
          · intro h'
            have := congrArg List.length h'
            simp at this
        · rw [if_neg hb] at hc
          exact Or.inl (h.trans hc)
      · rw [if_neg h3] at hc
        refine Or.inr ⟨hc ▸ h1, (List.suffix_cons _ q).trans h2, ?_⟩
        rintro rfl; exact not_cons_suffix _ b h2

theorem buildFrom_names_off (mark : Bool) (comps : List WString) (r : CFSNode) (q : Addr)
    (hq : (deref r q).isSome) (b : Addr) (hb : ¬ (q <:+ b ∧ b ≠ q)) :
    nameAt (buildFrom mark r q comps).1 b = nameAt r b := by
  rcases buildFrom_names mark comps r q hq b with h | ⟨_, h2, h3⟩
  · exact h
  · exact absurd ⟨h2, h3⟩ hb

/-- The loop of `Find` retraces the loop of `BuildPath`. -/
theorem findFrom_buildFrom (mark : Bool) (comps : List WString) :
    ∀ (r : CFSNode) (q : Addr), (deref r q).isSome →
      findFrom (buildFrom mark r q comps).1 q comps = some (buildFrom mark r q comps).2 := by
  induction comps with
  | nil => intro r q _; rfl
  | cons c rest ih =>
    intro r q hq
    cases hf : FindChild r q c with
    | some pChild =>
      rw [buildFrom_cons_some mark r q pChild c rest hf]
      have hp := isSome_of_nameAt (nameAt_of_FindChild hf)
      obtain ⟨i, rfl⟩ := suffix_of_FindChild hf
      have hfc : FindChild (buildFrom mark r (i :: q) rest).1 q c = some (i :: q) := by
        rw [← hf]
        apply FindChild_congr
        intro j
        apply buildFrom_names_off mark rest r (i :: q) hp
        rintro ⟨h1, h2⟩
        have := h1.length_le
        simp at this
        exact h2 ((List.IsSuffix.eq_of_length_le h1 (by simp)).symm)
      rw [findFrom, hfc]
      exact ih r (i :: q) hp
    | none =>
      rw [buildFrom_cons_none mark r q c rest hf]
      have hnew : nameAt (createChild mark r q c) (numSlots r q :: q) = some c := by
        rw [(obs_createChild mark r q _ c hq).1, if_pos rfl]
      have hp := isSome_of_nameAt hnew
      have hfc : FindChild (buildFrom mark (createChild mark r q c) (numSlots r q :: q) rest).1
          q c = some (numSlots r q :: q) := by
        have h1 : FindChild (buildFrom mark (createChild mark r q c) (numSlots r q :: q) rest).1
            q c = FindChild (createChild mark r q c) q c := by
          apply FindChild_congr
          intro j
          apply buildFrom_names_off mark rest _ (numSlots r q :: q) hp
          rintro ⟨h1, h2⟩
          exact h2 ((List.IsSuffix.eq_of_length_le h1 (by simp)).symm)
        rw [h1, FindChild_eq_some_iff]
        refine ⟨numSlots r q, rfl, hnew, ?_⟩
        intro j hj
        rw [(obs_createChild mark r q _ c hq).1, if_neg (by simp; omega)]
        exact (FindChild_eq_none_iff r q c).1 hf j
      rw [findFrom, hfc]
      exact ih _ _ hp

/-! ## `GetFullName` -/

theorem GetFullName_cons (r : CFSNode) (i : Nat) (p : Addr) :
    GetFullName r (i :: p) =
      (if (GetFullName r p).length ≠ 0 then GetFullName r p ++ ['\\'] else GetFullName r p) ++
        (nameAt r (i :: p)).getD [] := by
  rw [GetFullName]; rfl

theorem GetFullName_findFrom (r : CFSNode) (comps : List WString) :
    ∀ (q a : Addr), findFrom r q comps = some a →
      GetFullName r a = joinFrom (GetFullName r q) comps := by
  induction comps with
  | nil => intro q a h; simp only [findFrom, Option.some.injEq] at h; subst h; rfl
  | cons c rest ih =>
    intro q a h
    rw [findFrom] at h
    cases hf : FindChild r q c with
    | none => simp [hf] at h
    | some pChild =>
      rw [hf] at h
      obtain ⟨i, rfl⟩ := suffix_of_FindChild hf
      rw [ih (i :: q) a h, joinFrom, GetFullName_cons, nameAt_of_FindChild hf]
      rfl

theorem joinFrom_of_ne_nil (comps : List WString) :
    ∀ ret : WString, ret ≠ [] →
      joinFrom ret comps = ret ++ (comps.map (fun c => '\\' :: c)).flatten := by
  induction comps with
  | nil => intro ret _; simp [joinFrom]
  | cons c rest ih =>
    intro ret h
    have hl : ret.length ≠ 0 := by simpa using h
    rw [joinFrom, if_pos hl, ih _ (by simp)]
    simp

theorem splitAux_join (u : WString) :
    ∀ acc : WString, u.getLast? ≠ some '\\' → (acc ≠ [] ∨ u ≠ []) →
      ((splitAux acc u).map (fun c => '\\' :: c)).flatten = '\\' :: (acc ++ u) := by
  induction u with
  | nil =>
    intro acc _ h
    have : acc ≠ [] := by simpa using h
    simp [splitAux, this]
  | cons c cs ih =>
    intro acc hl _
    have hcs : cs.getLast? ≠ some '\\' := by
      cases cs with
      | nil => simp
      | cons d ds => simpa [List.getLast?_cons_cons] using hl
    by_cases hc : c = '\\'
    · subst hc
      have hne : cs ≠ [] := by
        rintro rfl; simp at hl
      rw [splitAux, if_pos rfl, List.map_cons, List.flatten_cons, ih [] hcs (Or.inr hne)]
      simp
    · rw [splitAux, if_neg hc, ih (acc ++ [c]) hcs (Or.inl (by simp))]
      simp

theorem joinFrom_splitAux (u : WString) :
    ∀ acc : WString, u.getLast? ≠ some '\\' → (acc ≠ [] ∨ u.head? ≠ some '\\') →
      joinFrom [] (splitAux acc u) = acc ++ u := by
  induction u with
  | nil =>
    intro acc _ _
    by_cases h : acc = []
    · simp [splitAux, h, joinFrom]
    · simp [splitAux, h, joinFrom]
  | cons c cs ih =>
    intro acc hl hh
    have hcs : cs.getLast? ≠ some '\\' := by
      cases cs with
      | nil => simp
      | cons d ds => simpa [List.getLast?_cons_cons] using hl
    by_cases hc : c = '\\'
    · subst hc
      have hacc : acc ≠ [] := by
        rcases hh with h | h
        · exact h
        · simp at h
      have hne : cs ≠ [] := by
        rintro rfl; simp at hl
      rw [splitAux, if_pos rfl, joinFrom]
      simp only [List.length_nil, ne_eq, not_true_eq_false, if_false, List.nil_append]
      rw [joinFrom_of_ne_nil _ _ hacc, splitAux_join cs [] hcs (Or.inr hne)]
      simp
    · rw [splitAux, if_neg hc, ih (acc ++ [c]) hcs (Or.inl (by simp))]
      simp

/-- Joining the components of a path that neither begins nor ends with a
backslash gives the path back. -/
theorem joinFrom_components (P : WString) (h1 : P.head? ≠ some '\\')
    (h2 : P.getLast? ≠ some '\\') : joinFrom [] (components P) = P := by
  have := joinFrom_splitAux P [] h2 (Or.inr h1)
  simpa [components] using this

/-! ## Round trip: `AddPath`, then `ContainsPath`, `Find` and `GetFullName` -/

/-- C1: for every tree and every path `P`, after `AddPath(P)` the call
`ContainsPath(P)` gives `TRUE`, and `Find(P)` from the root gives exactly the
node that `BuildPath(P)` returned. -/
theorem C1_AddPath_then_Find (g_pRoot : CFSNode) (P : WString) :
    ContainsPath (AddPath g_pRoot P).2 P = true ∧
      Find (AddPath g_pRoot P).2 [] P = some (BuildPath g_pRoot [] P true).2 := by
  have h : Find (AddPath g_pRoot P).2 [] P = some (BuildPath g_pRoot [] P true).2 := by
    rw [Find_eq]
    simp only [AddPath, BuildPath_eq]
    exact findFrom_buildFrom true (components P) g_pRoot [] rfl
  exact ⟨by rw [ContainsPath, h]; rfl, h⟩

/-- C2, as stated, fails: after `AddPath` of `A` followed by a backslash on a
fresh root, the node that `Find` gives for that path has the full name `A`,
not the path. -/
theorem C2_trailing_backslash_counterexample :
    (Find (AddPath freshRoot ['A', '\\']).2 [] ['A', '\\']).map
        (GetFullName (AddPath freshRoot ['A', '\\']).2) = some ['A'] ∧
      (Find (AddPath freshRoot ['A', '\\']).2 [] ['A', '\\']).map
        (GetFullName (AddPath freshRoot ['A', '\\']).2) ≠ some ['A', '\\'] := by
  decide

/-- C2, amended: for every path `P` that neither begins nor ends with a
backslash, after `AddPath(P)` on a fresh root (empty name, no children),
`GetFullName()` of the node returned by `Find(P)` equals `P` character for
character. -/
theorem C2_GetFullName_round_trip (e : Bool) (P : WString)
    (h1 : P.head? ≠ some '\\') (h2 : P.getLast? ≠ some '\\') :
    (Find (AddPath (CFSNode.mk [] e []) P).2 [] P).map
      (GetFullName (AddPath (CFSNode.mk [] e []) P).2) = some P := by
  have hfind := findFrom_buildFrom true (components P) (CFSNode.mk [] e []) [] rfl
  have hF : Find (AddPath (CFSNode.mk [] e []) P).2 [] P =
      some (buildFrom true (CFSNode.mk [] e []) [] (components P)).2 := by
    rw [Find_eq]; simp only [AddPath, BuildPath_eq]; exact hfind
  have hA : (AddPath (CFSNode.mk [] e []) P).2 =
      (buildFrom true (CFSNode.mk [] e []) [] (components P)).1 := by
    simp only [AddPath, BuildPath_eq]
  rw [hF, Option.map_some', hA, GetFullName_findFrom _ _ [] _ hfind]
  have hroot : GetFullName (buildFrom true (CFSNode.mk [] e []) [] (components P)).1 [] = [] := by
    have hn := buildFrom_names_off true (components P) (CFSNode.mk [] e []) [] rfl []
      (fun h => h.2 rfl)
    have hg : ∀ r : CFSNode, GetFullName r [] = (nameAt r []).getD [] := fun r => by
      rw [GetFullName]; rfl
    rw [hg, hn]; rfl
  rw [hroot, joinFrom_components P h1 h2]

/-- C2, amended, at the path `A\B` on the root that `WinMain` creates. -/
theorem C2_GetFullName_round_trip_witness :
    (Find (AddPath (CFSNode.mk [] false []) ['A', '\\', 'B']).2 [] ['A', '\\', 'B']).map
      (GetFullName (AddPath (CFSNode.mk [] false []) ['A', '\\', 'B']).2) =
        some ['A', '\\', 'B'] :=
  C2_GetFullName_round_trip false ['A', '\\', 'B'] (by decide) (by decide)

/-! ## The loop of `Find` -/

theorem findFrom_append (r : CFSNode) (l1 l2 : List WString) :
    ∀ q, findFrom r q (l1 ++ l2) = (findFrom r q l1).bind (fun a => findFrom r a l2) := by
  induction l1 with
  | nil => intro q; rfl
  | cons c rest ih =>
    intro q
    rw [List.cons_append, findFrom, findFrom]
    cases FindChild r q c with
    | none => rfl
    | some pChild => exact ih pChild

theorem findFrom_length (r : CFSNode) (comps : List WString) :
    ∀ q a, findFrom r q comps = some a → a.length = q.length + comps.length := by
  induction comps with
  | nil => intro q a h; simp only [findFrom, Option.some.injEq] at h; subst h; rfl
  | cons c rest ih =>
    intro q a h
    rw [findFrom] at h
    cases hf : FindChild r q c with
    | none => simp [hf] at h
    | some pChild =>
      rw [hf] at h
      obtain ⟨i, rfl⟩ := suffix_of_FindChild hf
      rw [ih _ a h]; simp; omega

theorem findFrom_suffix (r : CFSNode) (comps : List WString) :
    ∀ q a, findFrom r q comps = some a → q <:+ a := by
  induction comps with
  | nil =>
    intro q a h; simp only [findFrom, Option.some.injEq] at h; subst h
    exact List.suffix_refl q
  | cons c rest ih =>
    intro q a h
    rw [findFrom] at h
    cases hf : FindChild r q c with
    | none => simp [hf] at h
    | some pChild =>
      rw [hf] at h
      obtain ⟨i, rfl⟩ := suffix_of_FindChild hf
      exact (List.suffix_cons i q).trans (ih _ a h)

theorem findFrom_isSome (r : CFSNode) (comps : List WString) :
    ∀ q a, (deref r q).isSome → findFrom r q comps = some a → (deref r a).isSome := by
  induction comps with
  | nil => intro q a hq h; simp only [findFrom, Option.some.injEq] at h; subst h; exact hq
  | cons c rest ih =>
    intro q a _ h
    rw [findFrom] at h
    cases hf : FindChild r q c with
    | none => simp [hf] at h
    | some pChild =>
      rw [hf] at h
      exact ih pChild a (isSome_of_nameAt (nameAt_of_FindChild hf)) h

/-- The loop of `Find` reads only names, and only at addresses no deeper than
the starting node plus the number of components. -/
theorem findFrom_congr (r r' : CFSNode) (comps : List WString) :
    ∀ q, (∀ b, q <:+ b → b.length ≤ q.length + comps.length → nameAt r' b = nameAt r b) →
      findFrom r' q comps = findFrom r q comps := by
  induction comps with
  | nil => intro q _; rfl
  | cons c rest ih =>
    intro q h
    have hfc : FindChild r' q c = FindChild r q c :=
      FindChild_congr r r' q c (fun j => h (j :: q) (List.suffix_cons j q) (by simp))
    rw [findFrom, findFrom, hfc]
    cases hf : FindChild r q c with
    | none => rfl
    | some pChild =>
      obtain ⟨i, rfl⟩ := suffix_of_FindChild hf
      apply ih
      intro b hb hl
      exact h b ((List.suffix_cons i q).trans hb) (by simp at hl ⊢; omega)

/-! ## `DeletePath` -/

theorem RemoveChildLoop_hit (this : Addr) (cs : List (Option CFSNode)) :
    ∀ (k i : Nat), (cs[i]?.join).isSome →
      RemoveChildLoop this ((k + i) :: this) cs k = some (k + i) := by
  induction cs with
  | nil => intro k i h; simp at h
  | cons s rest ih =>
    intro k i h
    cases i with
    | zero =>
      have hs : s.isSome = true := by simpa using h
      simp [RemoveChildLoop, hs]
    | succ i =>
      have hne : ¬ (s.isSome = true ∧ k :: this = (k + (i + 1)) :: this) := by
        rintro ⟨_, h2⟩
        simp at h2
      rw [RemoveChildLoop, if_neg hne]
      have := ih (k + 1) i (by simpa using h)
      rw [show k + 1 + i = k + (i + 1) by omega] at this
      exact this

theorem Remove_eq (r : CFSNode) (i : Nat) (p : Addr) (h : (deref r (i :: p)).isSome) :
    Remove r (i :: p) = (true, update r p (CFSNode.clearSlot i)) := by
  rw [deref_cons] at h
  cases hp : deref r p with
  | none => simp [hp] at h
  | some n =>
    rw [hp] at h
    simp only [Option.some_bind, CFSNode.child] at h
    have := RemoveChildLoop_hit p n.m_children 0 i h
    simp only [Nat.zero_add] at this
    simp only [Remove, RemoveChild, hp, this]

theorem DeletePath_eq (r : CFSNode) (P : WString) (i : Nat) (p : Addr)
    (h : Find r [] P = some (i :: p)) :
    DeletePath r P = (true, update r p (CFSNode.clearSlot i)) := by
  have hv : (deref r (i :: p)).isSome := by
    rw [Find_eq] at h
    exact findFrom_isSome r _ [] _ rfl h
  simp only [DeletePath, h, Remove_eq r i p hv]

/-- The names in the heap after slot `i` of the node at `p` was nulled. -/
theorem nameAt_clearSlot (r : CFSNode) (p b : Addr) (i : Nat) :
    nameAt (update r p (CFSNode.clearSlot i)) b =
      if (i :: p) <:+ b then none else nameAt r b := by
  by_cases hb : (i :: p) <:+ b
  · obtain ⟨c, rfl⟩ := hb
    rw [if_pos ⟨c, rfl⟩, nameAt, deref_update_clear_sub]; rfl
  · rw [if_neg hb]
    exact ((own_iff_obs _ _ _).1 (deref_update_clear_off r p b i hb)).1

theorem suffix_eq_of_length_eq {x y a : Addr} (hx : x <:+ a) (hy : y <:+ a)
    (hl : x.length = y.length) : x = y := by
  obtain ⟨u, rfl⟩ := hx
  obtain ⟨v, hv⟩ := hy
  have := List.append_inj' hv hl.symm
  exact this.2.symm

/-- With unique names, a walk that passed through a deleted node now fails,
whatever components follow. -/
theorem findFrom_after_delete (r : CFSNode) (p : Addr) (i : Nat) (hu : NoDupNames r)
    (comps : List WString) :
    ∀ (q a : Addr), findFrom r q comps = some a → (i :: p) <:+ a → ¬ (i :: p) <:+ q →
      ∀ extra, findFrom (update r p (CFSNode.clearSlot i)) q (comps ++ extra) = none := by
  induction comps with
  | nil =>
    intro q a h ha hq
    simp only [findFrom, Option.some.injEq] at h
    subst h; exact absurd ha hq
  | cons c rest ih =>
    intro q a h ha hq extra
    rw [findFrom] at h
    cases hf : FindChild r q c with
    | none => simp [hf] at h
    | some pChild =>
      rw [hf] at h
      obtain ⟨j, rfl⟩ := suffix_of_FindChild hf
      have hja := findFrom_suffix r rest _ a h
      by_cases hx : j :: q = i :: p
      · obtain ⟨rfl, rfl⟩ := List.cons.inj hx
        have hnone : FindChild (update r q (CFSNode.clearSlot j)) q c = none := by
          rw [FindChild_eq_none_iff]
          intro k hk
          rw [nameAt_clearSlot] at hk
          by_cases hkj : (j :: q) <:+ (k :: q)
          · rw [if_pos hkj] at hk; cases hk
          · rw [if_neg hkj] at hk
            have := hu q k j c hk (nameAt_of_FindChild hf)
            subst this
            exact hkj (List.suffix_refl _)
        rw [List.cons_append, findFrom, hnone]
      · have hq' : ¬ (i :: p) <:+ (j :: q) := by
          intro h'
          rcases List.suffix_cons_iff.1 h' with h1 | h1
          · exact hx h1.symm
          · exact hq h1
        have hfc : FindChild (update r p (CFSNode.clearSlot i)) q c = some (j :: q) := by
          rw [← hf]
          apply FindChild_congr
          intro k
          rw [nameAt_clearSlot, if_neg]
          intro h'
          rcases List.suffix_cons_iff.1 h' with h1 | h1
          · have hlen : (j :: q).length = (i :: p).length := by
              rw [h1]; simp
            exact hx (suffix_eq_of_length_eq hja ha hlen)
          · exact hq h1
        rw [List.cons_append, findFrom, hfc]
        exact ih (j :: q) a h ha hq' extra

/-- A walk that stays above a deleted node is not disturbed. -/
theorem findFrom_above_delete (r : CFSNode) (p : Addr) (i : Nat) (comps : List WString)
    (hl : comps.length < (i :: p).length) :
    findFrom (update r p (CFSNode.clearSlot i)) [] comps = findFrom r [] comps := by
  apply findFrom_congr
  intro b _ hb
  rw [nameAt_clearSlot, if_neg]
  intro h
  have := h.length_le
  simp at hb this hl
  omega

/-! ## Unique names -/

theorem NoDupNames_new (c : WString) : NoDupNames (CFSNode.new c) := by
  intro p i j x h _
  rw [nameAt, deref_new c (i :: p) (List.cons_ne_nil i p)] at h
  cases h

theorem NoDupNames_createChild (mark : Bool) (r : CFSNode) (q : Addr) (c : WString)
    (hu : NoDupNames r) (hq : (deref r q).isSome) (hf : FindChild r q c = none) :
    NoDupNames (createChild mark r q c) := by
  intro p i j x hi hj
  rw [(obs_createChild mark r q _ c hq).1] at hi hj
  have hmiss := (FindChild_eq_none_iff r q c).1 hf
  by_cases h1 : i :: p = numSlots r q :: q
  · obtain ⟨rfl, rfl⟩ := List.cons.inj h1
    rw [if_pos rfl] at hi
    by_cases h2 : j :: p = numSlots r p :: p
    · exact (List.cons.inj h2).1.symm
    · rw [if_neg h2] at hj
      rw [← Option.some.inj hi] at hj
      exact absurd hj (hmiss j)
  · rw [if_neg h1] at hi
    by_cases h2 : j :: p = numSlots r q :: q
    · obtain ⟨rfl, rfl⟩ := List.cons.inj h2
      rw [if_pos rfl] at hj
      rw [← Option.some.inj hj] at hi
      exact absurd hi (hmiss i)
    · rw [if_neg h2] at hj
      exact hu p i j x hi hj

theorem NoDupNames_buildFrom (mark : Bool) (comps : List WString) :
    ∀ (r : CFSNode) (q : Addr), NoDupNames r → (deref r q).isSome →
      NoDupNames (buildFrom mark r q comps).1 := by
  induction comps with
  | nil => intro r q hu _; exact hu
  | cons c rest ih =>
    intro r q hu hq
    cases hf : FindChild r q c with
    | some pChild =>
      rw [buildFrom_cons_some mark r q pChild c rest hf]
      exact ih r pChild hu (isSome_of_nameAt (nameAt_of_FindChild hf))
    | none =>
      rw [buildFrom_cons_none mark r q c rest hf]
      have hnew : nameAt (createChild mark r q c) (numSlots r q :: q) = some c := by
        rw [(obs_createChild mark r q _ c hq).1, if_pos rfl]
      exact ih _ _ (NoDupNames_createChild mark r q c hu hq hf) (isSome_of_nameAt hnew)

theorem NoDupNames_AddPath (r : CFSNode) (P : WString) (hu : NoDupNames r) :
    NoDupNames (AddPath r P).2 := by
  simp only [AddPath, BuildPath_eq]
  exact NoDupNames_buildFrom true (components P) r [] hu rfl

/-! ## Delete removes the subtree -/

/-- C3: in a tree where no two live children of a node share a name, for a
path `P` with at least one component that `ContainsPath` finds: after
`DeletePath(P)`, `ContainsPath(P)` is `FALSE`, `ContainsPath` of `P`, a
backslash and any `Q` is `FALSE`, and `ContainsPath` of every path whose
components are a proper prefix of the components of `P` is still `TRUE`. -/
theorem C3_DeletePath_removes_subtree (g_pRoot : CFSNode) (P : WString)
    (hu : NoDupNames g_pRoot) (hk : tokens P ≠ []) (hc : ContainsPath g_pRoot P = true) :
    ContainsPath (DeletePath g_pRoot P).2 P = false ∧
      (∀ Q, ContainsPath (DeletePath g_pRoot P).2 (P ++ '\\' :: Q) = false) ∧
      (∀ P', tokens P' <+: tokens P → tokens P' ≠ tokens P →
        ContainsPath (DeletePath g_pRoot P).2 P' = true) := by
  rw [tokens_eq] at hk
  cases hfind : Find g_pRoot [] P with
  | none => simp [ContainsPath, hfind] at hc
  | some a =>
    have hfr := hfind
    rw [Find_eq] at hfr
    have hlen := findFrom_length g_pRoot _ [] a hfr
    cases a with
    | nil =>
      simp only [List.length_nil, Nat.zero_add] at hlen
      exact absurd (List.length_eq_zero.1 hlen.symm) hk
    | cons i p =>
      rw [DeletePath_eq g_pRoot P i p hfind]
      have hnot : ¬ (i :: p) <:+ ([] : Addr) := by simp
      refine ⟨?_, ?_, ?_⟩
      · have := findFrom_after_delete g_pRoot p i hu _ [] _ hfr (List.suffix_refl _) hnot []
        rw [List.append_nil] at this
        simp [ContainsPath, Find_eq, this]
      · intro Q
        obtain ⟨extra, he⟩ := components_prefix P Q
        have := findFrom_after_delete g_pRoot p i hu _ [] _ hfr (List.suffix_refl _) hnot extra
        rw [he] at this
        simp [ContainsPath, Find_eq, this]
      · intro P' hpre hne
        rw [tokens_eq, tokens_eq] at hpre hne
        obtain ⟨extra, he⟩ := hpre
        have hex : extra ≠ [] := by
          rintro rfl; exact hne (by simpa using he)
        have hl : (components P').length < (i :: p).length := by
          rw [hlen, ← he]
          have := List.length_pos.2 hex
          simp; omega
        have hold : (findFrom g_pRoot [] (components P')).isSome := by
          rw [← he, findFrom_append] at hfr
          cases h : findFrom g_pRoot [] (components P') with
          | none => simp [h] at hfr
          | some b => rfl
        simp only [ContainsPath, Find_eq]
        rw [findFrom_above_delete g_pRoot p i _ hl]
        exact hold

/-- C3 at the example of the specification: `AddPath` of `A\B\C` on a fresh
root, then `DeletePath` of `A\B`. -/
theorem C3_DeletePath_removes_subtree_witness :
    ContainsPath (DeletePath (AddPath freshRoot "A\\B\\C".toList).2 "A\\B".toList).2
        "A\\B".toList = false ∧
      (∀ Q, ContainsPath (DeletePath (AddPath freshRoot "A\\B\\C".toList).2 "A\\B".toList).2
        ("A\\B".toList ++ '\\' :: Q) = false) ∧
      (∀ P', tokens P' <+: tokens "A\\B".toList → tokens P' ≠ tokens "A\\B".toList →
        ContainsPath (DeletePath (AddPath freshRoot "A\\B\\C".toList).2 "A\\B".toList).2
          P' = true) :=
  C3_DeletePath_removes_subtree (AddPath freshRoot "A\\B\\C".toList).2 "A\\B".toList
    (NoDupNames_AddPath _ _ (NoDupNames_new [])) (by decide) (by decide)

/-! ## `RenamePath` -/

theorem wcsrchr_eq_none_iff (ch : Char) (s : WString) : wcsrchr s ch = none ↔ ch ∉ s := by
  induction s with
  | nil => simp [wcsrchr]
  | cons c cs ih =>
    rw [wcsrchr]
    cases h : wcsrchr cs ch with
    | some k =>
      have : ch ∈ cs := by
        by_contra hc; rw [ih.2 hc] at h; cases h
      simp [this]
    | none =>
      have hc : ch ∉ cs := ih.1 h
      by_cases hcc : c = ch
      · simp [hcc]
      · simp [hcc, hc, Ne.symm hcc]

theorem wcsrchr_append (ch : Char) (X : WString) (hX : ch ∉ X) :
    ∀ D : WString, wcsrchr (D ++ ch :: X) ch = some D.length := by
  intro D
  induction D with
  | nil =>
    rw [List.nil_append, wcsrchr, (wcsrchr_eq_none_iff ch X).2 hX]
    simp
  | cons d D ih =>
    rw [List.cons_append, wcsrchr, ih]
    simp

theorem exists_last_occurrence (ch : Char) (s : WString) (h : ch ∈ s) :
    ∃ pre suf, s = pre ++ ch :: suf ∧ ch ∉ suf := by
  induction s with
  | nil => simp at h
  | cons c cs ih =>
    by_cases hc : ch ∈ cs
    · obtain ⟨pre, suf, h1, h2⟩ := ih hc
      exact ⟨c :: pre, suf, by rw [h1]; rfl, h2⟩
    · have : ch = c := by
        rcases List.mem_cons.1 h with h1 | h1
        · exact h1
        · exact absurd h1 hc
      subst this
      exact ⟨[], cs, rfl, hc⟩

/-- What `RenamePath` does when the node is found and the new path has the
form `D`, backslash, `X` with no backslash in `X`. -/
theorem RenamePath_eq (r : CFSNode) (P1 D X : WString) (n : Addr)
    (hn : Find r [] P1 = some n) (hX : '\\' ∉ X) :
    RenamePath r P1 (D ++ '\\' :: X) = (true, update r n (CFSNode.setName X)) := by
  simp only [RenamePath, hn, wcsrchr_append '\\' X hX D]
  have : List.drop (D.length + 1) (D ++ '\\' :: X) = X := by
    rw [List.drop_append_eq_append_drop]
    simp
  rw [this]

theorem obs_setName (r : CFSNode) (a b : Addr) (s : WString) :
    flagAt (update r a (CFSNode.setName s)) b = flagAt r b ∧
      slotsAt (update r a (CFSNode.setName s)) b = slotsAt r b ∧
      nameAt (update r a (CFSNode.setName s)) b =
        if b = a then (nameAt r b).map (fun _ => s) else nameAt r b := by
  by_cases hb : b = a
  · subst hb
    simp only [nameAt, slotsAt, flagAt, deref_update_self, if_pos rfl]
    cases deref r b with
    | none => simp
    | some n => cases n; simp [CFSNode.setName, CFSNode.m_strName, CFSNode.m_children,
        CFSNode.m_bExpand]
  · have := (own_iff_obs _ _ _).1
      (own_update_keep r a b (CFSNode.setName s) (children_setName s) hb)
    rw [if_neg hb]
    exact ⟨this.2.1, this.2.2, this.1⟩

/-- C4: for every tree, every path `P1` for which `Find(P1)` returns a node `n`
and every path `P2` with a backslash, `RenamePath(P1, P2)` returns `TRUE`, the
name of `n` becomes the part of `P2` behind its last backslash, and nothing
else changes: at every address the same node is live or not, with the same
expanded flag and the same number of child slots, and every node other than
`n` keeps its name. The node stays at its address, hence under its parent and
in its slot, whatever the directory part of `P2` is. -/
theorem C4_RenamePath_changes_only_the_name (g_pRoot : CFSNode) (P1 P2 : WString) (n : Addr)
    (hn : Find g_pRoot [] P1 = some n) (hb : '\\' ∈ P2) :
    (RenamePath g_pRoot P1 P2).1 = true ∧
      (∃ pre suf, P2 = pre ++ '\\' :: suf ∧ '\\' ∉ suf ∧
        nameAt (RenamePath g_pRoot P1 P2).2 n = some suf) ∧
      (∀ b, flagAt (RenamePath g_pRoot P1 P2).2 b = flagAt g_pRoot b ∧
        slotsAt (RenamePath g_pRoot P1 P2).2 b = slotsAt g_pRoot b ∧
        (b ≠ n → nameAt (RenamePath g_pRoot P1 P2).2 b = nameAt g_pRoot b)) := by
  obtain ⟨pre, suf, rfl, hs⟩ := exists_last_occurrence '\\' P2 hb
  rw [RenamePath_eq g_pRoot P1 pre suf n hn hs]
  have hv : (deref g_pRoot n).isSome := by
    rw [Find_eq] at hn
    exact findFrom_isSome g_pRoot _ [] _ rfl hn
  refine ⟨rfl, ⟨pre, suf, rfl, hs, ?_⟩, ?_⟩
  · rw [(obs_setName g_pRoot n n suf).2.2, if_pos rfl, nameAt]
    cases h : deref g_pRoot n with
    | none => simp [h] at hv
    | some m => rfl
  · intro b
    obtain ⟨h1, h2, h3⟩ := obs_setName g_pRoot n b suf
    refine ⟨h1, h2, fun hne => ?_⟩
    rw [h3, if_neg hne]

/-- C4 at the example of the specification: after `AddPath` of `A\B`, renaming
`A\B` to `Z\X` leaves the node in slot 0 of `A` and names it `X`. -/
theorem C4_RenamePath_changes_only_the_name_witness :
    (RenamePath (AddPath freshRoot "A\\B".toList).2 "A\\B".toList "Z\\X".toList).1 = true ∧
      (∃ pre suf, "Z\\X".toList = pre ++ '\\' :: suf ∧ '\\' ∉ suf ∧
        nameAt (RenamePath (AddPath freshRoot "A\\B".toList).2 "A\\B".toList
          "Z\\X".toList).2 [0, 0] = some suf) ∧
      (∀ b, flagAt (RenamePath (AddPath freshRoot "A\\B".toList).2 "A\\B".toList
            "Z\\X".toList).2 b = flagAt (AddPath freshRoot "A\\B".toList).2 b ∧
        slotsAt (RenamePath (AddPath freshRoot "A\\B".toList).2 "A\\B".toList
            "Z\\X".toList).2 b = slotsAt (AddPath freshRoot "A\\B".toList).2 b ∧
        (b ≠ [0, 0] → nameAt (RenamePath (AddPath freshRoot "A\\B".toList).2 "A\\B".toList
            "Z\\X".toList).2 b = nameAt (AddPath freshRoot "A\\B".toList).2 b)) :=
  C4_RenamePath_changes_only_the_name (AddPath freshRoot "A\\B".toList).2 "A\\B".toList
    "Z\\X".toList [0, 0] (by decide) (by decide)

/-- C6: `RenamePath(P1, P2)` returns `FALSE` if and only if `Find(P1)` finds no
node or `P2` has no backslash, and whenever it returns `FALSE` the whole tree
is unchanged. -/
theorem C6_RenamePath_failure (g_pRoot : CFSNode) (P1 P2 : WString) :
    ((RenamePath g_pRoot P1 P2).1 = false ↔ (Find g_pRoot [] P1 = none ∨ '\\' ∉ P2)) ∧
      ((RenamePath g_pRoot P1 P2).1 = false → (RenamePath g_pRoot P1 P2).2 = g_pRoot) := by
  unfold RenamePath
  cases hf : Find g_pRoot [] P1 with
  | none => simp
  | some n =>
    cases hw : wcsrchr P2 '\\' with
    | none => simp [(wcsrchr_eq_none_iff '\\' P2).1 hw]
    | some k =>
      have : '\\' ∈ P2 := by
        by_contra hc; rw [(wcsrchr_eq_none_iff '\\' P2).2 hc] at hw; cases hw
      simp [this]

/-! ## Rename, then look up -/

theorem splitAux_no_backslash (B : WString) (hB : '\\' ∉ B) :
    ∀ acc : WString, splitAux acc B = if acc ++ B = [] then [] else [acc ++ B] := by
  induction B with
  | nil => intro acc; simp [splitAux]
  | cons c cs ih =>
    intro acc
    have hc : c ≠ '\\' := fun h => hB (by simp [h])
    have hcs : '\\' ∉ cs := fun h => hB (List.mem_cons_of_mem c h)
    rw [splitAux, if_neg hc, ih hcs]
    simp

/-- The components of `D`, backslash, `B` are pieces that depend on `D` alone,
followed by `B`. -/
theorem splitAux_snoc (D : WString) :
    ∀ acc : WString, ∃ pre : List WString, ∀ B : WString, B ≠ [] → '\\' ∉ B →
      splitAux acc (D ++ '\\' :: B) = pre ++ [B] := by
  induction D with
  | nil =>
    intro acc
    refine ⟨[acc], fun B hB hb => ?_⟩
    rw [List.nil_append, splitAux, if_pos rfl, splitAux_no_backslash B hb]
    simp [hB]
  | cons c cs ih =>
    intro acc
    by_cases hc : c = '\\'
    · obtain ⟨pre, hpre⟩ := ih []
      refine ⟨acc :: pre, fun B hB hb => ?_⟩
      rw [List.cons_append, splitAux, if_pos hc, hpre B hB hb]; rfl
    · obtain ⟨pre, hpre⟩ := ih (acc ++ [c])
      refine ⟨pre, fun B hB hb => ?_⟩
      rw [List.cons_append, splitAux, if_neg hc, hpre B hB hb]

theorem findFrom_snoc (r : CFSNode) (pre : List WString) (B : WString) (q : Addr) :
    findFrom r q (pre ++ [B]) = (findFrom r q pre).bind (fun a => FindChild r a B) := by
  rw [findFrom_append]
  cases findFrom r q pre with
  | none => rfl
  | some a =>
    simp only [Option.some_bind, findFrom]
    cases FindChild r a B <;> rfl

/-- C5: in a tree where no two live children of a node share a name, for every
directory prefix `D` and distinct, non-empty, backslash-free names `B` and `X`
such that `ContainsPath` finds `D\B`: after `RenamePath` of `D\B` to `D\X`,
`ContainsPath` finds `D\X` and no longer finds `D\B`. -/
theorem C5_RenamePath_then_ContainsPath (g_pRoot : CFSNode) (D B X : WString)
    (hu : NoDupNames g_pRoot) (hB : B ≠ []) (hX : X ≠ [])
    (hbB : '\\' ∉ B) (hbX : '\\' ∉ X) (hne : B ≠ X)
    (hc : ContainsPath g_pRoot (D ++ '\\' :: B) = true) :
    ContainsPath (RenamePath g_pRoot (D ++ '\\' :: B) (D ++ '\\' :: X)).2
        (D ++ '\\' :: X) = true ∧
      ContainsPath (RenamePath g_pRoot (D ++ '\\' :: B) (D ++ '\\' :: X)).2
        (D ++ '\\' :: B) = false := by
  obtain ⟨pre, hpre⟩ := splitAux_snoc D []
  have hcB : components (D ++ '\\' :: B) = pre ++ [B] := hpre B hB hbB
  have hcX : components (D ++ '\\' :: X) = pre ++ [X] := hpre X hX hbX
  cases hfind : Find g_pRoot [] (D ++ '\\' :: B) with
  | none => simp [ContainsPath, hfind] at hc
  | some n =>
    rw [RenamePath_eq g_pRoot _ D X n hfind hbX]
    have hfr := hfind
    rw [Find_eq, hcB, findFrom_snoc] at hfr
    cases hq : findFrom g_pRoot [] pre with
    | none => simp [hq] at hfr
    | some q =>
      rw [hq, Option.some_bind] at hfr
      obtain ⟨i, rfl⟩ := suffix_of_FindChild hfr
      have hnB := nameAt_of_FindChild hfr
      have hql := findFrom_length g_pRoot pre [] q hq
      have hname : ∀ b, nameAt (update g_pRoot (i :: q) (CFSNode.setName X)) b =
          if b = i :: q then some X else nameAt g_pRoot b := by
        intro b
        rw [(obs_setName g_pRoot (i :: q) b X).2.2]
        by_cases hb : b = i :: q
        · subst hb; simp [hnB]
        · simp [hb]
      have hpre' : findFrom (update g_pRoot (i :: q) (CFSNode.setName X)) [] pre = some q := by
        rw [← hq]
        apply findFrom_congr
        intro b _ hb
        rw [hname, if_neg]
        rintro rfl
        simp at hb hql
        omega
      simp only [ContainsPath, Find_eq, hcB, hcX, findFrom_snoc, hpre', Option.some_bind]
      constructor
      · cases hX' : FindChild (update g_pRoot (i :: q) (CFSNode.setName X)) q X with
        | some m => rfl
        | none =>
          have := (FindChild_eq_none_iff _ q X).1 hX' i
          rw [hname, if_pos rfl] at this
          exact absurd rfl this
      · have : FindChild (update g_pRoot (i :: q) (CFSNode.setName X)) q B = none := by
          rw [FindChild_eq_none_iff]
          intro k hk
          rw [hname] at hk
          by_cases hki : k :: q = i :: q
          · rw [if_pos hki] at hk
            exact hne (Option.some.inj hk).symm
          · rw [if_neg hki] at hk
            have := hu q k i B hk hnB
            exact hki (by rw [this])
        rw [this]; rfl

/-- C5 at the example of the specification: `AddPath` of `A\B`, then
`RenamePath` of `A\B` to `A\X`. -/
theorem C5_RenamePath_then_ContainsPath_witness :
    ContainsPath (RenamePath (AddPath freshRoot "A\\B".toList).2 ("A".toList ++ '\\' :: "B".toList)
        ("A".toList ++ '\\' :: "X".toList)).2 ("A".toList ++ '\\' :: "X".toList) = true ∧
      ContainsPath (RenamePath (AddPath freshRoot "A\\B".toList).2
        ("A".toList ++ '\\' :: "B".toList)
        ("A".toList ++ '\\' :: "X".toList)).2 ("A".toList ++ '\\' :: "B".toList) = false :=
  C5_RenamePath_then_ContainsPath (AddPath freshRoot "A\\B".toList).2 "A".toList "B".toList
    "X".toList (NoDupNames_AddPath _ _ (NoDupNames_new [])) (by decide) (by decide) (by decide)
    (by decide) (by decide) (by decide)

/-! ## The result of `DeletePath` -/

theorem tokens_eq_nil_iff (P : WString) : tokens P = [] ↔ P = [] := by
  rw [tokens_eq]
  constructor
  · intro h
    by_contra hP
    exact components_ne_nil hP h
  · rintro rfl; rfl

/-- C7, as stated, fails: on the fresh root the empty path resolves to the
root, `DeletePath` removes nothing and still returns `TRUE`, and
`ContainsPath` of the empty path is `TRUE` afterwards. -/
theorem C7_root_counterexample :
    NoDupNames freshRoot ∧ Find freshRoot [] [] = some [] ∧
      (DeletePath freshRoot []).1 = true ∧
      ContainsPath (DeletePath freshRoot []).2 [] = true :=
  ⟨NoDupNames_new [], by decide, by decide, by decide⟩

/-- C7, amended: in a tree where no two live children of a node share a name,
if `Find(P)` finds no node then `DeletePath(P)` returns `FALSE` and leaves the
tree unchanged; if `P` has at least one component, `DeletePath(P)` returns
`FALSE` exactly when `Find(P)` finds no node, and when it returns `TRUE` the
node at `P` is gone and `ContainsPath(P)` is `FALSE` afterwards; a path with
no component, which resolves to the root, leaves the tree unchanged. -/
theorem C7_DeletePath_result (g_pRoot : CFSNode) (P : WString) (hu : NoDupNames g_pRoot) :
    (Find g_pRoot [] P = none → DeletePath g_pRoot P = (false, g_pRoot)) ∧
      (tokens P ≠ [] → ((DeletePath g_pRoot P).1 = false ↔ Find g_pRoot [] P = none)) ∧
      (tokens P ≠ [] → (DeletePath g_pRoot P).1 = true →
        (∀ n, Find g_pRoot [] P = some n → deref (DeletePath g_pRoot P).2 n = none) ∧
          ContainsPath (DeletePath g_pRoot P).2 P = false) ∧
      (tokens P = [] → (DeletePath g_pRoot P).2 = g_pRoot) := by
  refine ⟨fun h => by simp [DeletePath, h], ?_, ?_, ?_⟩
  · intro _
    cases h : Find g_pRoot [] P <;> simp [DeletePath, h]
  · intro hk _
    rw [tokens_eq] at hk
    cases hfind : Find g_pRoot [] P with
    | none =>
      constructor
      · intro n hn; cases hn
      · simp [DeletePath, hfind, ContainsPath]
    | some a =>
      have hfr := hfind
      rw [Find_eq] at hfr
      have hlen := findFrom_length g_pRoot _ [] a hfr
      cases a with
      | nil =>
        simp only [List.length_nil, Nat.zero_add] at hlen
        exact absurd (List.length_eq_zero.1 hlen.symm) hk
      | cons i p =>
        rw [DeletePath_eq g_pRoot P i p hfind]
        refine ⟨fun n hn => ?_, ?_⟩
        · cases hn
          have := deref_update_clear_sub g_pRoot p [] i
          simpa using this
        · have := findFrom_after_delete g_pRoot p i hu _ [] _ hfr (List.suffix_refl _)
            (by simp) []
          rw [List.append_nil] at this
          simp [ContainsPath, Find_eq, this]
  · intro h
    rw [(tokens_eq_nil_iff P).1 h]
    rfl

/-- C7, amended, on the tree after `AddPath` of `A\B\C`, at the path `A\B`. -/
theorem C7_DeletePath_result_witness :
    (Find (AddPath freshRoot "A\\B\\C".toList).2 [] "A\\B".toList = none →
        DeletePath (AddPath freshRoot "A\\B\\C".toList).2 "A\\B".toList =
          (false, (AddPath freshRoot "A\\B\\C".toList).2)) ∧
      (tokens "A\\B".toList ≠ [] →
        ((DeletePath (AddPath freshRoot "A\\B\\C".toList).2 "A\\B".toList).1 = false ↔
          Find (AddPath freshRoot "A\\B\\C".toList).2 [] "A\\B".toList = none)) ∧
      (tokens "A\\B".toList ≠ [] →
        (DeletePath (AddPath freshRoot "A\\B\\C".toList).2 "A\\B".toList).1 = true →
        (∀ n, Find (AddPath freshRoot "A\\B\\C".toList).2 [] "A\\B".toList = some n →
          deref (DeletePath (AddPath freshRoot "A\\B\\C".toList).2 "A\\B".toList).2 n = none) ∧
          ContainsPath (DeletePath (AddPath freshRoot "A\\B\\C".toList).2 "A\\B".toList).2
            "A\\B".toList = false) ∧
      (tokens "A\\B".toList = [] →
        (DeletePath (AddPath freshRoot "A\\B\\C".toList).2 "A\\B".toList).2 =
          (AddPath freshRoot "A\\B\\C".toList).2) :=
  C7_DeletePath_result (AddPath freshRoot "A\\B\\C".toList).2 "A\\B".toList
    (NoDupNames_AddPath _ _ (NoDupNames_new []))

/-! ## Invalidation of the expanded flags -/

theorem isSome_of_suffix (r : CFSNode) {b q : Addr} (h : b <:+ q) (hq : (deref r q).isSome) :
    (deref r b).isSome := by
  obtain ⟨c, rfl⟩ := h
  rw [deref_append] at hq
  cases hb : deref r b with
  | none => simp [hb] at hq
  | some n => rfl

/-- Below a node without live children and with a cleared chain of flags,
`BuildPath` creates every node and leaves the whole chain cleared. -/
theorem buildFrom_flags_fresh (comps : List WString) :
    ∀ (r : CFSNode) (q : Addr), (deref r q).isSome →
      (∀ j, nameAt r (j :: q) = none) → (∀ b, b <:+ q → flagAt r b = some false) →
      ∀ b, b <:+ (buildFrom true r q comps).2 →
        flagAt (buildFrom true r q comps).1 b = some false := by
  induction comps with
  | nil => intro r q _ _ hfl b hb; exact hfl b hb
  | cons c rest ih =>
    intro r q hq hch hfl
    have hf : FindChild r q c = none := by
      rw [FindChild_eq_none_iff]; intro j; rw [hch j]; simp
    rw [buildFrom_cons_none true r q c rest hf]
    have hnew : nameAt (createChild true r q c) (numSlots r q :: q) = some c := by
      rw [(obs_createChild true r q _ c hq).1, if_pos rfl]
    apply ih _ _ (isSome_of_nameAt hnew)
    · intro j
      rw [(obs_createChild true r q _ c hq).1, if_neg]
      · have := deref_numSlots r q [j]
        rw [nameAt]
        simp only [List.singleton_append] at this
        rw [this]; rfl
      · intro h; have := congrArg List.length h; simp at this
    · intro b hb
      rw [(obs_createChild true r q b c hq).2]
      by_cases hbn : b = numSlots r q :: q
      · rw [if_pos hbn]
      · have hbq : b <:+ q := by
          rcases List.suffix_cons_iff.1 hb with h | h
          · exact absurd h hbn
          · exact h
        rw [if_neg hbn, if_pos ⟨rfl, hbq⟩, hfl b hbq]; rfl

theorem buildFrom_flags (comps : List WString) :
    ∀ (r : CFSNode) (q : Addr), (deref r q).isSome →
      (∃ b, deref r b = none ∧ (deref (buildFrom true r q comps).1 b).isSome) →
      ∀ b, b <:+ (buildFrom true r q comps).2 →
        flagAt (buildFrom true r q comps).1 b = some false := by
  induction comps with
  | nil =>
    intro r q _ hnew
    obtain ⟨b, h1, h2⟩ := hnew
    rw [buildFrom, h1] at h2; cases h2
  | cons c rest ih =>
    intro r q hq hnew
    cases hf : FindChild r q c with
    | some pChild =>
      rw [buildFrom_cons_some true r q pChild c rest hf] at hnew ⊢
      exact ih r pChild (isSome_of_nameAt (nameAt_of_FindChild hf)) hnew
    | none =>
      rw [buildFrom_cons_none true r q c rest hf]
      have hnm : nameAt (createChild true r q c) (numSlots r q :: q) = some c := by
        rw [(obs_createChild true r q _ c hq).1, if_pos rfl]
      apply buildFrom_flags_fresh rest _ _ (isSome_of_nameAt hnm)
      · intro j
        rw [(obs_createChild true r q _ c hq).1, if_neg]
        · have := deref_numSlots r q [j]
          rw [nameAt]
          simp only [List.singleton_append] at this
          rw [this]; rfl
        · intro h; have := congrArg List.length h; simp at this
      · intro b hb
        rw [(obs_createChild true r q b c hq).2]
        by_cases hbn : b = numSlots r q :: q
        · rw [if_pos hbn]
        · have hbq : b <:+ q := by
            rcases List.suffix_cons_iff.1 hb with h | h
            · exact absurd h hbn
            · exact h
          have hsome := isSome_of_suffix r hbq hq
          rw [if_neg hbn, if_pos ⟨rfl, hbq⟩, flagAt]
          cases hd : deref r b with
          | none => simp [hd] at hsome
          | some m => rfl

/-- C8: if `BuildPath(P, TRUE)` called on the root creates at least one node (a
node is live afterwards at an address where none was before), then afterwards
every node on the chain from the root down to the returned node has
`m_bExpand = FALSE`. -/
theorem C8_BuildPath_clears_the_chain (g_pRoot : CFSNode) (P : WString)
    (hnew : ∃ b, deref g_pRoot b = none ∧ (deref (BuildPath g_pRoot [] P true).1 b).isSome) :
    ∀ b, b <:+ (BuildPath g_pRoot [] P true).2 →
      flagAt (BuildPath g_pRoot [] P true).1 b = some false := by
  rw [BuildPath_eq] at hnew ⊢
  exact buildFrom_flags (components P) g_pRoot [] rfl hnew

/-- C8 at the example of the specification: `A` and `A\B` are expanded, `C` is
new; after `BuildPath` of `A\B\C` the root, `A`, `A\B` and `C` are collapsed. -/
theorem C8_BuildPath_clears_the_chain_witness :
    (∃ b, deref expandedAB b = none ∧
        (deref (BuildPath expandedAB [] "A\\B\\C".toList true).1 b).isSome) ∧
      (BuildPath expandedAB [] "A\\B\\C".toList true).2 = [0, 0, 0] ∧
      flagAt expandedAB [0] = some true ∧ flagAt expandedAB [0, 0] = some true ∧
      flagAt (BuildPath expandedAB [] "A\\B\\C".toList true).1 [] = some false ∧
      flagAt (BuildPath expandedAB [] "A\\B\\C".toList true).1 [0] = some false ∧
      flagAt (BuildPath expandedAB [] "A\\B\\C".toList true).1 [0, 0] = some false ∧
      flagAt (BuildPath expandedAB [] "A\\B\\C".toList true).1 [0, 0, 0] = some false :=
  ⟨⟨[0, 0, 0], rfl, rfl⟩, by decide, by decide, by decide,
    C8_BuildPath_clears_the_chain expandedAB "A\\B\\C".toList ⟨[0, 0, 0], rfl, rfl⟩ []
      ⟨[0, 0, 0], rfl⟩,
    C8_BuildPath_clears_the_chain expandedAB "A\\B\\C".toList ⟨[0, 0, 0], rfl, rfl⟩ [0]
      ⟨[0, 0], rfl⟩,
    C8_BuildPath_clears_the_chain expandedAB "A\\B\\C".toList ⟨[0, 0, 0], rfl, rfl⟩ [0, 0]
      ⟨[0], rfl⟩,
    C8_BuildPath_clears_the_chain expandedAB "A\\B\\C".toList ⟨[0, 0, 0], rfl, rfl⟩ [0, 0, 0]
      ⟨[], rfl⟩⟩

/-! ## Idempotence of `AddPath` -/

theorem buildFrom_of_findFrom (mark : Bool) (r : CFSNode) (comps : List WString) :
    ∀ q a, findFrom r q comps = some a → buildFrom mark r q comps = (r, a) := by
  induction comps with
  | nil => intro q a h; simp only [findFrom, Option.some.injEq] at h; subst h; rfl
  | cons c rest ih =>
    intro q a h
    rw [findFrom] at h
    cases hf : FindChild r q c with
    | none => simp [hf] at h
    | some pChild =>
      rw [hf] at h
      rw [buildFrom_cons_some mark r q pChild c rest hf]
      exact ih pChild a h

/-- C9, as stated, fails in its last clause: in a tree where `A` already has
two live children named `C`, after `AddPath` of `A\C` twice the node `A`, which
is on the path, still has two children named by the component `C`. -/
theorem C9_duplicate_counterexample :
    Find (AddPath (AddPath twoChildrenNamedC "A\\C".toList).2 "A\\C".toList).2 []
        "A\\C".toList = some [0, 0] ∧
      nameAt (AddPath (AddPath twoChildrenNamedC "A\\C".toList).2 "A\\C".toList).2 [0, 0] =
        some ['C'] ∧
      nameAt (AddPath (AddPath twoChildrenNamedC "A\\C".toList).2 "A\\C".toList).2 [1, 0] =
        some ['C'] := by
  decide

/-- C9, amended: for every tree and every path `P`, a second `AddPath(P)`
right after the first leaves the tree identical to the tree after the first
call (no node created, no flag changed) and `BuildPath` reaches the same node;
and if no node of the original tree has two live children with the same name,
no node has afterwards. -/
theorem C9_AddPath_idempotent (g_pRoot : CFSNode) (P : WString) :
    AddPath (AddPath g_pRoot P).2 P = AddPath g_pRoot P ∧
      BuildPath (AddPath g_pRoot P).2 [] P true =
        ((AddPath g_pRoot P).2, (BuildPath g_pRoot [] P true).2) ∧
      (NoDupNames g_pRoot → NoDupNames (AddPath (AddPath g_pRoot P).2 P).2) := by
  have hfind := findFrom_buildFrom true (components P) g_pRoot [] rfl
  have hb : BuildPath (AddPath g_pRoot P).2 [] P true =
      ((AddPath g_pRoot P).2, (BuildPath g_pRoot [] P true).2) := by
    simp only [AddPath, BuildPath_eq]
    exact buildFrom_of_findFrom true _ _ [] _ hfind
  have ha : AddPath (AddPath g_pRoot P).2 P = AddPath g_pRoot P := by
    have h1 : AddPath (AddPath g_pRoot P).2 P =
        (true, (BuildPath (AddPath g_pRoot P).2 [] P true).1) := rfl
    rw [h1, hb]; rfl
  refine ⟨ha, hb, fun hu => ?_⟩
  rw [ha]
  exact NoDupNames_AddPath g_pRoot P hu

/-! ## Unique names in every reachable tree -/

theorem isSome_nameAt (r : CFSNode) (b : Addr) : (nameAt r b).isSome = (deref r b).isSome := by
  simp [nameAt]

theorem Keeps_refl (r : CFSNode) : Keeps r r := ⟨id, fun _ h => h⟩

theorem Keeps_trans {r1 r2 r3 : CFSNode} (h12 : Keeps r1 r2) (h23 : Keeps r2 r3) :
    Keeps r1 r3 :=
  ⟨fun h => h23.1 (h12.1 h), fun b h => h23.2 b (h12.2 b h)⟩

theorem Keeps_of_names {r r' : CFSNode} (h : ∀ b, nameAt r' b = nameAt r b) : Keeps r r' := by
  constructor
  · intro hu p i j x hi hj
    rw [h] at hi hj
    exact hu p i j x hi hj
  · intro b hb
    rw [← isSome_nameAt, h, isSome_nameAt]; exact hb

theorem Keeps_createChild (mark : Bool) (r : CFSNode) (q : Addr) (c : WString)
    (hq : (deref r q).isSome) (hf : FindChild r q c = none) :
    Keeps r (createChild mark r q c) := by
  refine ⟨fun hu => NoDupNames_createChild mark r q c hu hq hf, fun b hb => ?_⟩
  rw [← isSome_nameAt, (obs_createChild mark r q b c hq).1]
  by_cases h : b = numSlots r q :: q
  · rw [if_pos h]; rfl
  · rw [if_neg h, isSome_nameAt]; exact hb

theorem Keeps_setExpand (r : CFSNode) (a : Addr) (v : Bool) :
    Keeps r (update r a (CFSNode.setExpand v)) :=
  Keeps_of_names (fun b => (obs_setExpand r a b v).1)

theorem ExpandLoop_Keeps (f : CFSNode → Addr → Option CFSNode)
    (hf : ∀ r pNode r', (deref r pNode).isSome → f r pNode = some r' → Keeps r r')
    (this : Addr) :
    ∀ (entries : List WIN32_FIND_DATAW) (r r' : CFSNode), (deref r this).isSome →
      ExpandLoop f this entries r = some r' → Keeps r r' := by
  intro entries
  induction entries with
  | nil =>
    intro r r' _ h
    simp only [ExpandLoop, Option.some.injEq] at h
    subst h; exact Keeps_refl r
  | cons e es ih =>
    intro r r' hthis h
    rw [ExpandLoop] at h
    by_cases hs : skipEntry e = true
    · rw [if_pos hs] at h
      exact ih r r' hthis h
    · rw [if_neg hs] at h
      cases hfc : FindChild r this e.cFileName with
      | some pNode =>
        rw [hfc] at h
        dsimp only at h
        cases hx : f r pNode with
        | none => rw [hx] at h; cases h
        | some r1 =>
          rw [hx] at h
          dsimp only at h
          have k1 := hf r pNode r1 (isSome_of_nameAt (nameAt_of_FindChild hfc)) hx
          exact Keeps_trans k1 (ih r1 r' (k1.2 this hthis) h)
      | none =>
        rw [hfc] at h
        dsimp only at h
        have hcc : update r this (CFSNode.push_back (CFSNode.new e.cFileName)) =
            createChild false r this e.cFileName := rfl
        rw [hcc] at h
        have k0 := Keeps_createChild false r this e.cFileName hthis hfc
        have hnew : (deref (createChild false r this e.cFileName) (numSlots r this :: this)).isSome := by
          apply isSome_of_nameAt (x := e.cFileName)
          rw [(obs_createChild false r this _ e.cFileName hthis).1, if_pos rfl]
        cases hx : f (createChild false r this e.cFileName) (numSlots r this :: this) with
        | none => rw [hx] at h; cases h
        | some r1 =>
          rw [hx] at h
          dsimp only at h
          have k1 := hf _ _ r1 hnew hx
          have k01 := Keeps_trans k0 k1
          exact Keeps_trans k01 (ih r1 r' (k01.2 this hthis) h)

theorem Expand_Keeps (oracle : Oracle) :
    ∀ (depth : Nat) (r : CFSNode) (this : Addr) (r' : CFSNode), (deref r this).isSome →
      Expand oracle depth r this = some r' → Keeps r r' := by
  intro depth
  induction depth with
  | zero => intro r this r' _ h; simp [Expand] at h
  | succ n ih =>
    intro r this r' hthis h
    rw [Expand] at h
    by_cases he : ((deref r this).map CFSNode.m_bExpand).getD false = true
    · rw [if_pos he] at h
      cases h; exact Keeps_refl r
    · rw [if_neg he] at h
      dsimp only at h
      cases ho : oracle (GetFullName r this ++ ['\\', '*']) with
      | none => rw [ho] at h; cases h; exact Keeps_refl r
      | some entries =>
        rw [ho] at h
        dsimp only at h
        cases hl : ExpandLoop (Expand oracle n) this entries r with
        | none => rw [hl] at h; cases h
        | some r1 =>
          rw [hl] at h
          cases h
          exact Keeps_trans (ExpandLoop_Keeps (Expand oracle n) ih this entries r r1 hthis hl)
            (Keeps_setExpand r1 this true)

theorem buildFrom_isSome (mark : Bool) (comps : List WString) (r : CFSNode) (q : Addr)
    (hq : (deref r q).isSome) :
    (deref (buildFrom mark r q comps).1 (buildFrom mark r q comps).2).isSome :=
  findFrom_isSome _ comps q _
    (by
      rw [← isSome_nameAt, buildFrom_names_off mark comps r q hq q (fun h => h.2 rfl),
        isSome_nameAt]
      exact hq)
    (findFrom_buildFrom mark comps r q hq)

theorem NoDupNames_AddPathsFromDirectory (oracle : Oracle) (depth : Nat) (r : CFSNode)
    (P : WString) (res : Bool × CFSNode) (hu : NoDupNames r)
    (h : AddPathsFromDirectory oracle depth r P = some res) : NoDupNames res.2 := by
  unfold AddPathsFromDirectory at h
  dsimp only at h
  cases hx : Expand oracle depth (BuildPath r [] P true).1 (BuildPath r [] P true).2 with
  | none => rw [hx] at h; cases h
  | some r' =>
    rw [hx] at h
    cases h
    have hv : (deref (BuildPath r [] P true).1 (BuildPath r [] P true).2).isSome := by
      rw [BuildPath_eq]; exact buildFrom_isSome true _ r [] rfl
    have hb : NoDupNames (BuildPath r [] P true).1 := NoDupNames_AddPath r P hu
    exact (Expand_Keeps oracle depth _ _ r' hv hx).1 hb

theorem NoDupNames_DeletePath (r : CFSNode) (P : WString) (hu : NoDupNames r) :
    NoDupNames (DeletePath r P).2 := by
  cases hfind : Find r [] P with
  | none => simp only [DeletePath, hfind]; exact hu
  | some a =>
    cases a with
    | nil => simp only [DeletePath, hfind, Remove]; exact hu
    | cons i p =>
      rw [DeletePath_eq r P i p hfind]
      intro p' i' j' x hi hj
      rw [nameAt_clearSlot] at hi hj
      by_cases h1 : (i :: p) <:+ (i' :: p')
      · rw [if_pos h1] at hi; cases hi
      · by_cases h2 : (i :: p) <:+ (j' :: p')
        · rw [if_pos h2] at hj; cases hj
        · rw [if_neg h1] at hi; rw [if_neg h2] at hj
          exact hu p' i' j' x hi hj

theorem NoDupNames_RenamePath (r : CFSNode) (P1 P2 : WString) (hu : NoDupNames r)
    (hk : RenameKeepsUnique r P1 P2) : NoDupNames (RenamePath r P1 P2).2 := by
  unfold RenamePath
  cases hfind : Find r [] P1 with
  | none => exact hu
  | some n =>
    cases hw : wcsrchr P2 '\\' with
    | none => exact hu
    | some k =>
      dsimp only
      intro p i j x hi hj
      rw [(obs_setName r n _ _).2.2] at hi hj
      by_cases h1 : i :: p = n
      · subst h1
        by_cases h2 : j :: p = i :: p
        · exact (List.cons.inj h2).1.symm
        · rw [if_pos rfl] at hi
          rw [if_neg h2] at hj
          have hx : x = P2.drop (k + 1) := by
            cases hn : nameAt r (i :: p) with
            | none => rw [hn] at hi; cases hi
            | some y => rw [hn] at hi; exact (Option.some.inj hi).symm
          have hji : j ≠ i := fun h => h2 (by rw [h])
          exact absurd (hx ▸ hj) (hk i p k hfind hw j hji)
      · rw [if_neg h1] at hi
        by_cases h2 : j :: p = n
        · subst h2
          rw [if_pos rfl] at hj
          have hx : x = P2.drop (k + 1) := by
            cases hn : nameAt r (j :: p) with
            | none => rw [hn] at hj; cases hj
            | some y => rw [hn] at hj; exact (Option.some.inj hj).symm
          have hij : i ≠ j := fun h => h1 (by rw [h])
          exact absurd (hx ▸ hi) (hk j p k hfind hw i hij)
        · rw [if_neg h2] at hj
          exact hu p i j x hi hj

/-- C10, as stated, fails: `AddPath` of `A\B`, `AddPath` of `A\C` and
`RenamePath` of `A\B` to `A\C` reach a tree in which the node `A` has two live
children named `C`. -/
theorem C10_rename_counterexample :
    Reachable (fun _ _ _ => True) twoChildrenNamedC ∧ ¬ NoDupNames twoChildrenNamedC := by
  constructor
  · exact Reachable.renamePath _ _ _
      (Reachable.addPath _ _ (Reachable.addPath _ _ Reachable.fresh)) trivial
  · intro h
    have := h [0] 0 1 ['C'] (by decide) (by decide)
    exact absurd this (by decide)

/-- C10, amended: in every tree reachable from a fresh root by a finite
sequence of `AddPath`, `AddPathsFromDirectory` (with any enumeration oracle),
`DeletePath` and those `RenamePath` calls whose new name is not already the
name of another live child of the renamed node's parent, no node has two live
children with the same name. -/
theorem C10_reachable_names_unique (r : CFSNode) (h : Reachable RenameKeepsUnique r) :
    NoDupNames r := by
  induction h with
  | fresh => exact NoDupNames_new []
  | addPath r P _ ih => exact NoDupNames_AddPath r P ih
  | addPathsFromDirectory r oracle depth P res _ hres ih =>
    exact NoDupNames_AddPathsFromDirectory oracle depth r P res ih hres
  | renamePath r P1 P2 _ hk ih => exact NoDupNames_RenamePath r P1 P2 ih hk
  | deletePath r P _ ih => exact NoDupNames_DeletePath r P ih

theorem exampleScanned_eq :
    AddPathsFromDirectory exampleOracle 3 (AddPath freshRoot "A\\B".toList).2 "A".toList =
      some exampleScanned := rfl

theorem exampleScanned_rename_ok :
    RenameKeepsUnique exampleScanned.2 "A\\B".toList "A\\X".toList := by
  intro i p k h1 h2 j hj
  have e1 : Find exampleScanned.2 [] "A\\B".toList = some [0, 0] := by decide
  have e2 : wcsrchr "A\\X".toList '\\' = some 1 := by decide
  rw [e1] at h1
  rw [e2] at h2
  cases h1
  cases h2
  match j, hj with
  | 0, hj => exact absurd rfl hj
  | 1, _ => decide
  | j + 2, _ => intro h; cases h

/-- C10, amended, on a tree reached by `AddPath` of `A\B`,
`AddPathsFromDirectory` of `A`, `RenamePath` of `A\B` to `A\X` and
`DeletePath` of `A\sub`. -/
theorem C10_reachable_names_unique_witness :
    NoDupNames (DeletePath (RenamePath exampleScanned.2 "A\\B".toList "A\\X".toList).2
      "A\\sub".toList).2 :=
  C10_reachable_names_unique _
    (Reachable.deletePath _ _
      (Reachable.renamePath _ _ _
        (Reachable.addPathsFromDirectory _ exampleOracle 3 "A".toList exampleScanned
          (Reachable.addPath _ "A\\B".toList Reachable.fresh) exampleScanned_eq)
        exampleScanned_rename_ok))

/-! ## `Find` is the walk along first matches -/

theorem findFrom_eq_some_iff (r : CFSNode) (comps : List WString) :
    ∀ q a, findFrom r q comps = some a ↔ IsWalk r q comps a := by
  induction comps with
  | nil =>
    intro q a
    constructor
    · intro h; simp only [findFrom, Option.some.injEq] at h; subst h; exact IsWalk.done q
    · intro h; cases h; rfl
  | cons c rest ih =>
    intro q a
    constructor
    · intro h
      rw [findFrom] at h
      cases hf : FindChild r q c with
      | none => simp [hf] at h
      | some pChild =>
        rw [hf] at h
        obtain ⟨i, rfl, h1, h2⟩ := (FindChild_eq_some_iff r q pChild c).1 hf
        exact IsWalk.step q i c rest a h1 h2 ((ih _ a).1 h)
    · intro h
      cases h with
      | step _ i _ _ _ h1 h2 h3 =>
        have hf : FindChild r q c = some (i :: q) :=
          (FindChild_eq_some_iff r q _ c).2 ⟨i, rfl, h1, h2⟩
        rw [findFrom, hf]
        exact (ih _ a).2 h3

theorem findFrom_eq_none_iff (r : CFSNode) (comps : List WString) :
    ∀ q, findFrom r q comps = none ↔ IsStuck r q comps := by
  induction comps with
  | nil =>
    intro q
    constructor
    · intro h; simp [findFrom] at h
    · intro h; cases h
  | cons c rest ih =>
    intro q
    constructor
    · intro h
      rw [findFrom] at h
      cases hf : FindChild r q c with
      | none => exact IsStuck.here q c rest ((FindChild_eq_none_iff r q c).1 hf)
      | some pChild =>
        rw [hf] at h
        obtain ⟨i, rfl, h1, h2⟩ := (FindChild_eq_some_iff r q pChild c).1 hf
        exact IsStuck.later q i c rest h1 h2 ((ih _).1 h)
    · intro h
      cases h with
      | here _ _ _ h1 =>
        rw [findFrom, (FindChild_eq_none_iff r q c).2 h1]
      | later _ i _ _ h1 h2 h3 =>
        have hf : FindChild r q c = some (i :: q) :=
          (FindChild_eq_some_iff r q _ c).2 ⟨i, rfl, h1, h2⟩
        rw [findFrom, hf]
        exact (ih _).2 h3

/-- C14: for every node `n` and path `P` with the components the tokenizer
yields, `n.Find(P)` returns the node reached from `n` by moving, for each
component in order, to the first live child whose name equals it; it returns
`NULL` if and only if some step has no such child; for a path with no
component it returns `n` itself. `Find` returns a pointer only: it has no
tree to give back. -/
theorem C14_Find_walks_first_matches (root : CFSNode) (n : Addr) (P : WString) :
    (∀ a, Find root n P = some a ↔ IsWalk root n (tokens P) a) ∧
      (Find root n P = none ↔ IsStuck root n (tokens P)) ∧
      (tokens P = [] → Find root n P = some n) ∧
      Find root n [] = some n := by
  rw [Find_eq, tokens_eq]
  refine ⟨fun a => findFrom_eq_some_iff root _ n a, findFrom_eq_none_iff root _ n, ?_, rfl⟩
  intro h
  rw [h]; rfl

/-! ## The tokenizer: joining and splitting -/

theorem intercalate_cons_cons (sep a b : WString) (l : List WString) :
    sep.intercalate (a :: b :: l) = a ++ sep ++ sep.intercalate (b :: l) := by
  simp [List.intercalate, List.intersperse]

theorem cons_intercalate (l : List WString) (hl : l ≠ []) :
    '\\' :: ['\\'].intercalate l = (l.map (fun c => '\\' :: c)).flatten := by
  induction l with
  | nil => exact absurd rfl hl
  | cons a rest ih =>
    cases rest with
    | nil => simp [List.intercalate, List.intersperse]
    | cons b rest =>
      rw [intercalate_cons_cons, List.map_cons, List.flatten_cons, ← ih (by simp)]
      simp

theorem intercalate_append_sep (l : List WString) (hl : l ≠ []) :
    (l.map (fun c => c ++ ['\\'])).flatten = ['\\'].intercalate l ++ ['\\'] := by
  induction l with
  | nil => exact absurd rfl hl
  | cons a rest ih =>
    cases rest with
    | nil => simp [List.intercalate, List.intersperse]
    | cons b rest =>
      rw [intercalate_cons_cons, List.map_cons, List.flatten_cons, ih (by simp)]
      simp

theorem splitAux_trailing (u : WString) :
    ∀ acc : WString, splitAux acc (u ++ ['\\']) ≠ [] ∧
      ((splitAux acc (u ++ ['\\'])).map (fun c => '\\' :: c)).flatten = '\\' :: (acc ++ u) := by
  induction u with
  | nil => intro acc; simp [splitAux]
  | cons c cs ih =>
    intro acc
    by_cases hc : c = '\\'
    · subst hc
      rw [List.cons_append, splitAux, if_pos rfl]
      refine ⟨by simp, ?_⟩
      rw [List.map_cons, List.flatten_cons, (ih []).2]
      simp
    · rw [List.cons_append, splitAux, if_neg hc]
      refine ⟨(ih _).1, ?_⟩
      rw [(ih _).2]; simp

/-- Joining the components with backslashes gives the path back when it does
not end with a backslash. -/
theorem intercalate_components (P : WString) (h : P.getLast? ≠ some '\\') :
    ['\\'].intercalate (components P) = P := by
  by_cases hP : P = []
  · subst hP; rfl
  · have h1 := cons_intercalate (components P) (components_ne_nil hP)
    rw [components, splitAux_join P [] h (Or.inr hP)] at h1
    simpa [components] using h1

/-- Joining the components with backslashes drops a final backslash. -/
theorem intercalate_components_trailing (P : WString) (h : P.getLast? = some '\\') :
    ['\\'].intercalate (components P) = P.dropLast := by
  have hP : P ≠ [] := by rintro rfl; simp at h
  have hd : P = P.dropLast ++ ['\\'] := by
    have := List.dropLast_append_getLast hP
    rw [List.getLast?_eq_getLast _ hP] at h
    rw [Option.some.inj h] at this
    exact this.symm
  have h1 := cons_intercalate (components P) (components_ne_nil hP)
  have h2 := (splitAux_trailing P.dropLast []).2
  rw [← hd] at h2
  rw [components, h2] at h1
  simpa [components] using h1

theorem dropLastIfEmpty_cons (a : WString) (X : List WString) (hX : X ≠ []) :
    dropLastIfEmpty (a :: X) = a :: dropLastIfEmpty X := by
  cases X with
  | nil => exact absurd rfl hX
  | cons b Y =>
    unfold dropLastIfEmpty
    rw [List.getLast?_cons_cons]
    by_cases h : (b :: Y).getLast? = some []
    · rw [if_pos h, if_pos h]; rfl
    · rw [if_neg h, if_neg h]

/-- The components are the pieces between backslashes, the last piece dropped
when it is empty. -/
theorem splitAux_eq_splitOn (u : WString) :
    ∀ acc : WString,
      splitAux acc u = dropLastIfEmpty (List.modifyHead (fun x => acc ++ x) (u.splitOn '\\')) := by
  induction u with
  | nil =>
    intro acc
    by_cases h : acc = []
    · subst h; simp [splitAux, dropLastIfEmpty, List.modifyHead]
    · simp [splitAux, dropLastIfEmpty, List.modifyHead, h]
  | cons c cs ih =>
    intro acc
    have hne : cs.splitOn '\\' ≠ [] := List.splitOnP_ne_nil _ cs
    by_cases hc : c = '\\'
    · subst hc
      rw [splitAux, if_pos rfl, ih []]
      have : List.splitOn '\\' ('\\' :: cs) = [] :: cs.splitOn '\\' := by
        simp [List.splitOn]
      rw [this]
      simp only [List.modifyHead, List.append_nil]
      rw [dropLastIfEmpty_cons acc _ hne]
      congr 2
      cases cs.splitOn '\\' <;> simp [List.modifyHead]
    · rw [splitAux, if_neg hc, ih (acc ++ [c])]
      have : List.splitOn '\\' (c :: cs) = List.modifyHead (List.cons c) (cs.splitOn '\\') := by
        simp [List.splitOn, hc]
      rw [this]
      congr 1
      cases cs.splitOn '\\' <;> simp [List.modifyHead]

theorem components_eq_splitOn (P : WString) :
    components P = dropLastIfEmpty (P.splitOn '\\') := by
  rw [components, splitAux_eq_splitOn P []]
  congr 1
  cases P.splitOn '\\' <;> simp [List.modifyHead]

theorem splitAux_length (u : WString) :
    ∀ acc : WString, (splitAux acc u).length ≤ u.length + (if acc = [] then 0 else 1) := by
  induction u with
  | nil => intro acc; by_cases h : acc = [] <;> simp [splitAux, h]
  | cons c cs ih =>
    intro acc
    by_cases hc : c = '\\'
    · subst hc
      have := ih []
      simp only [splitAux, if_true, List.length_cons] at this ⊢
      split <;> omega
    · have := ih (acc ++ [c])
      simp only [splitAux, if_neg hc, List.length_cons] at this ⊢
      have h2 : acc ++ [c] ≠ [] := by simp
      rw [if_neg h2] at this
      split <;> omega

theorem components_length_le (P : WString) : (components P).length ≤ P.length := by
  have := splitAux_length P []
  simpa [components] using this

/-- C15, as stated, fails: the components of `A` followed by a backslash are
just `A`, and joining them gives `A`, not the path. -/
theorem C15_trailing_backslash_counterexample :
    tokens ['A', '\\'] = [['A']] ∧
      ['\\'].intercalate (tokens ['A', '\\']) ≠ ['A', '\\'] := by
  decide

/-- C15, amended: joining with a backslash the components that repeated
`GetNext()` calls yield reconstructs `P` exactly when `P` does not end with a
backslash, and reconstructs `P` without its last character when `P` ends with
a backslash. -/
theorem C15_join_of_components (P : WString) :
    (P.getLast? ≠ some '\\' → ['\\'].intercalate (tokens P) = P) ∧
      (P.getLast? = some '\\' → ['\\'].intercalate (tokens P) = P.dropLast) := by
  rw [tokens_eq]
  exact ⟨intercalate_components P, intercalate_components_trailing P⟩

/-! ## `GetPath` after some calls of `GetNext` -/

theorem take_indexOf_succ (ch : Char) (u : WString) (h : u.indexOf ch < u.length) :
    u.take (u.indexOf ch + 1) = u.take (u.indexOf ch) ++ [ch] := by
  induction u with
  | nil => simp at h
  | cons c cs ih =>
    by_cases hc : c = ch
    · subst hc; simp
    · rw [List.indexOf_cons_ne _ hc] at h ⊢
      have h' : cs.indexOf ch < cs.length := by simpa using h
      rw [List.take_succ_cons, ih h']
      rfl

/-- A successful `GetNext` either reads up to the end of the string or reads a
component and the backslash behind it. -/
theorem GetNext_take (s : WString) (ich : Nat) (h : ich < s.length) :
    (∃ tok, (CFSPathIterator.mk s ich).GetNext = some (tok, ⟨s, s.length⟩)) ∨
      (∃ tok ich', (CFSPathIterator.mk s ich).GetNext = some (tok, ⟨s, ich'⟩) ∧
        ich < ich' ∧ ich' ≤ s.length ∧ s.take ich' = s.take ich ++ tok ++ ['\\']) := by
  have hlen : (s.drop ich).length = s.length - ich := List.length_drop ich s
  have hle : (s.drop ich).indexOf '\\' ≤ s.length - ich := hlen ▸ List.indexOf_le_length
  by_cases hf : (s.drop ich).indexOf '\\' < (s.drop ich).length
  · right
    refine ⟨(s.drop ich).take ((s.drop ich).indexOf '\\'),
      ich + (s.drop ich).indexOf '\\' + 1, ?_, by omega, by omega, ?_⟩
    · have : ich + (s.drop ich).indexOf '\\' < s.length := by omega
      simp [CFSPathIterator.GetNext, wfind, substr, this, Nat.not_le.mpr h]
    · rw [Nat.add_assoc, List.take_add, take_indexOf_succ '\\' _ hf, List.append_assoc]
  · left
    refine ⟨s.drop ich, ?_⟩
    have : ¬ ich + (s.drop ich).indexOf '\\' < s.length := by omega
    simp [CFSPathIterator.GetNext, wfind, substr, this, Nat.not_le.mpr h]

theorem callGetNext_spec (P : WString) :
    ∀ (k ich : Nat), ich ≤ P.length →
      (callGetNext k ⟨P, ich⟩).1.m_strFullName = P ∧
      (callGetNext k ⟨P, ich⟩).1.m_ich ≤ P.length ∧
      ((callGetNext k ⟨P, ich⟩).2 = [] → (callGetNext k ⟨P, ich⟩).1.m_ich = ich) ∧
      ((callGetNext k ⟨P, ich⟩).1.m_ich < P.length →
        P.take (callGetNext k ⟨P, ich⟩).1.m_ich =
          P.take ich ++ ((callGetNext k ⟨P, ich⟩).2.map (fun c => c ++ ['\\'])).flatten) := by
  intro k
  induction k with
  | zero => intro ich h; simp [callGetNext, h]
  | succ k ih =>
    intro ich h
    by_cases hi : ich < P.length
    · rcases GetNext_take P ich hi with ⟨tok, hg⟩ | ⟨tok, ich', hg, h1, h2, h3⟩
      · obtain ⟨e1, e2, e3, e4⟩ := ih P.length (le_refl _)
        have hend : (callGetNext k ⟨P, P.length⟩).1.m_ich = P.length := by
          cases k with
          | zero => rfl
          | succ k =>
            have hn := (GetNext_none P P.length (le_refl _)).1
            have : ∀ k, (callGetNext k ⟨P, P.length⟩) = (⟨P, P.length⟩, []) := by
              intro k
              induction k with
              | zero => rfl
              | succ k ihk => rw [callGetNext, hn]; exact ihk
            rw [this]
        simp only [callGetNext, hg]
        refine ⟨e1, e2, fun h' => by simp at h', fun h' => ?_⟩
        rw [hend] at h'; omega
      · obtain ⟨e1, e2, e3, e4⟩ := ih ich' h2
        simp only [callGetNext, hg]
        refine ⟨e1, e2, fun h' => by simp at h', fun h' => ?_⟩
        rw [e4 h', h3]
        simp
    · have hn := (GetNext_none P ich (Nat.le_of_not_lt hi)).1
      rw [callGetNext, hn]
      exact ih ich h

/-- C16: after any number `k` of `GetNext()` calls on a new iterator over `P`,
`GetPath()` returns the whole of `P` when the cursor is 0 or at or after the
end of `P`; otherwise it returns the part of `P` before the cursor without
the backslash that ends it, and that is the components yielded so far joined
with backslashes. -/
theorem C16_GetPath_after_GetNext (P : WString) (k : Nat) :
    (((callGetNext k (CFSPathIterator.new P)).1.m_ich = 0 ∨
        P.length ≤ (callGetNext k (CFSPathIterator.new P)).1.m_ich) →
      (callGetNext k (CFSPathIterator.new P)).1.GetPath = P) ∧
    (¬ ((callGetNext k (CFSPathIterator.new P)).1.m_ich = 0 ∨
        P.length ≤ (callGetNext k (CFSPathIterator.new P)).1.m_ich) →
      P.take (callGetNext k (CFSPathIterator.new P)).1.m_ich =
          (callGetNext k (CFSPathIterator.new P)).1.GetPath ++ ['\\'] ∧
        (callGetNext k (CFSPathIterator.new P)).1.GetPath =
          ['\\'].intercalate (callGetNext k (CFSPathIterator.new P)).2) := by
  obtain ⟨e1, e2, e3, e4⟩ := callGetNext_spec P k 0 (Nat.zero_le _)
  unfold CFSPathIterator.new
  constructor
  · intro h
    unfold CFSPathIterator.GetPath
    rw [e1, if_pos (by simpa using h)]
  · intro h
    have h0 : (callGetNext k ⟨P, 0⟩).1.m_ich ≠ 0 := fun h' => h (Or.inl h')
    have hlt : (callGetNext k ⟨P, 0⟩).1.m_ich < P.length := by
      by_contra h'; exact h (Or.inr (Nat.le_of_not_lt h'))
    have hy : (callGetNext k ⟨P, 0⟩).2 ≠ [] := fun h' => h0 (e3 h')
    have ht := e4 hlt
    rw [List.take_zero, List.nil_append, intercalate_append_sep _ hy] at ht
    have hg : (callGetNext k ⟨P, 0⟩).1.GetPath = P.take ((callGetNext k ⟨P, 0⟩).1.m_ich - 1) := by
      unfold CFSPathIterator.GetPath
      rw [e1, if_neg (by simpa using h)]
      simp [substr]
    have hl : (['\\'].intercalate (callGetNext k ⟨P, 0⟩).2).length =
        (callGetNext k ⟨P, 0⟩).1.m_ich - 1 := by
      have := congrArg List.length ht
      simp only [List.length_take, List.length_append, List.length_singleton] at this
      omega
    have hj : (callGetNext k ⟨P, 0⟩).1.GetPath = ['\\'].intercalate (callGetNext k ⟨P, 0⟩).2 := by
      rw [hg]
      have : P.take ((callGetNext k ⟨P, 0⟩).1.m_ich - 1) =
          (P.take (callGetNext k ⟨P, 0⟩).1.m_ich).take ((callGetNext k ⟨P, 0⟩).1.m_ich - 1) := by
        rw [List.take_take]; congr 1; omega
      rw [this, ht, ← hl, List.take_left']
      rfl
    exact ⟨by rw [hj]; exact ht, hj⟩

/-! ## The sequence of components -/

/-- C20: each successful `GetNext()` strictly advances the cursor, so the
sequence of components of `P` is finite: any budget above `|P|` gives the same
sequence, of at most `|P|` components. It equals `P` split at every backslash
with the last piece dropped when it is empty: the empty string yields no
component, `A` with a backslash behind it yields only `A`, and a leading or
doubled backslash yields an empty component. -/
theorem C20_components_of_a_path (P : WString) :
    (∀ (it it' : CFSPathIterator) (s : WString), it.GetNext = some (s, it') →
        it.m_ich < it'.m_ich ∧ it'.m_ich ≤ it.m_strFullName.length) ∧
      (∀ fuel, P.length < fuel → tokensLoop fuel (CFSPathIterator.new P) = tokens P) ∧
      (tokens P).length ≤ P.length ∧
      tokens P = dropLastIfEmpty (P.splitOn '\\') ∧
      tokens [] = [] ∧ tokens ['A', '\\'] = [['A']] ∧
      tokens ['\\', 'A'] = [[], ['A']] ∧
      tokens ['A', '\\', '\\', 'B'] = [['A'], [], ['B']] := by
  refine ⟨?_, ?_, ?_, ?_, by decide, by decide, by decide, by decide⟩
  · intro it it' s h
    cases it with
    | mk str ich =>
      by_cases hi : ich < str.length
      · obtain ⟨tok, ich', hg, h1, h2, _⟩ := GetNext_some str ich hi
        rw [hg] at h
        cases h
        exact ⟨h1, h2⟩
      · rw [(GetNext_none str ich (Nat.le_of_not_lt hi)).1] at h
        cases h
  · intro fuel hf
    rw [tokens_eq]
    have := tokensLoop_eq P fuel 0 (by omega)
    simpa [CFSPathIterator.new] using this
  · rw [tokens_eq]; exact components_length_le P
  · rw [tokens_eq]; exact components_eq_splitOn P

/-! ## What `BuildPath` leaves alone -/

theorem lt_numSlots_of_isSome (r : CFSNode) (j : Nat) (p : Addr)
    (h : (deref r (j :: p)).isSome) : j < numSlots r p := by
  rw [deref_cons] at h
  cases hp : deref r p with
  | none => simp [hp] at h
  | some n =>
    rw [hp] at h
    simp only [Option.some_bind, CFSNode.child] at h
    simp only [numSlots, hp, Option.map_some', Option.getD_some]
    by_contra hlt
    rw [List.getElem?_eq_none (by omega)] at h
    simp at h

theorem not_Beyond_of_isSome (r : CFSNode) (b : Addr) (h : (deref r b).isSome) :
    ¬ Beyond r b := by
  rintro ⟨c, j, p, rfl, hj⟩
  have := lt_numSlots_of_isSome r j p (isSome_of_suffix r ⟨c, rfl⟩ h)
  omega

theorem own_createChild_other (mark : Bool) (r : CFSNode) (p b : Addr) (c : WString)
    (hp : (deref r p).isSome) :
    slotsAt (createChild mark r p c) b =
      if b = numSlots r p :: p then some 0
      else if b = p then (slotsAt r b).map (· + 1) else slotsAt r b := by
  have hmark : slotsAt (createChild mark r p c) b =
      slotsAt (update r p (CFSNode.push_back (CFSNode.new c))) b := by
    unfold createChild
    cases mark with
    | false => rfl
    | true => exact (obs_MarkNotExpanded p _ b).2.1
  rw [hmark]
  by_cases hb : (numSlots r p :: p) <:+ b
  · obtain ⟨c', rfl⟩ := hb
    rw [slotsAt, deref_update_push_new r p c' _ hp]
    cases c' with
    | nil => simp [deref, CFSNode.new, CFSNode.m_children]
    | cons j c' =>
      have hne : (j :: c') ++ numSlots r p :: p ≠ numSlots r p :: p := by
        intro h; have := congrArg List.length h; simp at this; omega
      have hne2 : (j :: c') ++ numSlots r p :: p ≠ p := by
        intro h; have := congrArg List.length h; simp at this; omega
      rw [if_neg hne, if_neg hne2, deref_new c _ (List.cons_ne_nil j c'), slotsAt,
        deref_numSlots]
  · have hne : b ≠ numSlots r p :: p := by
      rintro rfl; exact hb (List.suffix_refl _)
    rw [if_neg hne]
    by_cases hbp : b = p
    · subst hbp
      rw [if_pos rfl, slotsAt, slotsAt, deref_update_self]
      cases deref r b with
      | none => rfl
      | some n => cases n; simp [CFSNode.push_back, CFSNode.m_children]
    · rw [if_neg hbp]
      rcases addr_cases p b with ⟨c', rfl⟩ | h
      · rw [slotsAt, slotsAt, deref_update_sub, deref_append]
        cases hd : deref r p with
        | none => rfl
        | some n =>
          simp only [Option.some_bind]
          rcases List.eq_nil_or_concat c' with rfl | ⟨c'', j, rfl⟩
          · exact absurd rfl hbp
          · rw [List.concat_eq_append] at hb ⊢
            have hj : j ≠ n.m_children.length := by
              rintro rfl
              apply hb
              refine ⟨c'', ?_⟩
              simp [numSlots, hd]
            rw [deref_snoc, deref_snoc, child_push_back, if_neg hj]
      · exact ((own_iff_obs _ _ _).1 (deref_update_off r p _ b h)).2.2

theorem numSlots_createChild_le (mark : Bool) (r : CFSNode) (p b : Addr) (c : WString)
    (hp : (deref r p).isSome) (hb : b ≠ numSlots r p :: p) :
    numSlots r b ≤ numSlots (createChild mark r p c) b := by
  have h := own_createChild_other mark r p b c hp
  rw [if_neg hb] at h
  have e1 : ∀ x, numSlots x b = (slotsAt x b).getD 0 := fun _ => rfl
  rw [e1, e1, h]
  by_cases hbp : b = p
  · rw [if_pos hbp]
    cases slotsAt r b <;> simp
  · rw [if_neg hbp]

theorem Beyond_of_createChild (mark : Bool) (r : CFSNode) (q b : Addr) (c : WString)
    (hq : (deref r q).isSome) (h : Beyond (createChild mark r q c) b) : Beyond r b := by
  obtain ⟨c', j, p, rfl, hj⟩ := h
  by_cases hp : p = numSlots r q :: q
  · subst hp
    exact ⟨c' ++ [j], numSlots r q, q, by simp, le_refl _⟩
  · exact ⟨c', j, p, rfl, le_trans (numSlots_createChild_le mark r q p c hq hp) hj⟩

/-- The frame of `BuildPath`: an address either lies beyond the slots of the
old tree, where a node is new and collapsed, or it keeps its name (and
liveness), and its flag is unchanged unless the flag was cleared because a
child was created at or below the node. -/
theorem buildFrom_frame (mark : Bool) (comps : List WString) :
    ∀ (r : CFSNode) (q : Addr), (deref r q).isSome → ∀ b,
      (Beyond r b ∧ flagAt (buildFrom mark r q comps).1 b ≠ some true) ∨
        (nameAt (buildFrom mark r q comps).1 b = nameAt r b ∧
          (flagAt (buildFrom mark r q comps).1 b = flagAt r b ∨
            (mark = true ∧ flagAt (buildFrom mark r q comps).1 b = some false ∧
              ∃ p j, b <:+ p ∧ deref r (j :: p) = none ∧
                (deref (buildFrom mark r q comps).1 (j :: p)).isSome))) := by
  induction comps with
  | nil => intro r q _ b; exact Or.inr ⟨rfl, Or.inl rfl⟩
  | cons c rest ih =>
    intro r q hq b
    cases hf : FindChild r q c with
    | some pChild =>
      rw [buildFrom_cons_some mark r q pChild c rest hf]
      exact ih r pChild (isSome_of_nameAt (nameAt_of_FindChild hf)) b
    | none =>
      rw [buildFrom_cons_none mark r q c rest hf]
      have hobs := obs_createChild mark r q
      have hnm : nameAt (createChild mark r q c) (numSlots r q :: q) = some c := by
        rw [(hobs _ c hq).1, if_pos rfl]
      have hlive := isSome_of_nameAt hnm
      have hold : deref r (numSlots r q :: q) = none := by
        have := deref_numSlots r q []
        simpa using this
      have hbeyond : Beyond r (numSlots r q :: q) := ⟨[], numSlots r q, q, rfl, le_refl _⟩
      have hkeep : (deref (buildFrom mark (createChild mark r q c) (numSlots r q :: q) rest).1
          (numSlots r q :: q)).isSome := by
        rcases ih _ _ hlive (numSlots r q :: q) with h | ⟨h, _⟩
        · exact absurd h.1 (not_Beyond_of_isSome _ _ hlive)
        · apply isSome_of_nameAt (x := c); rw [h, hnm]
      rcases ih (createChild mark r q c) (numSlots r q :: q) hlive b with h | ⟨h1, h2⟩
      · exact Or.inl ⟨Beyond_of_createChild mark r q b c hq h.1, h.2⟩
      · by_cases hb : b = numSlots r q :: q
        · subst hb
          left
          refine ⟨hbeyond, ?_⟩
          have hfl := (hobs (numSlots r q :: q) c hq).2
          rw [if_pos rfl] at hfl
          rcases h2 with h2 | ⟨_, h2, _⟩
          · rw [h2, hfl]; simp
          · rw [h2]; simp
        · right
          have hn := (hobs b c hq).1
          have hfl := (hobs b c hq).2
          rw [if_neg hb] at hn hfl
          refine ⟨h1.trans hn, ?_⟩
          rcases h2 with h2 | ⟨hm, h2, p, j, hbp, hnone, hsome⟩
          · by_cases hcl : mark = true ∧ b <:+ q
            · rw [if_pos hcl] at hfl
              cases hfb : flagAt r b with
              | none => left; rw [h2, hfl, hfb]; rfl
              | some v =>
                right
                refine ⟨hcl.1, ?_, q, numSlots r q, hcl.2, hold, hkeep⟩
                rw [h2, hfl, hfb]; rfl
            · rw [if_neg hcl] at hfl
              exact Or.inl (h2.trans hfl)
          · right
            refine ⟨hm, h2, p, j, hbp, ?_, hsome⟩
            by_cases hjp : j :: p = numSlots r q :: q
            · rw [hjp]; exact hold
            · have := (hobs (j :: p) c hq).1
              rw [if_neg hjp] at this
              cases hd : deref r (j :: p) with
              | none => rfl
              | some m =>
                have h3 : nameAt (createChild mark r q c) (j :: p) = some m.m_strName := by
                  rw [this, nameAt, hd]; rfl
                rw [nameAt, hnone] at h3
                cases h3

/-- C18: `BuildPath(P, TRUE)` from the root keeps the name of every
pre-existing node, which also stays at its address, hence under its parent and
in its slot; it changes the flag of a pre-existing node only by clearing it,
and only for a node that is an ancestor or self of a node under which a child
was created; it never sets a flag to `TRUE`; and with
`bMarkNotExpanded = FALSE` it changes no pre-existing flag at all. -/
theorem C18_BuildPath_frame (g_pRoot : CFSNode) (P : WString) :
    (∀ b, (deref g_pRoot b).isSome →
        nameAt (BuildPath g_pRoot [] P true).1 b = nameAt g_pRoot b ∧
        (flagAt (BuildPath g_pRoot [] P true).1 b = flagAt g_pRoot b ∨
          (flagAt (BuildPath g_pRoot [] P true).1 b = some false ∧
            ∃ p j, b <:+ p ∧ deref g_pRoot (j :: p) = none ∧
              (deref (BuildPath g_pRoot [] P true).1 (j :: p)).isSome))) ∧
      (∀ b, flagAt (BuildPath g_pRoot [] P true).1 b = some true →
        flagAt g_pRoot b = some true) ∧
      (∀ b, (deref g_pRoot b).isSome →
        nameAt (BuildPath g_pRoot [] P false).1 b = nameAt g_pRoot b ∧
        flagAt (BuildPath g_pRoot [] P false).1 b = flagAt g_pRoot b) := by
  simp only [BuildPath_eq]
  refine ⟨fun b hb => ?_, fun b hb => ?_, fun b hb => ?_⟩
  · rcases buildFrom_frame true (components P) g_pRoot [] rfl b with h | ⟨h1, h2⟩
    · exact absurd h.1 (not_Beyond_of_isSome _ _ hb)
    · refine ⟨h1, ?_⟩
      rcases h2 with h2 | ⟨_, h2, h3⟩
      · exact Or.inl h2
      · exact Or.inr ⟨h2, h3⟩
  · rcases buildFrom_frame true (components P) g_pRoot [] rfl b with h | ⟨h1, h2⟩
    · exact absurd hb h.2
    · rcases h2 with h2 | ⟨_, h2, _⟩
      · rw [← h2]; exact hb
      · rw [h2] at hb; cases hb
  · rcases buildFrom_frame false (components P) g_pRoot [] rfl b with h | ⟨h1, h2⟩
    · exact absurd h.1 (not_Beyond_of_isSome _ _ hb)
    · refine ⟨h1, ?_⟩
      rcases h2 with h2 | ⟨hm, _⟩
      · exact h2
      · cases hm

/-- C19: `AddPath` is monotone for lookup: if `Find(Q)` returns the node `m`
before `AddPath(P)`, it returns the same node `m` afterwards. -/
theorem C19_AddPath_keeps_lookups (g_pRoot : CFSNode) (P Q : WString) (m : Addr)
    (h : Find g_pRoot [] Q = some m) : Find (AddPath g_pRoot P).2 [] Q = some m := by
  rw [Find_eq] at h ⊢
  simp only [AddPath, BuildPath_eq]
  have key : ∀ (comps : List WString) (q : Addr), (deref g_pRoot q).isSome →
      findFrom g_pRoot q comps = some m →
      findFrom (buildFrom true g_pRoot [] (components P)).1 q comps = some m := by
    intro comps
    induction comps with
    | nil => intro q _ hq; exact hq
    | cons c rest ih =>
      intro q hq hfind
      rw [findFrom] at hfind
      cases hf : FindChild g_pRoot q c with
      | none => simp [hf] at hfind
      | some pChild =>
        rw [hf] at hfind
        obtain ⟨i, rfl, h1, h2⟩ := (FindChild_eq_some_iff g_pRoot q pChild c).1 hf
        have hlive := isSome_of_nameAt h1
        have hi := lt_numSlots_of_isSome g_pRoot i q hlive
        have hsame : ∀ j, j ≤ i →
            nameAt (buildFrom true g_pRoot [] (components P)).1 (j :: q) =
              nameAt g_pRoot (j :: q) := by
          intro j hj
          rcases buildFrom_frame true (components P) g_pRoot [] rfl (j :: q) with hb | ⟨hb, _⟩
          · exfalso
            obtain ⟨c', j', p, he, hj'⟩ := hb.1
            cases c' with
            | nil =>
              simp only [List.nil_append] at he
              obtain ⟨rfl, rfl⟩ := List.cons.inj he
              omega
            | cons x c' =>
              simp only [List.cons_append] at he
              obtain ⟨_, rfl⟩ := List.cons.inj he
              have := lt_numSlots_of_isSome g_pRoot j' p (isSome_of_suffix g_pRoot ⟨c', rfl⟩ hq)
              omega
          · exact hb
        have hfc : FindChild (buildFrom true g_pRoot [] (components P)).1 q c = some (i :: q) := by
          rw [FindChild_eq_some_iff]
          refine ⟨i, rfl, (hsame i (le_refl _)).trans h1, fun j hj => ?_⟩
          rw [hsame j (le_of_lt hj)]
          exact h2 j hj
        rw [findFrom, hfc]
        exact ih (i :: q) hlive hfind
  exact key (components Q) [] rfl h

/-- C19 on the tree with `A\B`: the node that `Find` gives for `A\B` is the
same after `AddPath` of `A\C`. -/
theorem C19_AddPath_keeps_lookups_witness :
    Find (AddPath freshRoot "A\\B".toList).2 [] "A\\B".toList = some [0, 0] ∧
      Find (AddPath (AddPath freshRoot "A\\B".toList).2 "A\\C".toList).2 [] "A\\B".toList =
        some [0, 0] :=
  ⟨by decide,
    C19_AddPath_keeps_lookups (AddPath freshRoot "A\\B".toList).2 "A\\C".toList "A\\B".toList
      [0, 0] (by decide)⟩

/-! ## The root keeps its empty name -/

theorem GetFullName_nil (r : CFSNode) : GetFullName r [] = (nameAt r []).getD [] := by
  rw [GetFullName]; rfl

theorem nameAt_root_AddPath (r : CFSNode) (P : WString) :
    nameAt (AddPath r P).2 [] = nameAt r [] := by
  simp only [AddPath, BuildPath_eq]
  exact buildFrom_names_off true (components P) r [] rfl [] (fun h => h.2 rfl)

theorem nameAt_root_DeletePath (r : CFSNode) (P : WString) :
    nameAt (DeletePath r P).2 [] = nameAt r [] := by
  cases hfind : Find r [] P with
  | none => simp only [DeletePath, hfind]
  | some a =>
    cases a with
    | nil => simp only [DeletePath, hfind, Remove]
    | cons i p =>
      rw [DeletePath_eq r P i p hfind, nameAt_clearSlot, if_neg (by simp)]

theorem nameAt_root_RenamePath (r : CFSNode) (P1 P2 : WString) (h : tokens P1 ≠ []) :
    nameAt (RenamePath r P1 P2).2 [] = nameAt r [] := by
  unfold RenamePath
  cases hfind : Find r [] P1 with
  | none => rfl
  | some n =>
    cases hw : wcsrchr P2 '\\' with
    | none => rfl
    | some k =>
      dsimp only
      have hn : ([] : Addr) ≠ n := by
        rintro rfl
        rw [Find_eq] at hfind
        have := findFrom_length r _ [] [] hfind
        rw [tokens_eq] at h
        simp only [List.length_nil, Nat.zero_add] at this
        exact h (List.length_eq_zero.1 this.symm)
      rw [(obs_setName r n [] _).2.2, if_neg hn]

/-- C17, as stated, fails: `RenamePath` of the empty path, which resolves to
the root, to a backslash followed by `R` names the root `R`, and its full name
is `R`. -/
theorem C17_rename_root_counterexample :
    ReachableByPaths (fun _ _ _ => True) (RenamePath freshRoot [] ['\\', 'R']).2 ∧
      nameAt (RenamePath freshRoot [] ['\\', 'R']).2 [] = some ['R'] ∧
      GetFullName (RenamePath freshRoot [] ['\\', 'R']).2 [] = ['R'] :=
  ⟨ReachableByPaths.renamePath _ _ _ ReachableByPaths.fresh trivial, by decide, by decide⟩

/-- C17, amended: in every tree reachable from a fresh root by a finite
sequence of `AddPath`, `DeletePath` and those `RenamePath` calls whose old
path has at least one component, the root node still exists, its name is the
empty string and its `GetFullName()` is the empty string. -/
theorem C17_root_keeps_empty_name (r : CFSNode)
    (h : ReachableByPaths (fun _ P1 _ => tokens P1 ≠ []) r) :
    (deref r []).isSome ∧ nameAt r [] = some [] ∧ GetFullName r [] = [] := by
  have hn : nameAt r [] = some [] := by
    induction h with
    | fresh => rfl
    | addPath r P _ ih => rw [nameAt_root_AddPath]; exact ih
    | renamePath r P1 P2 _ hk ih => rw [nameAt_root_RenamePath r P1 P2 hk]; exact ih
    | deletePath r P _ ih => rw [nameAt_root_DeletePath]; exact ih
  exact ⟨rfl, hn, by rw [GetFullName_nil, hn]; rfl⟩

/-- C17, amended, on the tree after `AddPath` of `A\B`, `RenamePath` of `A\B`
to `A\X` and `DeletePath` of `A`. -/
theorem C17_root_keeps_empty_name_witness :
    (deref (DeletePath (RenamePath (AddPath freshRoot "A\\B".toList).2 "A\\B".toList
        "A\\X".toList).2 "A".toList).2 []).isSome ∧
      nameAt (DeletePath (RenamePath (AddPath freshRoot "A\\B".toList).2 "A\\B".toList
        "A\\X".toList).2 "A".toList).2 [] = some [] ∧
      GetFullName (DeletePath (RenamePath (AddPath freshRoot "A\\B".toList).2 "A\\B".toList
        "A\\X".toList).2 "A".toList).2 [] = [] :=
  C17_root_keeps_empty_name _
    (ReachableByPaths.deletePath _ _
      (ReachableByPaths.renamePath _ _ _
        (ReachableByPaths.addPath _ _ ReachableByPaths.fresh) (by decide)))

/-! ## `Expand`: unfolding the loop and the recursion -/

theorem ExpandLoop_cons_skip (f : CFSNode → Addr → Option CFSNode) (this : Addr)
    (e : WIN32_FIND_DATAW) (es : List WIN32_FIND_DATAW) (r : CFSNode)
    (hs : skipEntry e = true) :
    ExpandLoop f this (e :: es) r = ExpandLoop f this es r := by
  rw [ExpandLoop, if_pos hs]

theorem ExpandLoop_cons_found (f : CFSNode → Addr → Option CFSNode) (this : Addr)
    (e : WIN32_FIND_DATAW) (es : List WIN32_FIND_DATAW) (r : CFSNode) (pNode : Addr)
    (hs : skipEntry e = false) (hf : FindChild r this e.cFileName = some pNode) :
    ExpandLoop f this (e :: es) r = (f r pNode).bind (ExpandLoop f this es) := by
  rw [ExpandLoop, if_neg (by simp [hs]), hf]
  dsimp only
  cases f r pNode <;> rfl

theorem ExpandLoop_cons_new (f : CFSNode → Addr → Option CFSNode) (this : Addr)
    (e : WIN32_FIND_DATAW) (es : List WIN32_FIND_DATAW) (r : CFSNode)
    (hs : skipEntry e = false) (hf : FindChild r this e.cFileName = none) :
    ExpandLoop f this (e :: es) r =
      (f (createChild false r this e.cFileName) (numSlots r this :: this)).bind
        (ExpandLoop f this es) := by
  rw [ExpandLoop, if_neg (by simp [hs]), hf]
  dsimp only
  have hcc : update r this (CFSNode.push_back (CFSNode.new e.cFileName)) =
      createChild false r this e.cFileName := rfl
  rw [hcc]
  cases f (createChild false r this e.cFileName) (numSlots r this :: this) <;> rfl

theorem Expand_succ_expanded (oracle : Oracle) (d : Nat) (r : CFSNode) (this : Addr)
    (h : flagAt r this = some true) : Expand oracle (d + 1) r this = some r := by
  have hb : ((deref r this).map CFSNode.m_bExpand).getD false = true := by
    unfold flagAt at h; rw [h]; rfl
  rw [Expand, if_pos hb]

theorem Expand_succ_fail (oracle : Oracle) (d : Nat) (r : CFSNode) (this : Addr)
    (h : flagAt r this ≠ some true) (ho : oracle (GetFullName r this ++ ['\\', '*']) = none) :
    Expand oracle (d + 1) r this = some r := by
  have hb : ¬ ((deref r this).map CFSNode.m_bExpand).getD false = true := by
    unfold flagAt at h
    cases hd : (deref r this).map CFSNode.m_bExpand with
    | none => simp
    | some v => rw [hd] at h; cases v <;> simp_all
  rw [Expand, if_neg hb]
  dsimp only
  rw [ho]

theorem Expand_succ_ok (oracle : Oracle) (d : Nat) (r : CFSNode) (this : Addr)
    (L : List WIN32_FIND_DATAW) (h : flagAt r this ≠ some true)
    (ho : oracle (GetFullName r this ++ ['\\', '*']) = some L) :
    Expand oracle (d + 1) r this =
      (ExpandLoop (Expand oracle d) this L r).map
        (fun r1 => update r1 this (CFSNode.setExpand true)) := by
  have hb : ¬ ((deref r this).map CFSNode.m_bExpand).getD false = true := by
    unfold flagAt at h
    cases hd : (deref r this).map CFSNode.m_bExpand with
    | none => simp
    | some v => rw [hd] at h; cases v <;> simp_all
  rw [Expand, if_neg hb]
  dsimp only
  rw [ho]
  dsimp only
  cases ExpandLoop (Expand oracle d) this L r <;> rfl

/-! ## `Expand`: the frame -/

theorem ExpandFrame_refl (r : CFSNode) (a : Addr) : ExpandFrame r a r :=
  ⟨fun _ _ => rfl, rfl⟩

theorem ExpandFrame_trans {r1 r2 r3 : CFSNode} {a : Addr} (h12 : ExpandFrame r1 a r2)
    (h23 : ExpandFrame r2 a r3) : ExpandFrame r1 a r3 :=
  ⟨fun b hb => (h23.1 b hb).trans (h12.1 b hb), h23.2.trans h12.2⟩

theorem ExpandFrame_of_child {r r' : CFSNode} {a : Addr} {i : Nat}
    (h : ExpandFrame r (i :: a) r') : ExpandFrame r a r' := by
  constructor
  · intro b hb
    exact h.1 b (fun h' => hb ((List.suffix_cons i a).trans h'))
  · exact ((own_iff_obs _ _ _).1 (h.1 a (not_cons_suffix i a))).1

theorem ExpandFrame_createChild (r : CFSNode) (a : Addr) (c : WString)
    (ha : (deref r a).isSome) : ExpandFrame r a (createChild false r a c) := by
  constructor
  · intro b hb
    exact deref_update_off r a _ b hb
  · rw [(obs_createChild false r a a c ha).1, if_neg]
    intro h; have := congrArg List.length h; simp at this

theorem ExpandFrame_setExpand (r : CFSNode) (a : Addr) (v : Bool) :
    ExpandFrame r a (update r a (CFSNode.setExpand v)) := by
  constructor
  · intro b hb
    exact deref_update_off r a _ b hb
  · exact (obs_setExpand r a a v).1

theorem ExpandLoop_frame (f : CFSNode → Addr → Option CFSNode)
    (hf : ∀ r pNode r', (deref r pNode).isSome → f r pNode = some r' →
      Keeps r r' ∧ ExpandFrame r pNode r')
    (this : Addr) :
    ∀ (entries : List WIN32_FIND_DATAW) (r r' : CFSNode), (deref r this).isSome →
      ExpandLoop f this entries r = some r' → Keeps r r' ∧ ExpandFrame r this r' := by
  intro entries
  induction entries with
  | nil =>
    intro r r' _ h
    simp only [ExpandLoop, Option.some.injEq] at h
    subst h; exact ⟨Keeps_refl r, ExpandFrame_refl r this⟩
  | cons e es ih =>
    intro r r' hthis h
    by_cases hs : skipEntry e = true
    · rw [ExpandLoop_cons_skip f this e es r hs] at h
      exact ih r r' hthis h
    · have hs' : skipEntry e = false := by simpa using hs
      cases hfc : FindChild r this e.cFileName with
      | some pNode =>
        rw [ExpandLoop_cons_found f this e es r pNode hs' hfc] at h
        cases hx : f r pNode with
        | none => rw [hx] at h; cases h
        | some r1 =>
          rw [hx] at h
          obtain ⟨i, rfl⟩ := suffix_of_FindChild hfc
          have k1 := hf r _ r1 (isSome_of_nameAt (nameAt_of_FindChild hfc)) hx
          have k2 := ih r1 r' (k1.1.2 this hthis) h
          exact ⟨Keeps_trans k1.1 k2.1, ExpandFrame_trans (ExpandFrame_of_child k1.2) k2.2⟩
      | none =>
        rw [ExpandLoop_cons_new f this e es r hs' hfc] at h
        have k0 := Keeps_createChild false r this e.cFileName hthis hfc
        have f0 := ExpandFrame_createChild r this e.cFileName hthis
        have hnew : (deref (createChild false r this e.cFileName)
            (numSlots r this :: this)).isSome := by
          apply isSome_of_nameAt (x := e.cFileName)
          rw [(obs_createChild false r this _ e.cFileName hthis).1, if_pos rfl]
        cases hx : f (createChild false r this e.cFileName) (numSlots r this :: this) with
        | none => rw [hx] at h; cases h
        | some r1 =>
          rw [hx] at h
          have k1 := hf _ _ r1 hnew hx
          have k01 := Keeps_trans k0 k1.1
          have k2 := ih r1 r' (k01.2 this hthis) h
          exact ⟨Keeps_trans k01 k2.1,
            ExpandFrame_trans (ExpandFrame_trans f0 (ExpandFrame_of_child k1.2)) k2.2⟩

theorem Expand_frame (oracle : Oracle) :
    ∀ (depth : Nat) (r : CFSNode) (this : Addr) (r' : CFSNode), (deref r this).isSome →
      Expand oracle depth r this = some r' → Keeps r r' ∧ ExpandFrame r this r' := by
  intro depth
  induction depth with
  | zero => intro r this r' _ h; simp [Expand] at h
  | succ n ih =>
    intro r this r' hthis h
    by_cases he : flagAt r this = some true
    · rw [Expand_succ_expanded oracle n r this he] at h
      cases h; exact ⟨Keeps_refl r, ExpandFrame_refl r this⟩
    · cases ho : oracle (GetFullName r this ++ ['\\', '*']) with
      | none =>
        rw [Expand_succ_fail oracle n r this he ho] at h
        cases h; exact ⟨Keeps_refl r, ExpandFrame_refl r this⟩
      | some entries =>
        rw [Expand_succ_ok oracle n r this entries he ho] at h
        cases hl : ExpandLoop (Expand oracle n) this entries r with
        | none => rw [hl] at h; cases h
        | some r1 =>
          rw [hl] at h
          cases h
          have k := ExpandLoop_frame (Expand oracle n) ih this entries r r1 hthis hl
          exact ⟨Keeps_trans k.1 (Keeps_setExpand r1 this true),
            ExpandFrame_trans k.2 (ExpandFrame_setExpand r1 this true)⟩

/-- C13: `Expand()` leaves the whole tree unchanged in both no-op cases: when
the node already has `m_bExpand = TRUE`, whatever the enumeration would give,
and when the node is collapsed but its enumeration cannot start; and after an
`Expand()` whose enumeration started the node is expanded, so a second
`Expand()` changes nothing. -/
theorem C13_Expand_no_op (r : CFSNode) (this : Addr) :
    (flagAt r this = some true →
        ∀ (oracle : Oracle) (depth : Nat), Expand oracle (depth + 1) r this = some r) ∧
      (∀ (oracle : Oracle) (depth : Nat), flagAt r this = some false →
        oracle (GetFullName r this ++ ['\\', '*']) = none →
        Expand oracle (depth + 1) r this = some r) ∧
      (∀ (oracle : Oracle) (depth : Nat) (r' : CFSNode), (deref r this).isSome →
        oracle (GetFullName r this ++ ['\\', '*']) ≠ none →
        Expand oracle depth r this = some r' →
        flagAt r' this = some true ∧
          ∀ (oracle' : Oracle) (depth' : Nat), Expand oracle' (depth' + 1) r' this = some r') := by
  refine ⟨fun h oracle depth => Expand_succ_expanded oracle depth r this h,
    fun oracle depth h ho => Expand_succ_fail oracle depth r this (by rw [h]; simp) ho, ?_⟩
  intro oracle depth r' hthis ho h
  have hflag : flagAt r' this = some true := by
    cases depth with
    | zero => simp [Expand] at h
    | succ n =>
      by_cases he : flagAt r this = some true
      · rw [Expand_succ_expanded oracle n r this he] at h
        cases h; exact he
      · cases hor : oracle (GetFullName r this ++ ['\\', '*']) with
        | none => exact absurd hor ho
        | some entries =>
          rw [Expand_succ_ok oracle n r this entries he hor] at h
          cases hl : ExpandLoop (Expand oracle n) this entries r with
          | none => rw [hl] at h; cases h
          | some r1 =>
            rw [hl] at h
            cases h
            have k := ExpandLoop_frame (Expand oracle n) (Expand_frame oracle n) this entries
              r r1 hthis hl
            have hl1 := k.1.2 this hthis
            rw [(obs_setExpand r1 this this true).2.2, if_pos rfl, flagAt]
            cases hd : deref r1 this with
            | none => simp [hd] at hl1
            | some m => rfl
  exact ⟨hflag, fun oracle' depth' => Expand_succ_expanded oracle' depth' r' this hflag⟩

/-! ## `Expand` returns on a finite directory tree -/

theorem GetFullName_child (r : CFSNode) (i : Nat) (p : Addr) (c : WString)
    (h : nameAt r (i :: p) = some c) :
    GetFullName r (i :: p) = childPath (GetFullName r p) c := by
  rw [GetFullName_cons, h]; rfl

theorem GetFullName_congr (r r' : CFSNode) :
    ∀ a : Addr, (∀ b, b <:+ a → nameAt r' b = nameAt r b) →
      GetFullName r' a = GetFullName r a := by
  intro a
  induction a with
  | nil => intro h; rw [GetFullName_nil, GetFullName_nil, h [] (List.suffix_refl _)]
  | cons i p ih =>
    intro h
    rw [GetFullName_cons, GetFullName_cons, h _ (List.suffix_refl _),
      ih (fun b hb => h b (hb.trans (List.suffix_cons i p)))]

theorem ExpandFrame_suffix_names {r r' : CFSNode} {a : Addr} (h : ExpandFrame r a r') :
    ∀ b, b <:+ a → nameAt r' b = nameAt r b := by
  intro b hb
  by_cases hab : a <:+ b
  · have : b = a := List.IsSuffix.eq_of_length_le hb hab.length_le
    rw [this]; exact h.2
  · exact ((own_iff_obs _ _ _).1 (h.1 b hab)).1

theorem ExpandFrame_GetFullName {r r' : CFSNode} {a : Addr} (h : ExpandFrame r a r') :
    GetFullName r' a = GetFullName r a :=
  GetFullName_congr r r' a (ExpandFrame_suffix_names h)

theorem FiniteBelow_pos {oracle : Oracle} {d : Nat} {s : WString}
    (h : FiniteBelow oracle d s) : ∃ n, d = n + 1 := by
  cases h with
  | fail n _ _ => exact ⟨n, rfl⟩
  | ok n _ _ _ _ => exact ⟨n, rfl⟩

theorem ExpandLoop_returns (f : CFSNode → Addr → Option CFSNode) (Fin : WString → Prop)
    (hframe : ∀ r pNode r', (deref r pNode).isSome → f r pNode = some r' →
      Keeps r r' ∧ ExpandFrame r pNode r')
    (hret : ∀ r pNode, (deref r pNode).isSome → Fin (GetFullName r pNode) →
      ∃ r', f r pNode = some r')
    (this : Addr) (s : WString) :
    ∀ (entries : List WIN32_FIND_DATAW) (r : CFSNode), (deref r this).isSome →
      GetFullName r this = s →
      (∀ e, e ∈ entries → skipEntry e = false → Fin (childPath s e.cFileName)) →
      ∃ r', ExpandLoop f this entries r = some r' := by
  intro entries
  induction entries with
  | nil => intro r _ _ _; exact ⟨r, rfl⟩
  | cons e es ih =>
    intro r hthis hs hfin
    have hfin' : ∀ e', e' ∈ es → skipEntry e' = false → Fin (childPath s e'.cFileName) :=
      fun e' he' => hfin e' (List.mem_cons_of_mem e he')
    by_cases hsk : skipEntry e = true
    · rw [ExpandLoop_cons_skip f this e es r hsk]
      exact ih r hthis hs hfin'
    · have hsk' : skipEntry e = false := by simpa using hsk
      have hfe := hfin e (List.mem_cons_self e es) hsk'
      cases hfc : FindChild r this e.cFileName with
      | some pNode =>
        rw [ExpandLoop_cons_found f this e es r pNode hsk' hfc]
        obtain ⟨i, rfl⟩ := suffix_of_FindChild hfc
        have hnm := nameAt_of_FindChild hfc
        have hlive := isSome_of_nameAt hnm
        have hfull : GetFullName r (i :: this) = childPath s e.cFileName := by
          rw [GetFullName_child r i this _ hnm, hs]
        obtain ⟨r1, hr1⟩ := hret r (i :: this) hlive (hfull ▸ hfe)
        rw [hr1, Option.some_bind]
        have k := hframe r (i :: this) r1 hlive hr1
        exact ih r1 (k.1.2 this hthis)
          ((ExpandFrame_GetFullName (ExpandFrame_of_child k.2)).trans hs) hfin'
      | none =>
        rw [ExpandLoop_cons_new f this e es r hsk' hfc]
        have hnm : nameAt (createChild false r this e.cFileName) (numSlots r this :: this) =
            some e.cFileName := by
          rw [(obs_createChild false r this _ e.cFileName hthis).1, if_pos rfl]
        have hlive := isSome_of_nameAt hnm
        have f0 := ExpandFrame_createChild r this e.cFileName hthis
        have k0 := Keeps_createChild false r this e.cFileName hthis hfc
        have hs0 : GetFullName (createChild false r this e.cFileName) this = s :=
          (ExpandFrame_GetFullName f0).trans hs
        have hfull : GetFullName (createChild false r this e.cFileName)
            (numSlots r this :: this) = childPath s e.cFileName := by
          rw [GetFullName_child _ _ this _ hnm, hs0]
        obtain ⟨r1, hr1⟩ := hret _ _ hlive (hfull ▸ hfe)
        rw [hr1, Option.some_bind]
        have k := hframe _ _ r1 hlive hr1
        exact ih r1 (k.1.2 this (k0.2 this hthis))
          ((ExpandFrame_GetFullName (ExpandFrame_of_child k.2)).trans hs0) hfin'

/-- On a directory tree without a chain of `d` levels below the node, `Expand`
returns within the depth `d`. -/
theorem Expand_returns (oracle : Oracle) :
    ∀ (d : Nat) (r : CFSNode) (this : Addr), (deref r this).isSome →
      FiniteBelow oracle d (GetFullName r this) → ∃ r', Expand oracle d r this = some r' := by
  intro d
  induction d with
  | zero => intro r this _ h; obtain ⟨n, hn⟩ := FiniteBelow_pos h; cases hn
  | succ n ih =>
    intro r this hthis hfin
    by_cases he : flagAt r this = some true
    · exact ⟨r, Expand_succ_expanded oracle n r this he⟩
    · cases hfin with
      | fail _ _ ho => exact ⟨r, Expand_succ_fail oracle n r this he ho⟩
      | ok _ _ L ho hch =>
        rw [Expand_succ_ok oracle n r this L he ho]
        obtain ⟨r1, hr1⟩ := ExpandLoop_returns (Expand oracle n) (FiniteBelow oracle n)
          (Expand_frame oracle n) ih this (GetFullName r this) L r hthis rfl hch
        exact ⟨_, by rw [hr1]; rfl⟩

/-! ## `Expand`: the children it adds -/

theorem skipEntry_eq (e : WIN32_FIND_DATAW) : skipEntry e = !isPlainSubdirectory e := by
  unfold skipEntry isPlainSubdirectory
  by_cases h1 : e.cFileName = ['.'] <;> by_cases h2 : e.cFileName = ['.', '.'] <;>
    by_cases h3 : (e.dwFileAttributes &&& FILE_ATTRIBUTE_DIRECTORY) = 0 <;>
    by_cases h4 : (e.dwFileAttributes &&& FILE_ATTRIBUTE_REPARSE_POINT) = 0 <;>
    simp [h1, h2, h3, h4]

theorem firstOccurrences_filter (p : WString → Bool) (l : List WString) :
    firstOccurrences (l.filter p) = (firstOccurrences l).filter p := by
  induction l with
  | nil => rfl
  | cons x xs ih =>
    by_cases hp : p x = true
    · rw [List.filter_cons_of_pos hp, firstOccurrences, firstOccurrences,
        List.filter_cons_of_pos hp, ih, List.filter_filter, List.filter_filter]
      congr 1
      apply List.filter_congr
      intro y _
      exact Bool.and_comm _ _
    · rw [List.filter_cons_of_neg hp, firstOccurrences, List.filter_cons_of_neg hp, ih,
        List.filter_filter]
      apply List.filter_congr
      intro y _
      by_cases hy : y = x
      · subst hy; simp [hp]
      · simp [hy]

theorem firstOccurrences_mem (l : List WString) (c : WString) :
    c ∈ firstOccurrences l ↔ c ∈ l := by
  induction l with
  | nil => simp [firstOccurrences]
  | cons x xs ih =>
    rw [firstOccurrences, List.mem_cons, List.mem_cons, List.mem_filter, ih]
    by_cases h : c = x
    · simp [h]
    · simp [h]

theorem firstOccurrences_nodup (l : List WString) : (firstOccurrences l).Nodup := by
  induction l with
  | nil => exact List.nodup_nil
  | cons x xs ih =>
    rw [firstOccurrences, List.nodup_cons]
    exact ⟨by simp [List.mem_filter], ih.filter _⟩

theorem firstOccurrences_sublist (l : List WString) : List.Sublist (firstOccurrences l) l := by
  induction l with
  | nil => exact List.Sublist.refl _
  | cons x xs ih =>
    rw [firstOccurrences]
    exact ((List.filter_sublist _).trans ih).cons₂ x

theorem loopNames_eq_spec (L : List WIN32_FIND_DATAW) :
    ∀ cur : List WString, loopNames cur L = specNewChildren cur L := by
  induction L with
  | nil => intro cur; rfl
  | cons e es ih =>
    intro cur
    unfold specNewChildren at ih ⊢
    by_cases hs : skipEntry e = true
    · have hp : ¬ isPlainSubdirectory e = true := by
        rw [skipEntry_eq] at hs; simpa using hs
      rw [loopNames, if_pos hs, ih, List.filter_cons_of_neg hp]
    · have hp : isPlainSubdirectory e = true := by
        rw [skipEntry_eq] at hs; simpa using hs
      rw [loopNames, if_neg hs, List.filter_cons_of_pos hp, List.map_cons]
      by_cases hc : e.cFileName ∈ cur
      · rw [if_pos hc, ih, List.filter_cons_of_neg (by simpa using hc)]
      · rw [if_neg hc, ih, List.filter_cons_of_pos (by simpa using hc), firstOccurrences,
          ← firstOccurrences_filter, List.filter_filter]
        congr 2
        apply List.filter_congr
        intro y _
        by_cases hy : y = e.cFileName
        · subst hy; simp
        · simp [hy]

theorem getElem?_slotNames (r : CFSNode) (a : Addr) (j : Nat) :
    (slotNames r a)[j]? =
      if j < numSlots r a then some (nameAt r (j :: a)) else none := by
  unfold slotNames numSlots
  rw [nameAt_cons]
  cases hd : deref r a with
  | none => simp
  | some n =>
    simp only [Option.map_some', Option.getD_some, List.getElem?_map, Option.some_bind,
      CFSNode.child]
    by_cases hj : j < n.m_children.length
    · rw [if_pos hj, List.getElem?_eq_getElem hj]
      simp
    · rw [if_neg hj, List.getElem?_eq_none (by omega)]
      rfl

theorem slotNames_congr (r r' : CFSNode) (a : Addr) (hs : slotsAt r' a = slotsAt r a)
    (hn : ∀ j, nameAt r' (j :: a) = nameAt r (j :: a)) : slotNames r' a = slotNames r a := by
  apply List.ext_getElem?
  intro j
  have e : numSlots r' a = numSlots r a := by
    show (slotsAt r' a).getD 0 = (slotsAt r a).getD 0
    rw [hs]
  rw [getElem?_slotNames, getElem?_slotNames, e, hn]

theorem slotNames_of_child_frame {r r' : CFSNode} {a : Addr} {i : Nat}
    (h : ExpandFrame r (i :: a) r') : slotNames r' a = slotNames r a := by
  apply slotNames_congr
  · exact ((own_iff_obs _ _ _).1 (h.1 a (not_cons_suffix i a))).2.2
  · intro j
    by_cases hj : j = i
    · subst hj; exact h.2
    · apply ((own_iff_obs _ _ _).1 (h.1 (j :: a) _)).1
      intro hsuf
      have := List.IsSuffix.eq_of_length_le hsuf (by simp)
      exact hj (List.cons.inj this).1.symm

theorem slotNames_createChild (r : CFSNode) (a : Addr) (c : WString)
    (ha : (deref r a).isSome) :
    slotNames (createChild false r a c) a = slotNames r a ++ [some c] := by
  have hcc : createChild false r a c = update r a (CFSNode.push_back (CFSNode.new c)) := rfl
  rw [hcc]
  unfold slotNames
  rw [deref_update_self]
  cases hd : deref r a with
  | none => simp [hd] at ha
  | some n =>
    cases n
    simp [CFSNode.push_back, CFSNode.m_children, CFSNode.new, CFSNode.m_strName]

theorem slotNames_setExpand (r : CFSNode) (a : Addr) (v : Bool) :
    slotNames (update r a (CFSNode.setExpand v)) a = slotNames r a :=
  slotNames_congr _ _ a (obs_setExpand r a a v).2.1 (fun j => (obs_setExpand r a (j :: a) v).1)

theorem mem_liveNames (r : CFSNode) (a : Addr) (c : WString) :
    c ∈ liveNames r a ↔ ∃ j, nameAt r (j :: a) = some c := by
  unfold liveNames
  rw [List.reduceOption_mem_iff, List.mem_iff_getElem?]
  constructor
  · rintro ⟨j, hj⟩
    rw [getElem?_slotNames] at hj
    by_cases h : j < numSlots r a
    · rw [if_pos h] at hj; exact ⟨j, (Option.some.inj hj)⟩
    · rw [if_neg h] at hj; cases hj
  · rintro ⟨j, hj⟩
    refine ⟨j, ?_⟩
    rw [getElem?_slotNames, if_pos (lt_numSlots_of_isSome r j a (isSome_of_nameAt hj)), hj]

theorem ExpandLoop_slotNames (f : CFSNode → Addr → Option CFSNode)
    (hframe : ∀ r pNode r', (deref r pNode).isSome → f r pNode = some r' →
      Keeps r r' ∧ ExpandFrame r pNode r')
    (this : Addr) :
    ∀ (entries : List WIN32_FIND_DATAW) (r r' : CFSNode), (deref r this).isSome →
      ExpandLoop f this entries r = some r' →
      slotNames r' this =
        slotNames r this ++ (loopNames (liveNames r this) entries).map some := by
  intro entries
  induction entries with
  | nil =>
    intro r r' _ h
    simp only [ExpandLoop, Option.some.injEq] at h
    subst h; simp [loopNames]
  | cons e es ih =>
    intro r r' hthis h
    by_cases hs : skipEntry e = true
    · rw [ExpandLoop_cons_skip f this e es r hs] at h
      rw [loopNames, if_pos hs]
      exact ih r r' hthis h
    · have hs' : skipEntry e = false := by simpa using hs
      rw [loopNames, if_neg hs]
      cases hfc : FindChild r this e.cFileName with
      | some pNode =>
        rw [ExpandLoop_cons_found f this e es r pNode hs' hfc] at h
        obtain ⟨i, rfl⟩ := suffix_of_FindChild hfc
        have hnm := nameAt_of_FindChild hfc
        have hmem : e.cFileName ∈ liveNames r this := (mem_liveNames r this _).2 ⟨i, hnm⟩
        rw [if_pos hmem]
        cases hx : f r (i :: this) with
        | none => rw [hx] at h; cases h
        | some r1 =>
          rw [hx, Option.some_bind] at h
          have k := hframe r _ r1 (isSome_of_nameAt hnm) hx
          have hsn := slotNames_of_child_frame k.2
          have := ih r1 r' (k.1.2 this hthis) h
          rw [this, liveNames, hsn]; rfl
      | none =>
        rw [ExpandLoop_cons_new f this e es r hs' hfc] at h
        have hmem : e.cFileName ∉ liveNames r this := by
          rw [mem_liveNames]
          rintro ⟨j, hj⟩
          exact (FindChild_eq_none_iff r this _).1 hfc j hj
        rw [if_neg hmem]
        have hnew : (deref (createChild false r this e.cFileName)
            (numSlots r this :: this)).isSome := by
          apply isSome_of_nameAt (x := e.cFileName)
          rw [(obs_createChild false r this _ e.cFileName hthis).1, if_pos rfl]
        have k0 := Keeps_createChild false r this e.cFileName hthis hfc
        cases hx : f (createChild false r this e.cFileName) (numSlots r this :: this) with
        | none => rw [hx] at h; cases h
        | some r1 =>
          rw [hx, Option.some_bind] at h
          have k := hframe _ _ r1 hnew hx
          have hsn : slotNames r1 this = slotNames r this ++ [some e.cFileName] :=
            (slotNames_of_child_frame k.2).trans (slotNames_createChild r this _ hthis)
          have := ih r1 r' (k.1.2 this (k0.2 this hthis)) h
          rw [this, liveNames, hsn, List.reduceOption_append]
          simp [liveNames, List.reduceOption]

/-- C11: for a collapsed node whose enumeration succeeds with the listing `L`,
`Expand()` returns when the directory tree below the node is finite, and after
it the child list of the node is its previous child list followed by the
names of those entries of `L` that are directories, are not reparse points,
are not `.` or `..` and did not already name a child, in listing order and
without repetition. -/
theorem C11_Expand_adds_listed_subdirectories (oracle : Oracle) (depth : Nat) (r : CFSNode)
    (this : Addr) (L : List WIN32_FIND_DATAW) (hlive : (deref r this).isSome)
    (hflag : flagAt r this = some false)
    (ho : oracle (GetFullName r this ++ ['\\', '*']) = some L) :
    (FiniteBelow oracle depth (GetFullName r this) →
        ∃ r', Expand oracle depth r this = some r') ∧
      (∀ r', Expand oracle depth r this = some r' →
        slotNames r' this =
          slotNames r this ++ (specNewChildren (liveNames r this) L).map some) ∧
      (specNewChildren (liveNames r this) L).Nodup ∧
      List.Sublist (specNewChildren (liveNames r this) L) (L.map WIN32_FIND_DATAW.cFileName) ∧
      (∀ c, c ∈ specNewChildren (liveNames r this) L ↔
        (∃ e, e ∈ L ∧ isPlainSubdirectory e = true ∧ e.cFileName = c) ∧
          c ∉ liveNames r this) := by
  refine ⟨Expand_returns oracle depth r this hlive, ?_, firstOccurrences_nodup _, ?_, ?_⟩
  · intro r' h
    cases depth with
    | zero => simp [Expand] at h
    | succ n =>
      rw [Expand_succ_ok oracle n r this L (by rw [hflag]; simp) ho] at h
      cases hl : ExpandLoop (Expand oracle n) this L r with
      | none => rw [hl] at h; cases h
      | some r1 =>
        rw [hl] at h
        cases h
        rw [slotNames_setExpand, ExpandLoop_slotNames (Expand oracle n) (Expand_frame oracle n)
          this L r r1 hlive hl, loopNames_eq_spec]
  · unfold specNewChildren
    exact (firstOccurrences_sublist _).trans
      ((List.filter_sublist _).trans ((List.filter_sublist L).map _))
  · intro c
    unfold specNewChildren
    rw [firstOccurrences_mem, List.mem_filter, List.mem_map]
    constructor
    · rintro ⟨⟨e, he, rfl⟩, hc⟩
      rw [List.mem_filter] at he
      exact ⟨⟨e, he.1, he.2, rfl⟩, by simpa using hc⟩
    · rintro ⟨⟨e, he, hp, rfl⟩, hc⟩
      exact ⟨⟨e, List.mem_filter.2 ⟨he, hp⟩, rfl⟩, by simpa using hc⟩

/-- C11 at the example of the specification: the childless node `A`, given a
regular file, a reparse-point directory and two plain subdirectories, gets
exactly the two plain subdirectories as children. -/
theorem C11_Expand_adds_listed_subdirectories_witness :
    ((FiniteBelow exampleListing 2 (GetFullName (AddPath freshRoot ['A']).2 [0]) →
        ∃ r', Expand exampleListing 2 (AddPath freshRoot ['A']).2 [0] = some r') ∧
      (∀ r', Expand exampleListing 2 (AddPath freshRoot ['A']).2 [0] = some r' →
        slotNames r' [0] =
          slotNames (AddPath freshRoot ['A']).2 [0] ++
            (specNewChildren (liveNames (AddPath freshRoot ['A']).2 [0]) exampleEntries).map
              some) ∧
      (specNewChildren (liveNames (AddPath freshRoot ['A']).2 [0]) exampleEntries).Nodup ∧
      List.Sublist (specNewChildren (liveNames (AddPath freshRoot ['A']).2 [0]) exampleEntries)
        (exampleEntries.map WIN32_FIND_DATAW.cFileName) ∧
      (∀ c, c ∈ specNewChildren (liveNames (AddPath freshRoot ['A']).2 [0]) exampleEntries ↔
        (∃ e, e ∈ exampleEntries ∧ isPlainSubdirectory e = true ∧ e.cFileName = c) ∧
          c ∉ liveNames (AddPath freshRoot ['A']).2 [0])) ∧
      slotNames (AddPath freshRoot ['A']).2 [0] = [] ∧
      (Expand exampleListing 2 (AddPath freshRoot ['A']).2 [0]).map
        (fun r' => slotNames r' [0]) = some [some "one".toList, some "two".toList] :=
  ⟨C11_Expand_adds_listed_subdirectories exampleListing 2 (AddPath freshRoot ['A']).2 [0]
      exampleEntries rfl (by decide) rfl,
    by decide, by decide⟩

/-! ## `Expand` is eagerly deep -/

theorem HasChain_congr (r r' : CFSNode) (chain : List WString) :
    ∀ a : Addr, (∀ x, nameAt r' (x ++ a) = nameAt r (x ++ a)) →
      (HasChain r' a chain ↔ HasChain r a chain) := by
  induction chain with
  | nil =>
    intro a h
    have := h []
    simp only [List.nil_append] at this
    simp only [HasChain]
    rw [← isSome_nameAt, ← isSome_nameAt, this]
  | cons c rest ih =>
    intro a h
    simp only [HasChain]
    have hsub : ∀ i x, nameAt r' (x ++ i :: a) = nameAt r (x ++ i :: a) := by
      intro i x
      have := h (x ++ [i])
      simpa using this
    constructor
    · rintro ⟨i, h1, h2⟩
      have e := hsub i []
      simp only [List.nil_append] at e
      exact ⟨i, e ▸ h1, (ih (i :: a) (hsub i)).1 h2⟩
    · rintro ⟨i, h1, h2⟩
      have e := hsub i []
      simp only [List.nil_append] at e
      exact ⟨i, e.symm ▸ h1, (ih (i :: a) (hsub i)).2 h2⟩

theorem DeepExpanded_congr (oracle : Oracle) (r r' : CFSNode) (a : Addr) (s : WString)
    (h : ∀ x, nameAt r' (x ++ a) = nameAt r (x ++ a) ∧ flagAt r' (x ++ a) = flagAt r (x ++ a))
    (hd : DeepExpanded oracle r a s) : DeepExpanded oracle r' a s := by
  constructor
  · intro x hx
    rw [(h x).2]
    apply hd.1 x
    rw [← isSome_nameAt, ← (h x).1, isSome_nameAt]
    exact hx
  · intro chain
    rw [HasChain_congr r r' chain a (fun x => (h x).1)]
    exact hd.2 chain

theorem not_suffix_sibling (a x : Addr) (j k : Nat) (hjk : j ≠ k) :
    ¬ (k :: a) <:+ (x ++ j :: a) := by
  intro h
  have := suffix_eq_of_length_eq h ⟨x, rfl⟩ (by simp)
  exact hjk (List.cons.inj this).1.symm

theorem FiniteOk_pos {oracle : Oracle} {d : Nat} {s : WString}
    (h : FiniteOk oracle d s) : ∃ n, d = n + 1 := by
  cases h with
  | mk n _ _ _ _ => exact ⟨n, rfl⟩

theorem FiniteOk_FiniteBelow (oracle : Oracle) :
    ∀ (d : Nat) (s : WString), FiniteOk oracle d s → FiniteBelow oracle d s := by
  intro d
  induction d with
  | zero => intro s h; obtain ⟨n, hn⟩ := FiniteOk_pos h; cases hn
  | succ n ih =>
    intro s h
    cases h with
    | mk _ _ L ho hch =>
      exact FiniteBelow.ok n s L ho (fun e he hs => ih _ (hch e he hs))

/-- After a child was created in the slot `numSlots r this` and expanded, the
subtrees of the other children read as before. -/
theorem sibling_same (r r1 : CFSNode) (this : Addr) (c : WString)
    (hthis : (deref r this).isSome)
    (hfr : ExpandFrame (createChild false r this c) (numSlots r this :: this) r1)
    (j : Nat) (hj : j ≠ numSlots r this) (x : Addr) :
    nameAt r1 (x ++ j :: this) = nameAt r (x ++ j :: this) ∧
      flagAt r1 (x ++ j :: this) = flagAt r (x ++ j :: this) := by
  have h1 := (own_iff_obs _ _ _).1
    (hfr.1 (x ++ j :: this) (not_suffix_sibling this x j _ hj))
  have hne : x ++ j :: this ≠ numSlots r this :: this := by
    intro h
    exact not_suffix_sibling this x j _ hj (h ▸ List.suffix_refl _)
  have h2 := obs_createChild false r this (x ++ j :: this) c hthis
  rw [if_neg hne] at h2
  rw [if_neg hne, if_neg (by simp)] at h2
  exact ⟨h1.1.trans h2.1, h1.2.1.trans h2.2⟩

theorem ExpandLoop_deep (oracle : Oracle) (n : Nat)
    (hB : ∀ r a r', (deref r a).isSome → flagAt r a = some false →
      (∀ j, nameAt r (j :: a) = none) → FiniteOk oracle n (GetFullName r a) →
      Expand oracle n r a = some r' → DeepExpanded oracle r' a (GetFullName r a))
    (this : Addr) (s : WString) :
    ∀ (entries done : List WIN32_FIND_DATAW) (r r' : CFSNode), (deref r this).isSome →
      GetFullName r this = s →
      (∀ e, e ∈ entries → skipEntry e = false → FiniteOk oracle n (childPath s e.cFileName)) →
      (∀ j c, nameAt r (j :: this) = some c →
        (∃ e, e ∈ done ∧ skipEntry e = false ∧ e.cFileName = c) ∧
          DeepExpanded oracle r (j :: this) (childPath s c)) →
      (∀ e, e ∈ done → skipEntry e = false → ∃ j, nameAt r (j :: this) = some e.cFileName) →
      ExpandLoop (Expand oracle n) this entries r = some r' →
      (deref r' this).isSome ∧ GetFullName r' this = s ∧
        (∀ j c, nameAt r' (j :: this) = some c →
          (∃ e, e ∈ done ++ entries ∧ skipEntry e = false ∧ e.cFileName = c) ∧
            DeepExpanded oracle r' (j :: this) (childPath s c)) ∧
        (∀ e, e ∈ done ++ entries → skipEntry e = false →
          ∃ j, nameAt r' (j :: this) = some e.cFileName) := by
  intro entries
  induction entries with
  | nil =>
    intro done r r' hthis hs _ h2 h3 h
    simp only [ExpandLoop, Option.some.injEq] at h
    subst h
    simp only [List.append_nil]
    exact ⟨hthis, hs, h2, h3⟩
  | cons e es ih =>
    intro done r r' hthis hs hfin h2 h3 h
    have hfin' : ∀ e', e' ∈ es → skipEntry e' = false →
        FiniteOk oracle n (childPath s e'.cFileName) :=
      fun e' he' => hfin e' (List.mem_cons_of_mem e he')
    have happ : done ++ e :: es = (done ++ [e]) ++ es := by simp
    rw [happ]
    by_cases hsk : skipEntry e = true
    · rw [ExpandLoop_cons_skip _ this e es r hsk] at h
      apply ih (done ++ [e]) r r' hthis hs hfin' _ _ h
      · intro j c hjc
        obtain ⟨⟨e', he', hs', hc'⟩, hd⟩ := h2 j c hjc
        exact ⟨⟨e', List.mem_append_left _ he', hs', hc'⟩, hd⟩
      · intro e' he' hs'
        rcases List.mem_append.1 he' with hm | hm
        · exact h3 e' hm hs'
        · rw [List.mem_singleton] at hm
          subst hm; rw [hsk] at hs'; cases hs'
    · have hsk' : skipEntry e = false := by simpa using hsk
      have hfe := hfin e (List.mem_cons_self e es) hsk'
      obtain ⟨m, rfl⟩ := FiniteOk_pos hfe
      cases hfc : FindChild r this e.cFileName with
      | some pNode =>
        rw [ExpandLoop_cons_found _ this e es r pNode hsk' hfc] at h
        obtain ⟨i, rfl⟩ := suffix_of_FindChild hfc
        have hnm := nameAt_of_FindChild hfc
        have hflag : flagAt r (i :: this) = some true := by
          have := (h2 i _ hnm).2.1 [] (isSome_of_nameAt hnm)
          simpa using this
        rw [Expand_succ_expanded oracle m r (i :: this) hflag, Option.some_bind] at h
        apply ih (done ++ [e]) r r' hthis hs hfin' _ _ h
        · intro j c hjc
          obtain ⟨⟨e', he', hs', hc'⟩, hd⟩ := h2 j c hjc
          exact ⟨⟨e', List.mem_append_left _ he', hs', hc'⟩, hd⟩
        · intro e' he' hs'
          rcases List.mem_append.1 he' with hm | hm
          · exact h3 e' hm hs'
          · rw [List.mem_singleton] at hm
            subst hm; exact ⟨i, hnm⟩
      | none =>
        rw [ExpandLoop_cons_new _ this e es r hsk' hfc] at h
        have hobs := obs_createChild false r this
        have hnm : nameAt (createChild false r this e.cFileName) (numSlots r this :: this) =
            some e.cFileName := by
          rw [(hobs _ e.cFileName hthis).1, if_pos rfl]
        have hlive := isSome_of_nameAt hnm
        have f0 := ExpandFrame_createChild r this e.cFileName hthis
        have k0 := Keeps_createChild false r this e.cFileName hthis hfc
        have hs0 : GetFullName (createChild false r this e.cFileName) this = s :=
          (ExpandFrame_GetFullName f0).trans hs
        have hfull : GetFullName (createChild false r this e.cFileName)
            (numSlots r this :: this) = childPath s e.cFileName := by
          rw [GetFullName_child _ _ this _ hnm, hs0]
        have hold : ∀ x, nameAt r (x ++ numSlots r this :: this) = none := by
          intro x; rw [nameAt, deref_numSlots]; rfl
        cases hx : Expand oracle (m + 1) (createChild false r this e.cFileName)
            (numSlots r this :: this) with
        | none => rw [hx] at h; cases h
        | some r1 =>
          rw [hx, Option.some_bind] at h
          have k := Expand_frame oracle (m + 1) _ _ r1 hlive hx
          have hdeep : DeepExpanded oracle r1 (numSlots r this :: this)
              (childPath s e.cFileName) := by
            rw [← hfull]
            apply hB _ _ r1 hlive _ _ (hfull ▸ hfe) hx
            · rw [(hobs _ e.cFileName hthis).2, if_pos rfl]
            · intro j
              rw [(hobs _ e.cFileName hthis).1, if_neg (by
                intro h'; have := congrArg List.length h'; simp at this)]
              have := hold [j]
              simpa using this
          have hnm1 : nameAt r1 (numSlots r this :: this) = some e.cFileName :=
            k.2.2.trans hnm
          have hsib := sibling_same r r1 this e.cFileName hthis k.2
          apply ih (done ++ [e]) r1 r' (k.1.2 this (k0.2 this hthis))
            ((ExpandFrame_GetFullName (ExpandFrame_of_child k.2)).trans hs0) hfin' _ _ h
          · intro j c hjc
            by_cases hj : j = numSlots r this
            · subst hj
              rw [hnm1] at hjc
              cases hjc
              exact ⟨⟨e, by simp, hsk', rfl⟩, hdeep⟩
            · have e1 := (hsib j hj []).1
              simp only [List.nil_append] at e1
              rw [e1] at hjc
              obtain ⟨⟨e', he', hs', hc'⟩, hd⟩ := h2 j c hjc
              exact ⟨⟨e', List.mem_append_left _ he', hs', hc'⟩,
                DeepExpanded_congr oracle r r1 (j :: this) _ (hsib j hj) hd⟩
          · intro e' he' hs'
            rcases List.mem_append.1 he' with hm | hm
            · obtain ⟨j, hj⟩ := h3 e' hm hs'
              have hjn : j ≠ numSlots r this := by
                rintro rfl
                have := hold []
                simp only [List.nil_append] at this
                rw [this] at hj; cases hj
              have e1 := (hsib j hjn []).1
              simp only [List.nil_append] at e1
              exact ⟨j, e1.trans hj⟩
            · rw [List.mem_singleton] at hm
              subst hm; exact ⟨_, hnm1⟩

theorem Expand_deep (oracle : Oracle) :
    ∀ (d : Nat) (r : CFSNode) (a : Addr) (r' : CFSNode), (deref r a).isSome →
      flagAt r a = some false → (∀ j, nameAt r (j :: a) = none) →
      FiniteOk oracle d (GetFullName r a) → Expand oracle d r a = some r' →
      DeepExpanded oracle r' a (GetFullName r a) := by
  intro d
  induction d with
  | zero => intro r a r' _ _ _ _ h; simp [Expand] at h
  | succ n ih =>
    intro r a r' hlive hflag hno hfin h
    cases hfin with
    | mk _ _ L ho hch =>
      rw [Expand_succ_ok oracle n r a L (by rw [hflag]; simp) ho] at h
      cases hl : ExpandLoop (Expand oracle n) a L r with
      | none => rw [hl] at h; cases h
      | some r1 =>
        rw [hl] at h
        cases h
        obtain ⟨hl1, _, hi2, hi3⟩ := ExpandLoop_deep oracle n ih a (GetFullName r a) L [] r r1
          hlive rfl hch (fun j c hjc => by rw [hno j] at hjc; cases hjc)
          (fun e he => by cases he) hl
        simp only [List.nil_append] at hi2 hi3
        have hname : ∀ b, nameAt (update r1 a (CFSNode.setExpand true)) b = nameAt r1 b :=
          fun b => (obs_setExpand r1 a b true).1
        constructor
        · intro x hx
          rw [(obs_setExpand r1 a (x ++ a) true).2.2]
          rcases List.eq_nil_or_concat x with rfl | ⟨x', j, rfl⟩
          · simp only [List.nil_append, if_true]
            rw [flagAt]
            cases hd : deref r1 a with
            | none => simp [hd] at hl1
            | some m => rfl
          · rw [List.concat_eq_append] at hx ⊢
            have hne : x' ++ [j] ++ a ≠ a := by
              intro h'; have := congrArg List.length h'; simp at this; omega
            rw [if_neg hne]
            have hb : x' ++ [j] ++ a = x' ++ j :: a := by simp
            rw [hb] at hx ⊢
            have hx1 : (deref r1 (x' ++ j :: a)).isSome := by
              rw [← isSome_nameAt, ← hname, isSome_nameAt]; exact hx
            have hj : (deref r1 (j :: a)).isSome := isSome_of_suffix r1 ⟨x', rfl⟩ hx1
            cases hc : nameAt r1 (j :: a) with
            | none => rw [← isSome_nameAt, hc] at hj; cases hj
            | some c => exact (hi2 j c hc).2.1 x' hx1
        · intro chain
          rw [HasChain_congr r1 _ chain a (fun x => hname _)]
          cases chain with
          | nil => simp only [HasChain, OracleChain, hl1]
          | cons c rest =>
            simp only [HasChain, OracleChain]
            constructor
            · rintro ⟨i, h1, h2⟩
              obtain ⟨⟨e, he, hs, hc⟩, hd⟩ := hi2 i c h1
              exact ⟨⟨L, e, ho, he, hs, hc⟩, (hd.2 rest).1 h2⟩
            · rintro ⟨⟨L', e, ho', he, hs, hc⟩, h2⟩
              rw [ho] at ho'
              cases ho'
              obtain ⟨j, hj⟩ := hi3 e he hs
              rw [hc] at hj
              exact ⟨j, hj, ((hi2 j c hj).2.2 rest).2 h2⟩

/-- C12: with a finite oracle directory tree in which every enumeration
succeeds, `Expand()` on a collapsed node without children returns, and
afterwards every node of the subtree, the node itself included, has
`m_bExpand = TRUE`, and the name chains that lead down from the node through
the tree are exactly the chains of plain subdirectories that the oracle has
below the node. -/
theorem C12_Expand_is_eagerly_deep (oracle : Oracle) (d : Nat) (r : CFSNode) (this : Addr)
    (hlive : (deref r this).isSome) (hflag : flagAt r this = some false)
    (hno : ∀ j, deref r (j :: this) = none)
    (hfin : FiniteOk oracle d (GetFullName r this)) :
    ∃ r', Expand oracle d r this = some r' ∧
      (∀ x, (deref r' (x ++ this)).isSome → flagAt r' (x ++ this) = some true) ∧
      (∀ chain, HasChain r' this chain ↔ OracleChain oracle (GetFullName r this) chain) := by
  obtain ⟨r', hr'⟩ := Expand_returns oracle d r this hlive (FiniteOk_FiniteBelow oracle d _ hfin)
  have hno' : ∀ j, nameAt r (j :: this) = none := fun j => by rw [nameAt, hno j]; rfl
  have := Expand_deep oracle d r this r' hlive hflag hno' hfin hr'
  exact ⟨r', hr', this.1, this.2⟩

theorem exampleListing_finite :
    FiniteOk exampleListing 2 (GetFullName (AddPath freshRoot ['A']).2 [0]) := by
  refine FiniteOk.mk 1 _ exampleEntries rfl ?_
  intro e he hs
  simp only [exampleEntries, List.mem_cons, List.mem_singleton, List.not_mem_nil,
    or_false] at he
  rcases he with rfl | rfl | rfl | rfl
  · exact absurd hs (by decide)
  · exact absurd hs (by decide)
  · exact FiniteOk.mk 0 _ [] rfl (fun e he => by cases he)
  · exact FiniteOk.mk 0 _ [] rfl (fun e he => by cases he)

/-- C12 on the example listing: after `Expand()` on the collapsed childless
node `A`, the nodes `A`, `A\one` and `A\two` are expanded. -/
theorem C12_Expand_is_eagerly_deep_witness :
    (∃ r', Expand exampleListing 2 (AddPath freshRoot ['A']).2 [0] = some r' ∧
        (∀ x, (deref r' (x ++ [0])).isSome → flagAt r' (x ++ [0]) = some true) ∧
        (∀ chain, HasChain r' [0] chain ↔
          OracleChain exampleListing (GetFullName (AddPath freshRoot ['A']).2 [0]) chain)) ∧
      (Expand exampleListing 2 (AddPath freshRoot ['A']).2 [0]).map
          (fun r' => [flagAt r' [0], flagAt r' [0, 0], flagAt r' [1, 0], flagAt r' [2, 0]]) =
        some [some true, some true, some true, none] :=
  ⟨C12_Expand_is_eagerly_deep exampleListing 2 (AddPath freshRoot ['A']).2 [0] rfl (by decide)
      (fun j => by cases j <;> rfl) exampleListing_finite,
    by decide⟩

end DirTree
